import Mathlib

/-!
SingleLinkedList (single-linked-list.h)

A shallow embedding of the singly linked list of `single-linked-list.h`.

The C++ container is pointer based: nodes are allocated with `new`, released
with `delete`, and cursors hold raw node addresses.  The embedding keeps this
structure.  Memory is a store of cells indexed by address, a list object is its
sentinel member `head_` (living at an address of the store, so that
`before_begin()` can point at it) together with its counter `size_`, and every
member function is a function on the store.

* `new Node(v, n)` takes the first address never used before.
* `delete p` empties the cell at `p`.
* `assert(c)` with `c` false ends the call with `Fault.assertion`.
* Dereferencing a pointer that is not a live node ends the call with
  `Fault.invalid_access` (undefined behaviour in C++).
* Loops are bounded by a fuel argument; a loop that would run longer than
  the fuel ends with `Fault.out_of_fuel`.  The entry points pass the number of
  cells of the store plus one, which no walk over distinct nodes can exceed.

`size_` is a `size_t`.  It counts live nodes, of which an address space holds
fewer than `2^64`, so `++size_` is taken without wrap-around; `--size_` in
`EraseAfter` is not guarded by an assertion on `size_` and wraps from `0` to
`SIZE_MAX`.
-/

namespace SLL

/-! ## Memory -/

/-- Ways a call can end other than by returning. -/
inductive Fault where
  | assertion
  | invalid_access
  | out_of_fuel
  deriving DecidableEq, Repr

/-- A raw `Node*`; `none` is `nullptr`. -/
abbrev Ptr := Option Nat

/-- The node type `struct Node { Type value; Node* next_node = nullptr; }`. -/
structure Node (T : Type) where
  value : T
  next_node : Ptr
  deriving DecidableEq, Repr

/-- The store: cell `a` is `some n` when a live node `n` is at address `a`. -/
abbrev Heap (T : Type) := List (Option (Node T))

variable {T : Type}

/-- The live node at address `a`, if any. -/
def Heap.read (σ : Heap T) (a : Nat) : Option (Node T) :=
  match σ[a]? with
  | some (some n) => some n
  | _ => none

/-- Evaluation of `p->...`: the node `p` points to. -/
def Heap.load (σ : Heap T) (p : Ptr) : Except Fault (Node T) :=
  match p with
  | none => .error .invalid_access
  | some a =>
    match σ.read a with
    | some n => .ok n
    | none => .error .invalid_access

/-- Allocation `new Node(value, next)`: the new address and the new store. -/
def Heap.new (σ : Heap T) (value : T) (next : Ptr) : Nat × Heap T :=
  (σ.length, σ ++ [some ⟨value, next⟩])

/-- Release `delete p` of the node at address `a`. -/
def Heap.delete (σ : Heap T) (a : Nat) : Heap T :=
  σ.set a none

/-- Assignment `p->next_node = next` through the address `a` of a live node. -/
def Heap.setNext (σ : Heap T) (a : Nat) (next : Ptr) : Except Fault (Heap T) :=
  match σ.read a with
  | some n => .ok (σ.set a (some { n with next_node := next }))
  | none => .error .invalid_access

/-- Assignment `p->value = v` through the address `a` of a live node. -/
def Heap.setValue (σ : Heap T) (a : Nat) (v : T) : Except Fault (Heap T) :=
  match σ.read a with
  | some n => .ok (σ.set a (some { n with value := v }))
  | none => .error .invalid_access

/-! ## Cursors -/

/-- The class `BasicIterator`: a cursor is the address `node_` of a node, or `nullptr`. -/
structure BasicIterator where
  node_ : Ptr
  deriving DecidableEq, Repr

/-- The pre-increment `operator++`: asserts `node_ != nullptr`, then moves to `node_->next_node`. -/
def BasicIterator.increment (σ : Heap T) (it : BasicIterator) : Except Fault BasicIterator :=
  match it.node_ with
  | none => .error .assertion
  | some a =>
    match σ.read a with
    | some n => .ok ⟨n.next_node⟩
    | none => .error .invalid_access

/-- The dereference `operator*`: asserts `node_ != nullptr`, then yields `node_->value`. -/
def BasicIterator.deref (σ : Heap T) (it : BasicIterator) : Except Fault T :=
  match it.node_ with
  | none => .error .assertion
  | some a =>
    match σ.read a with
    | some n => .ok n.value
    | none => .error .invalid_access

/-! ## The list object -/

/-- A `SingleLinkedList` object: `head_` is the address of its sentinel member
node, `size_` its counter. -/
structure SingleLinkedList where
  head_ : Nat
  size_ : Nat
  deriving DecidableEq, Repr

/-- The largest `size_t`, taken 64 bits wide. -/
def SIZE_MAX : Nat := 2 ^ 64 - 1

/-- The decrement `--size_` on a `size_t`. -/
def decrement (n : Nat) : Nat := if n = 0 then SIZE_MAX else n - 1

/-- The default constructor `SingleLinkedList() = default`: the sentinel is a default-constructed node
(`dflt` is the default-constructed `Type`), its `next_node` is null, `size_`
is zero. -/
def construct (dflt : T) (σ : Heap T) : SingleLinkedList × Heap T :=
  let (h, σ1) := σ.new dflt none
  (⟨h, 0⟩, σ1)

/-- The member `GetSize()`. -/
def GetSize (l : SingleLinkedList) : Nat := l.size_

/-- The member `IsEmpty()`. -/
def IsEmpty (l : SingleLinkedList) : Bool := l.size_ == 0

/-- The members `before_begin()` and `cbefore_begin()`: a cursor to the sentinel. -/
def before_begin (l : SingleLinkedList) : BasicIterator := ⟨some l.head_⟩

/-- The members `begin()` and `cbegin()`: a cursor holding `head_.next_node`. -/
def begin (l : SingleLinkedList) (σ : Heap T) : Except Fault BasicIterator := do
  let h ← σ.load (some l.head_)
  pure ⟨h.next_node⟩

/-- The members `end()` and `cend()`: the null cursor. -/
def end_ : BasicIterator := ⟨none⟩

/-- The member `PushFront(value)`. -/
def PushFront (l : SingleLinkedList) (value : T) (σ : Heap T) :
    Except Fault (SingleLinkedList × Heap T) := do
  let h ← σ.load (some l.head_)
  let (new_node, σ1) := σ.new value h.next_node
  let σ2 ← σ1.setNext l.head_ (some new_node)
  pure ({ l with size_ := l.size_ + 1 }, σ2)

/-- The member `InsertAfter(pos, value)`: the returned cursor, the list and the store. -/
def InsertAfter (l : SingleLinkedList) (pos : BasicIterator) (value : T) (σ : Heap T) :
    Except Fault (BasicIterator × SingleLinkedList × Heap T) :=
  match pos.node_ with
  | none => .error .assertion
  | some p => do
    let n ← σ.load (some p)
    let (new_node, σ1) := σ.new value n.next_node
    let σ2 ← σ1.setNext p (some new_node)
    pure (⟨some new_node⟩, { l with size_ := l.size_ + 1 }, σ2)

/-- The member `PopFront()`. -/
def PopFront (l : SingleLinkedList) (σ : Heap T) :
    Except Fault (SingleLinkedList × Heap T) :=
  if l.size_ = 0 then .error .assertion
  else do
    let h ← σ.load (some l.head_)
    match h.next_node with
    | none => .error .invalid_access
    | some first => do
      let n ← σ.load (some first)
      let new_first_node := n.next_node
      let σ1 := σ.delete first
      let σ2 ← σ1.setNext l.head_ new_first_node
      pure ({ l with size_ := l.size_ - 1 }, σ2)

/-- The member `EraseAfter(pos)`: the returned cursor, the list and the store. -/
def EraseAfter (l : SingleLinkedList) (pos : BasicIterator) (σ : Heap T) :
    Except Fault (BasicIterator × SingleLinkedList × Heap T) :=
  match pos.node_ with
  | none => .error .assertion
  | some p => do
    let n ← σ.load (some p)
    match n.next_node with
    | none => .error .assertion
    | some q => do
      let m ← σ.load (some q)
      let new_after_pos := m.next_node
      let σ1 := σ.delete q
      let σ2 ← σ1.setNext p new_after_pos
      pure (⟨new_after_pos⟩, { l with size_ := decrement l.size_ }, σ2)

/-- The `while` loop of `Clear()`. -/
def clearLoop (head : Nat) : Nat → Heap T → Except Fault (Heap T)
  | 0, _ => .error .out_of_fuel
  | fuel + 1, σ => do
    let h ← σ.load (some head)
    match h.next_node with
    | none => pure σ
    | some ptr => do
      let n ← σ.load (some ptr)
      let σ1 ← σ.setNext head n.next_node
      clearLoop head fuel (σ1.delete ptr)

/-- The member `Clear()`. -/
def Clear (l : SingleLinkedList) (σ : Heap T) : Except Fault (SingleLinkedList × Heap T) := do
  let σ1 ← clearLoop l.head_ (σ.length + 1) σ
  pure ({ l with size_ := 0 }, σ1)

/-- The member `swap(other)`: exchanges the two `head_.next_node` and the two
`size_`; returns this list, the other list and the store. -/
def swap (l other : SingleLinkedList) (σ : Heap T) :
    Except Fault (SingleLinkedList × SingleLinkedList × Heap T) := do
  let a ← σ.load (some l.head_)
  let b ← σ.load (some other.head_)
  let σ1 ← σ.setNext l.head_ b.next_node
  let σ2 ← σ1.setNext other.head_ a.next_node
  pure ({ l with size_ := other.size_ }, { other with size_ := l.size_ }, σ2)

/-- The destructor `~SingleLinkedList()`: `Clear()`, after which the object,
and with it the sentinel member, is gone. -/
def destroy (l : SingleLinkedList) (σ : Heap T) : Except Fault (Heap T) := do
  let (_, σ1) ← Clear l σ
  pure (σ1.delete l.head_)

/-- The range-`for` loop `for (it = first; it != end(); ++it)` collecting `*it`. -/
def collect (σ : Heap T) : Nat → BasicIterator → Except Fault (List T)
  | 0, _ => .error .out_of_fuel
  | fuel + 1, it =>
    if it = end_ then pure []
    else do
      let v ← it.deref σ
      let it1 ← it.increment σ
      let rest ← collect σ fuel it1
      pure (v :: rest)

/-- The elements met iterating from `begin()` to `end()`. -/
def toList (l : SingleLinkedList) (σ : Heap T) : Except Fault (List T) := do
  let b ← begin l σ
  collect σ (σ.length + 1) b

/-- Following `next_node` from pointer `p` until null, counting the nodes. -/
def countNodes (σ : Heap T) : Nat → Ptr → Except Fault Nat
  | 0, _ => .error .out_of_fuel
  | _ + 1, none => pure 0
  | fuel + 1, some a => do
    let n ← σ.load (some a)
    let k ← countNodes σ fuel n.next_node
    pure (k + 1)

/-- The number of nodes visited following `next_node` from the sentinel. -/
def chainLength (l : SingleLinkedList) (σ : Heap T) : Except Fault Nat := do
  let h ← σ.load (some l.head_)
  countNodes σ (σ.length + 1) h.next_node

/-- The source of `CreateSingleLinkedList`: a literal list of values
(`std::initializer_list<Type>`) or another list. -/
inductive Container (T : Type) where
  | values (vs : List T)
  | list (other : SingleLinkedList)

/-- The `for` loop of `CreateSingleLinkedList` over a literal list of values. -/
def insertLoop : List T → Heap T → SingleLinkedList → BasicIterator →
    Except Fault (SingleLinkedList × Heap T)
  | [], σ, copy_container, _ => pure (copy_container, σ)
  | v :: vs, σ, copy_container, pos_before_insert => do
    let (pos1, copy1, σ1) ← InsertAfter copy_container pos_before_insert v σ
    insertLoop vs σ1 copy1 pos1

/-- The `for` loop of `CreateSingleLinkedList` over another list, `it` being the
cursor into the source. -/
def copyLoop : Nat → Heap T → SingleLinkedList → BasicIterator → BasicIterator →
    Except Fault (SingleLinkedList × Heap T)
  | 0, _, _, _, _ => .error .out_of_fuel
  | fuel + 1, σ, copy_container, pos_before_insert, it =>
    if it = end_ then pure (copy_container, σ)
    else do
      let v ← it.deref σ
      let (pos1, copy1, σ1) ← InsertAfter copy_container pos_before_insert v σ
      let it1 ← it.increment σ1
      copyLoop fuel σ1 copy1 pos1 it1

/-- The member template `CreateSingleLinkedList(container)` run on the list `l`:
fills a temporary list by `InsertAfter`, swaps it with `l`, and destroys the
temporary. -/
def CreateSingleLinkedList (l : SingleLinkedList) (container : Container T) (dflt : T)
    (σ : Heap T) : Except Fault (SingleLinkedList × Heap T) := do
  let (copy_container, σ1) := construct dflt σ
  let (copy1, σ2) ← match container with
    | .values vs => insertLoop vs σ1 copy_container (before_begin copy_container)
    | .list other => do
      let first ← begin other σ1
      copyLoop (σ1.length + 1) σ1 copy_container (before_begin copy_container) first
  let (l1, copy2, σ3) ← swap l copy1 σ2
  let σ4 ← destroy copy2 σ3
  pure (l1, σ4)

/-- The constructor `SingleLinkedList(std::initializer_list<Type> values)`. -/
def fromValues (values : List T) (dflt : T) (σ : Heap T) :
    Except Fault (SingleLinkedList × Heap T) :=
  let (l, σ1) := construct dflt σ
  CreateSingleLinkedList l (.values values) dflt σ1

/-- The copy constructor `SingleLinkedList(const SingleLinkedList& other)`. -/
def copyConstruct (other : SingleLinkedList) (dflt : T) (σ : Heap T) :
    Except Fault (SingleLinkedList × Heap T) :=
  let (l, σ1) := construct dflt σ
  CreateSingleLinkedList l (.list other) dflt σ1

/-- The copy assignment `operator=(rhs)`: the test `this != &rhs` compares the
addresses of the two objects. -/
def assign (l rhs : SingleLinkedList) (dflt : T) (σ : Heap T) :
    Except Fault (SingleLinkedList × Heap T) :=
  if l.head_ ≠ rhs.head_ then do
    let (copy, σ1) ← copyConstruct rhs dflt σ
    let (l1, copy1, σ2) ← swap l copy σ1
    let σ3 ← destroy copy1 σ2
    pure (l1, σ3)
  else pure (l, σ)

/-- The algorithm `std::equal(first1, end(), first2)` of the standard library,
as the standard describes it: compares the elements met from `first1` up to
`end()` with those met from `first2`, stopping at the first pair that is not
equal. -/
def equal [DecidableEq T] (σ : Heap T) : Nat → BasicIterator → BasicIterator → Except Fault Bool
  | 0, _, _ => .error .out_of_fuel
  | fuel + 1, first1, first2 =>
    if first1 = end_ then pure true
    else do
      let v1 ← first1.deref σ
      let v2 ← first2.deref σ
      if v1 = v2 then do
        let next1 ← first1.increment σ
        let next2 ← first2.increment σ
        equal σ fuel next1 next2
      else pure false

/-- The free function `operator==(lhs, rhs)`. -/
def eq [DecidableEq T] (lhs rhs : SingleLinkedList) (σ : Heap T) : Except Fault Bool :=
  if GetSize lhs = GetSize rhs then do
    let first1 ← begin lhs σ
    let first2 ← begin rhs σ
    equal σ (σ.length + 1) first1 first2
  else pure false

/-- The free function `operator!=(lhs, rhs)`. -/
def ne [DecidableEq T] (lhs rhs : SingleLinkedList) (σ : Heap T) : Except Fault Bool := do
  let r ← eq lhs rhs σ
  pure (!r)

/-- The algorithm `std::lexicographical_compare(first1, end(), first2, end())`
of the standard library, as the standard describes it: walks both ranges
together; at the first pair of elements of which one is less
than the other it answers which, and when a range ends it answers whether the
first range ended and the second did not. -/
def lexicographical_compare [LT T] [DecidableRel fun a b : T => a < b] (σ : Heap T) :
    Nat → BasicIterator → BasicIterator → Except Fault Bool
  | 0, _, _ => .error .out_of_fuel
  | fuel + 1, first1, first2 =>
    if first1 ≠ end_ ∧ first2 ≠ end_ then do
      let v1 ← first1.deref σ
      let v2 ← first2.deref σ
      if v1 < v2 then pure true
      else if v2 < v1 then pure false
      else do
        let next1 ← first1.increment σ
        let next2 ← first2.increment σ
        lexicographical_compare σ fuel next1 next2
    else pure (decide (first1 = end_) && decide (first2 ≠ end_))

/-- The free function `operator<(lhs, rhs)`. -/
def lt [LT T] [DecidableRel fun a b : T => a < b] (lhs rhs : SingleLinkedList) (σ : Heap T) :
    Except Fault Bool := do
  let first1 ← begin lhs σ
  let first2 ← begin rhs σ
  lexicographical_compare σ (σ.length + 1) first1 first2

/-- The free function `operator>(lhs, rhs)`. -/
def gt [LT T] [DecidableRel fun a b : T => a < b] (lhs rhs : SingleLinkedList) (σ : Heap T) :
    Except Fault Bool :=
  lt rhs lhs σ

/-- The free function `operator<=(lhs, rhs)`. -/
def le [LT T] [DecidableRel fun a b : T => a < b] (lhs rhs : SingleLinkedList) (σ : Heap T) :
    Except Fault Bool := do
  let r ← gt lhs rhs σ
  pure (!r)

/-- The free function `operator>=(lhs, rhs)`. -/
def ge [LT T] [DecidableRel fun a b : T => a < b] (lhs rhs : SingleLinkedList) (σ : Heap T) :
    Except Fault Bool := do
  let r ← lt lhs rhs σ
  pure (!r)

/-- The free function `swap(lhs, rhs)`, which calls `lhs.swap(rhs)`. -/
def free_swap (lhs rhs : SingleLinkedList) (σ : Heap T) :
    Except Fault (SingleLinkedList × SingleLinkedList × Heap T) :=
  swap lhs rhs σ

/-- The member access `operator->`: asserts `node_ != nullptr`, then yields
`&(node_->value)`, the address of the value slot of the node, given here as the
address of the node. -/
def BasicIterator.arrow (σ : Heap T) (it : BasicIterator) : Except Fault Nat :=
  match it.node_ with
  | none => .error .assertion
  | some a =>
    match σ.read a with
    | some _ => .ok a
    | none => .error .invalid_access

/-- The assignment `*it = v` through a cursor: `operator*` asserts
`node_ != nullptr` and yields a reference to `node_->value`. -/
def BasicIterator.assignValue (σ : Heap T) (it : BasicIterator) (v : T) :
    Except Fault (Heap T) :=
  match it.node_ with
  | none => .error .assertion
  | some a => σ.setValue a v

/-- The ways of mutating a list: its mutating member functions, and the
assignment `*pos = v` through a cursor. -/
inductive Mutation (T : Type) where
  | pushFront (v : T)
  | popFront
  | insertAfter (pos : BasicIterator) (v : T)
  | eraseAfter (pos : BasicIterator)
  | clear
  | assignThrough (pos : BasicIterator) (v : T)

/-- Running a mutation on the list `l`. -/
def Mutation.apply (m : Mutation T) (l : SingleLinkedList) (σ : Heap T) :
    Except Fault (SingleLinkedList × Heap T) :=
  match m with
  | .pushFront v => PushFront l v σ
  | .popFront => PopFront l σ
  | .insertAfter pos v => (InsertAfter l pos v σ).map fun r => (r.2.1, r.2.2)
  | .eraseAfter pos => (EraseAfter l pos σ).map fun r => (r.2.1, r.2.2)
  | .clear => Clear l σ
  | .assignThrough pos v => (pos.assignValue σ v).map fun τ => (l, τ)

/-- The calls `PushFront(v1); ...; PushFront(vn)` made one after the other. -/
def pushFrontAll : List T → SingleLinkedList → Heap T → Except Fault (SingleLinkedList × Heap T)
  | [], l, σ => pure (l, σ)
  | v :: vs, l, σ => do
    let (l1, σ1) ← PushFront l v σ
    pushFrontAll vs l1 σ1

/-! ## Copying elements that may throw

The functions above take the copy constructor of `Type` to always return.  The
ones below run the copy-assignment when it may throw: `throws k v` tells
whether the copy of the element `v`, the `k`-th copy made by the call, throws.
A call ends in `Except.ok (some r, σ)` when it returns `r`, and in
`Except.ok (none, σ)` when an exception leaves it, `σ` being the store once the
local objects of the call have been destroyed. -/

/-- The member `InsertAfter(pos, value)` when the copy of `value` made by
`new Node(value, pos.node_->next_node)` throws or not: when it throws, the
`new` expression gives back the memory it took and the exception leaves the
call, list and store untouched. -/
def InsertAfterCopying (throws : Bool) (l : SingleLinkedList) (pos : BasicIterator) (value : T)
    (σ : Heap T) : Except Fault (Option (BasicIterator × SingleLinkedList) × Heap T) :=
  match pos.node_ with
  | none => .error .assertion
  | some p => do
    let n ← σ.load (some p)
    if throws then pure (none, σ)
    else do
      let (new_node, σ1) := σ.new value n.next_node
      let σ2 ← σ1.setNext p (some new_node)
      pure (some (⟨some new_node⟩, { l with size_ := l.size_ + 1 }), σ2)

/-- The `for` loop of `CreateSingleLinkedList` over another list when copies may
throw; `k` counts the copies made so far.  The result tells whether an
exception left the loop, and gives the temporary list and the store. -/
def copyLoopCopying (throws : Nat → T → Bool) : Nat → Nat → Heap T → SingleLinkedList →
    BasicIterator → BasicIterator → Except Fault (Bool × SingleLinkedList × Heap T)
  | 0, _, _, _, _, _ => .error .out_of_fuel
  | fuel + 1, k, σ, copy_container, pos_before_insert, it =>
    if it = end_ then pure (false, copy_container, σ)
    else do
      let v ← it.deref σ
      let (r, σ1) ← InsertAfterCopying (throws k v) copy_container pos_before_insert v σ
      match r with
      | none => pure (true, copy_container, σ1)
      | some (pos1, copy1) => do
        let it1 ← it.increment σ1
        copyLoopCopying throws fuel (k + 1) σ1 copy1 pos1 it1

/-- The member template `CreateSingleLinkedList(other)` when copies may throw:
an exception leaving the loop destroys the local `copy_container` and leaves
the call before the swap. -/
def CreateSingleLinkedListCopying (throws : Nat → T → Bool) (l other : SingleLinkedList)
    (dflt : T) (σ : Heap T) : Except Fault (Option SingleLinkedList × Heap T) := do
  let (copy_container, σ1) := construct dflt σ
  let first ← begin other σ1
  let (thrown, copy1, σ2) ←
    copyLoopCopying throws (σ1.length + 1) 0 σ1 copy_container (before_begin copy_container) first
  if thrown then do
    let σ3 ← destroy copy1 σ2
    pure (none, σ3)
  else do
    let (l1, copy2, σ3) ← swap l copy1 σ2
    let σ4 ← destroy copy2 σ3
    pure (some l1, σ4)

/-- The copy constructor when copies may throw: an exception leaving the body
of the constructor ends the object under construction, whose sentinel member
goes away without the destructor being run. -/
def copyConstructCopying (throws : Nat → T → Bool) (other : SingleLinkedList) (dflt : T)
    (σ : Heap T) : Except Fault (Option SingleLinkedList × Heap T) := do
  let (l, σ1) := construct dflt σ
  let (r, σ2) ← CreateSingleLinkedListCopying throws l other dflt σ1
  match r with
  | none => pure (none, σ2.delete l.head_)
  | some l1 => pure (some l1, σ2)

/-- The copy assignment `operator=(rhs)` when copies may throw: an exception
leaving the construction of `copy` leaves the assignment before the swap. -/
def assignCopying (throws : Nat → T → Bool) (l rhs : SingleLinkedList) (dflt : T)
    (σ : Heap T) : Except Fault (Option SingleLinkedList × Heap T) :=
  if l.head_ ≠ rhs.head_ then do
    let (r, σ1) ← copyConstructCopying throws rhs dflt σ
    match r with
    | none => pure (none, σ1)
    | some copy => do
      let (l1, copy1, σ2) ← swap l copy σ1
      let σ3 ← destroy copy1 σ2
      pure (some l1, σ3)
  else pure (some l, σ)

/-- The loop `while (!list.IsEmpty()) it = list.EraseAfter(list.before_begin());`
recording, for each erasure, the cursor it returned and `begin()` of the list it
left. -/
def drainLoop : Nat → SingleLinkedList → Heap T →
    Except Fault (List (BasicIterator × BasicIterator) × SingleLinkedList × Heap T)
  | 0, _, _ => .error .out_of_fuel
  | fuel + 1, l, σ =>
    if IsEmpty l then pure ([], l, σ)
    else do
      let (it, l1, σ1) ← EraseAfter l (before_begin l) σ
      let first ← begin l1 σ1
      let (steps, l2, σ2) ← drainLoop fuel l1 σ1
      pure ((it, first) :: steps, l2, σ2)

/-- Draining a list by repeated `EraseAfter(before_begin())`. -/
def drain (l : SingleLinkedList) (σ : Heap T) :
    Except Fault (List (BasicIterator × BasicIterator) × SingleLinkedList × Heap T) :=
  drainLoop (σ.length + 1) l σ

/-- The comparison `a < b` of two lists constructed, in the empty store, from the
literal lists `xs` and `ys`. -/
def ltOfValues [LT T] [DecidableRel fun a b : T => a < b] (dflt : T) (xs ys : List T) :
    Except Fault Bool := do
  let (a, σ1) ← fromValues xs dflt []
  let (b, σ2) ← fromValues ys dflt σ1
  lt a b σ2

/-- The strict lexicographic order of the specification: `xs` is a proper prefix
of `ys`, or at the first index where they differ the element of `xs` is less
than the element of `ys`. -/
def LexLess [LT T] (xs ys : List T) : Prop :=
  (xs <+: ys ∧ xs ≠ ys) ∨
    ∃ (i : Nat) (x y : T), xs[i]? = some x ∧ ys[i]? = some y ∧ xs.take i = ys.take i ∧
      x ≠ y ∧ x < y

/-! ## The shape of a list in the store -/

/-- The segment predicate `Seg σ p cs`: following `next_node` from the pointer
`p` visits exactly the nodes `cs`, given as (address, value) pairs in order, and
then reaches null. -/
def Seg (σ : Heap T) : Ptr → List (Nat × T) → Prop
  | p, [] => p = none
  | p, c :: cs => p = some c.1 ∧ ∃ next, σ.read c.1 = some ⟨c.2, next⟩ ∧ Seg σ next cs

/-- The representation predicate `Repr σ l cs`, the size invariant of a list:
the sentinel of `l` is live, following `next_node` links from it visits exactly
the nodes `cs` before reaching null, and `size_` is their number. -/
def Repr (σ : Heap T) (l : SingleLinkedList) (cs : List (Nat × T)) : Prop :=
  (∃ h, σ.read l.head_ = some h ∧ Seg σ h.next_node cs) ∧ l.size_ = cs.length

/-- The addresses a list occupies: its sentinel and its nodes. -/
def footprint (l : SingleLinkedList) (cs : List (Nat × T)) : List Nat :=
  l.head_ :: cs.map Prod.fst

/-- The cursor at position `i` of a list: position `0` is `before_begin()`,
position `i + 1` is the node of index `i`; past the last node it is `end()`. -/
def cursorAt (l : SingleLinkedList) (cs : List (Nat × T)) (i : Nat) : BasicIterator :=
  ⟨(footprint l cs)[i]?⟩

/-- The footprint of a call, `Effect σ τ l cs l1 cs1`: a member function run on
the list `l` with nodes `cs` in store `σ` ends in store `τ` with the list `l1`
holding the nodes `cs1`, having changed no cell outside the list and taken its
new nodes from unused addresses. -/
structure Effect (σ τ : Heap T) (l : SingleLinkedList) (cs : List (Nat × T))
    (l1 : SingleLinkedList) (cs1 : List (Nat × T)) : Prop where
  repr : Repr τ l1 cs1
  frame : ∀ a, a < σ.length → a ∉ footprint l cs → τ.read a = σ.read a
  mono : σ.length ≤ τ.length
  fresh : ∀ a ∈ footprint l1 cs1, a ∈ footprint l cs ∨ σ.length ≤ a

/-- The footprint of a construction, `Created σ τ l cs`: a constructor run in
store `σ` ends in store `τ` with the new list `l` holding the nodes `cs`, all at
addresses unused in `σ`, and has changed no cell of `σ`. -/
structure Created (σ τ : Heap T) (l : SingleLinkedList) (cs : List (Nat × T)) : Prop where
  repr : Repr τ l cs
  frame : ∀ a, a < σ.length → τ.read a = σ.read a
  mono : σ.length ≤ τ.length
  fresh : ∀ a ∈ footprint l cs, σ.length ≤ a

/-- The contract `Mutation.Allowed m σ l cs` of the mutation `m` on the list `l`
with nodes `cs`: its cursor is `before_begin()` or points at a node of `l` (at a
node, for an assignment through it), `PopFront` finds the list non-empty, and
the cursor of `EraseAfter` has a successor. -/
def Mutation.Allowed (m : Mutation T) (σ : Heap T) (l : SingleLinkedList)
    (cs : List (Nat × T)) : Prop :=
  match m with
  | .pushFront _ => True
  | .popFront => cs ≠ []
  | .insertAfter pos _ => pos = before_begin l ∨ ∃ a ∈ cs.map Prod.fst, pos.node_ = some a
  | .eraseAfter pos => (pos = before_begin l ∨ ∃ a ∈ cs.map Prod.fst, pos.node_ = some a) ∧
      ∃ nxt, pos.increment σ = .ok nxt ∧ nxt ≠ end_
  | .clear => True
  | .assignThrough pos _ => ∃ a ∈ cs.map Prod.fst, pos.node_ = some a

/-! ## Reachable states -/

/-- The position condition `OnList σ l pos`: the cursor `pos` is
`before_begin()` of `l` or points at a node of the chain of `l`. -/
def OnList (σ : Heap T) (l : SingleLinkedList) (pos : BasicIterator) : Prop :=
  pos = before_begin l ∨
    ∃ cs : List (Nat × T), Repr σ l cs ∧ ∃ a ∈ cs.map Prod.fst, pos.node_ = some a

/-- The reachable states, `Reachable dflt σ ls`: the store `σ` with the live
list objects `ls` (in any order) is reached by default-constructing lists,
constructing them from a literal list or by copy, and calling `PushFront`,
`InsertAfter` at `before_begin()` or at a node of the same list, `PopFront` on a
non-empty list, `EraseAfter` at such a position with a successor, `Clear`,
`swap` and copy-assignment. -/
inductive Reachable (dflt : T) : Heap T → List SingleLinkedList → Prop
  | start (σ : Heap T) : Reachable dflt σ []
  | permute {σ : Heap T} {ls ms : List SingleLinkedList} :
      Reachable dflt σ ls → ls.Perm ms → Reachable dflt σ ms
  | default {σ : Heap T} {ls : List SingleLinkedList} :
      Reachable dflt σ ls → Reachable dflt (construct dflt σ).2 ((construct dflt σ).1 :: ls)
  | literal {σ τ : Heap T} {ls : List SingleLinkedList} {l : SingleLinkedList} (vs : List T) :
      Reachable dflt σ ls → fromValues vs dflt σ = .ok (l, τ) → Reachable dflt τ (l :: ls)
  | copy {σ τ : Heap T} {ls : List SingleLinkedList} {other l : SingleLinkedList} :
      Reachable dflt σ ls → other ∈ ls → copyConstruct other dflt σ = .ok (l, τ) →
      Reachable dflt τ (l :: ls)
  | pushFront {σ τ : Heap T} {ls : List SingleLinkedList} {l l1 : SingleLinkedList} (v : T) :
      Reachable dflt σ (l :: ls) → PushFront l v σ = .ok (l1, τ) → Reachable dflt τ (l1 :: ls)
  | insertAfter {σ τ : Heap T} {ls : List SingleLinkedList} {l l1 : SingleLinkedList}
      (pos it : BasicIterator) (v : T) :
      Reachable dflt σ (l :: ls) → OnList σ l pos → InsertAfter l pos v σ = .ok (it, l1, τ) →
      Reachable dflt τ (l1 :: ls)
  | popFront {σ τ : Heap T} {ls : List SingleLinkedList} {l l1 : SingleLinkedList} :
      Reachable dflt σ (l :: ls) → IsEmpty l = false → PopFront l σ = .ok (l1, τ) →
      Reachable dflt τ (l1 :: ls)
  | eraseAfter {σ τ : Heap T} {ls : List SingleLinkedList} {l l1 : SingleLinkedList}
      (pos it : BasicIterator) :
      Reachable dflt σ (l :: ls) → OnList σ l pos →
      (∃ nxt, pos.increment σ = .ok nxt ∧ nxt ≠ end_) →
      EraseAfter l pos σ = .ok (it, l1, τ) → Reachable dflt τ (l1 :: ls)
  | clear {σ τ : Heap T} {ls : List SingleLinkedList} {l l1 : SingleLinkedList} :
      Reachable dflt σ (l :: ls) → Clear l σ = .ok (l1, τ) → Reachable dflt τ (l1 :: ls)
  | swap {σ τ : Heap T} {ls : List SingleLinkedList} {a b a1 b1 : SingleLinkedList} :
      Reachable dflt σ (a :: b :: ls) → swap a b σ = .ok (a1, b1, τ) →
      Reachable dflt τ (a1 :: b1 :: ls)
  | swapSelf {σ τ : Heap T} {ls : List SingleLinkedList} {a a1 a2 : SingleLinkedList} :
      Reachable dflt σ (a :: ls) → swap a a σ = .ok (a1, a2, τ) → Reachable dflt τ (a1 :: ls)
  | assign {σ τ : Heap T} {ls : List SingleLinkedList} {a b a1 : SingleLinkedList} :
      Reachable dflt σ (a :: b :: ls) → assign a b dflt σ = .ok (a1, τ) →
      Reachable dflt τ (a1 :: b :: ls)
  | assignSelf {σ τ : Heap T} {ls : List SingleLinkedList} {a a1 : SingleLinkedList} :
      Reachable dflt σ (a :: ls) → assign a a dflt σ = .ok (a1, τ) → Reachable dflt τ (a1 :: ls)

/-- Two lists occupy disjoint cells of the store. -/
def Apart (σ : Heap T) (a b : SingleLinkedList) : Prop :=
  ∀ csa csb : List (Nat × T), Repr σ a csa → Repr σ b csb →
    (footprint a csa).Disjoint (footprint b csb)

/-- The invariant of reachable states: every live list is represented in the
store, and no two of them share a cell. -/
def WellFormed (σ : Heap T) (ls : List SingleLinkedList) : Prop :=
  (∀ l ∈ ls, ∃ cs : List (Nat × T), Repr σ l cs) ∧ ls.Pairwise (Apart σ)

/-! ## A concrete store -/

/-- A store holding one list: the sentinel at address `0`, then the node at
address `2` holding `5`, then the node at address `1` holding `7`. -/
def exampleHeap : Heap Nat :=
  [some ⟨0, some 2⟩, some ⟨7, none⟩, some ⟨5, some 1⟩]

/-- The list object of `exampleHeap`. -/
def exampleList : SingleLinkedList := ⟨0, 2⟩

/-- The nodes of `exampleList`, in order. -/
def exampleNodes : List (Nat × Nat) := [(2, 5), (1, 7)]

/-- The store `exampleHeap` with a second list: its sentinel at address `3` and
one node, at address `4`, holding `8`. -/
def exampleHeap2 : Heap Nat :=
  exampleHeap ++ [some ⟨0, some 4⟩, some ⟨8, none⟩]

/-- The second list object of `exampleHeap2`. -/
def exampleList2 : SingleLinkedList := ⟨3, 1⟩

/-! ## Lemmas on the store -/

theorem Heap.read_lt {σ : Heap T} {a : Nat} {n : Node T} (h : σ.read a = some n) :
    a < σ.length := by
  by_contra hlt
  have : σ[a]? = none := List.getElem?_eq_none (by omega)
  simp [Heap.read, this] at h

theorem Heap.read_append_lt (σ τ : Heap T) {a : Nat} (h : a < σ.length) :
    Heap.read (σ ++ τ) a = σ.read a := by
  simp [Heap.read, List.getElem?_append_left h]

theorem Heap.read_append_new (σ : Heap T) (n : Node T) :
    Heap.read (σ ++ [some n]) σ.length = some n := by
  simp [Heap.read]

theorem Heap.read_set_ne (σ : Heap T) {a b : Nat} (x : Option (Node T)) (h : a ≠ b) :
    Heap.read (σ.set a x) b = σ.read b := by
  simp [Heap.read, List.getElem?_set_ne h]

theorem Heap.read_set_eq (σ : Heap T) {a : Nat} (n : Node T) (h : a < σ.length) :
    Heap.read (σ.set a (some n)) a = some n := by
  simp [Heap.read, List.getElem?_set_self, h]

theorem Heap.read_delete_eq (σ : Heap T) (a : Nat) : Heap.read (σ.delete a) a = none := by
  by_cases h : a < σ.length
  · simp [Heap.read, Heap.delete, h]
  · have : (σ.set a none)[a]? = none := List.getElem?_eq_none (by simp; omega)
    simp [Heap.read, Heap.delete, this]

theorem Heap.read_delete_ne (σ : Heap T) {a b : Nat} (h : a ≠ b) :
    Heap.read (σ.delete a) b = σ.read b :=
  Heap.read_set_ne σ none h

theorem Heap.length_delete (σ : Heap T) (a : Nat) : (σ.delete a).length = σ.length := by
  simp [Heap.delete]

theorem Heap.load_some {σ : Heap T} {a : Nat} {n : Node T} (h : σ.read a = some n) :
    σ.load (some a) = .ok n := by
  simp [Heap.load, h]

theorem Heap.setNext_ok {σ : Heap T} {a : Nat} {n : Node T} (h : σ.read a = some n)
    (next : Ptr) : σ.setNext a next = .ok (σ.set a (some ⟨n.value, next⟩)) := by
  simp [Heap.setNext, h]

/-! ## Lemmas on segments -/

theorem Seg.lt_length {σ : Heap T} {p : Ptr} {cs : List (Nat × T)} (h : Seg σ p cs) :
    ∀ a ∈ cs.map Prod.fst, a < σ.length := by
  induction cs generalizing p with
  | nil => simp
  | cons c cs ih =>
    obtain ⟨_, next, hr, hs⟩ := h
    intro a ha
    simp only [List.map_cons, List.mem_cons] at ha
    rcases ha with rfl | ha
    · exact Heap.read_lt hr
    · exact ih hs a ha

theorem Seg.frame {σ τ : Heap T} {p : Ptr} {cs : List (Nat × T)} (h : Seg σ p cs)
    (hfr : ∀ a ∈ cs.map Prod.fst, τ.read a = σ.read a) : Seg τ p cs := by
  induction cs generalizing p with
  | nil => exact h
  | cons c cs ih =>
    obtain ⟨hp, next, hr, hs⟩ := h
    refine ⟨hp, next, ?_, ih hs fun a ha => hfr a (by simp [ha])⟩
    rw [hfr c.1 (by simp)]; exact hr

theorem Seg.functional {σ : Heap T} {p : Ptr} {cs ds : List (Nat × T)} (h : Seg σ p cs)
    (h' : Seg σ p ds) : cs = ds := by
  induction cs generalizing p ds with
  | nil =>
    cases ds with
    | nil => rfl
    | cons d ds => simp [Seg] at h h'; simp [h] at h'
  | cons c cs ih =>
    cases ds with
    | nil => simp [Seg] at h h'; simp [h'] at h
    | cons d ds =>
      obtain ⟨hp, next, hr, hs⟩ := h
      obtain ⟨hp', next', hr', hs'⟩ := h'
      have h1 : c.1 = d.1 := by rw [hp] at hp'; exact Option.some.inj hp'
      rw [h1, hr'] at hr
      have h2 : d.2 = c.2 ∧ next' = next := by simpa [Node.mk.injEq] using hr
      obtain ⟨h2, rfl⟩ := h2
      have : c = d := Prod.ext h1 h2.symm
      rw [this, ih hs hs']

/-- The part of a segment that starts at one of its nodes is a segment. -/
theorem Seg.suffix {σ : Heap T} {p : Ptr} {cs : List (Nat × T)} (h : Seg σ p cs) {a : Nat}
    (ha : a ∈ cs.map Prod.fst) :
    ∃ ds, Seg σ (some a) ds ∧ ds.length ≤ cs.length ∧ ds ≠ [] := by
  induction cs generalizing p with
  | nil => simp at ha
  | cons c cs ih =>
    obtain ⟨hp, next, hr, hs⟩ := h
    simp only [List.map_cons, List.mem_cons] at ha
    rcases ha with rfl | ha
    · exact ⟨c :: cs, ⟨rfl, next, hr, hs⟩, le_refl _, by simp⟩
    · obtain ⟨ds, h1, h2, h3⟩ := ih hs ha
      exact ⟨ds, h1, by simp; omega, h3⟩

theorem Seg.nodup {σ : Heap T} {p : Ptr} {cs : List (Nat × T)} (h : Seg σ p cs) :
    (cs.map Prod.fst).Nodup := by
  induction cs generalizing p with
  | nil => simp
  | cons c cs ih =>
    obtain ⟨hp, next, hr, hs⟩ := h
    rw [List.map_cons, List.nodup_cons]
    refine ⟨fun hmem => ?_, ih hs⟩
    obtain ⟨ds, h1, h2, h3⟩ := hs.suffix hmem
    have := Seg.functional h1 (show Seg σ (some c.1) (c :: cs) from ⟨rfl, next, hr, hs⟩)
    rw [this] at h2
    simp at h2

theorem Seg.length_le {σ : Heap T} {p : Ptr} {cs : List (Nat × T)} (h : Seg σ p cs) :
    cs.length ≤ σ.length := by
  have h1 : cs.map Prod.fst ⊆ List.range σ.length := fun a ha =>
    List.mem_range.mpr (h.lt_length a ha)
  have h2 := (List.subperm_of_subset h.nodup h1).length_le
  simpa using h2

theorem Seg.collect_eq {σ : Heap T} {p : Ptr} {cs : List (Nat × T)} (h : Seg σ p cs)
    {fuel : Nat} (hf : cs.length < fuel) : collect σ fuel ⟨p⟩ = .ok (cs.map Prod.snd) := by
  induction cs generalizing p fuel with
  | nil =>
    cases fuel with
    | zero => simp at hf
    | succ k =>
      have : p = none := h
      subst this
      simp [SLL.collect, end_]; rfl
  | cons c cs ih =>
    cases fuel with
    | zero => simp at hf
    | succ k =>
      obtain ⟨hp, next, hr, hs⟩ := h
      subst hp
      have hk : cs.length < k := by simpa using hf
      simp [SLL.collect, end_, BasicIterator.deref, BasicIterator.increment, hr, ih hs hk,
        bind, Except.bind, pure, Except.pure]

theorem Seg.countNodes_eq {σ : Heap T} {p : Ptr} {cs : List (Nat × T)} (h : Seg σ p cs)
    {fuel : Nat} (hf : cs.length < fuel) : countNodes σ fuel p = .ok cs.length := by
  induction cs generalizing p fuel with
  | nil =>
    cases fuel with
    | zero => simp at hf
    | succ k =>
      have : p = none := h
      subst this
      simp [SLL.countNodes]; rfl
  | cons c cs ih =>
    cases fuel with
    | zero => simp at hf
    | succ k =>
      obtain ⟨hp, next, hr, hs⟩ := h
      subst hp
      have hk : cs.length < k := by simpa using hf
      simp [SLL.countNodes, Heap.load, hr, ih hs hk, bind, Except.bind, pure, Except.pure]

/-! ## Lemmas on the representation of a list -/

theorem Repr.seg {σ : Heap T} {l : SingleLinkedList} {cs : List (Nat × T)} (h : Repr σ l cs) :
    ∃ d, Seg σ (some l.head_) ((l.head_, d) :: cs) := by
  obtain ⟨⟨n, hr, hs⟩, _⟩ := h
  exact ⟨n.value, rfl, n.next_node, hr, hs⟩

theorem Repr.of_seg {σ : Heap T} {l : SingleLinkedList} {cs : List (Nat × T)} {d : T} {p : Ptr}
    (h : Seg σ p ((l.head_, d) :: cs)) (hsz : l.size_ = cs.length) : Repr σ l cs := by
  obtain ⟨_, next, hr, hs⟩ := h
  exact ⟨⟨_, hr, hs⟩, hsz⟩

theorem Repr.nodup_footprint {σ : Heap T} {l : SingleLinkedList} {cs : List (Nat × T)} (h : Repr σ l cs) :
    (footprint l cs).Nodup := by
  obtain ⟨d, hs⟩ := h.seg
  simpa [footprint] using hs.nodup

theorem Repr.footprint_lt {σ : Heap T} {l : SingleLinkedList} {cs : List (Nat × T)}
    (h : Repr σ l cs) : ∀ a ∈ footprint l cs, a < σ.length := by
  obtain ⟨d, hs⟩ := h.seg
  simpa [footprint] using hs.lt_length

theorem Repr.unique {σ : Heap T} {l : SingleLinkedList} {cs ds : List (Nat × T)}
    (h : Repr σ l cs) (h' : Repr σ l ds) : cs = ds := by
  obtain ⟨⟨n, hr, hs⟩, _⟩ := h
  obtain ⟨⟨n', hr', hs'⟩, _⟩ := h'
  rw [hr] at hr'
  cases hr'
  exact hs.functional hs'

theorem Repr.transfer {σ τ : Heap T} {l : SingleLinkedList} {cs : List (Nat × T)}
    (h : Repr σ l cs) (hfr : ∀ a ∈ footprint l cs, τ.read a = σ.read a) : Repr τ l cs := by
  obtain ⟨d, hs⟩ := h.seg
  exact Repr.of_seg (hs.frame (by simpa [footprint] using hfr)) h.2

theorem Repr.length_lt {σ : Heap T} {l : SingleLinkedList} {cs : List (Nat × T)}
    (h : Repr σ l cs) : cs.length < σ.length := by
  obtain ⟨d, hs⟩ := h.seg
  have := hs.length_le
  simpa using this

theorem Repr.begin_eq {σ : Heap T} {l : SingleLinkedList} {cs : List (Nat × T)}
    (h : Repr σ l cs) : begin l σ = .ok ⟨(cs.map Prod.fst).head?⟩ ∧
      Seg σ (cs.map Prod.fst).head? cs := by
  obtain ⟨⟨n, hr, hs⟩, _⟩ := h
  have : n.next_node = (cs.map Prod.fst).head? := by
    cases cs with
    | nil => exact hs
    | cons c cs => exact hs.1
  rw [← this]
  exact ⟨by simp [begin, Heap.load, hr, bind, Except.bind, pure, Except.pure], hs⟩

theorem Repr.toList_eq {σ : Heap T} {l : SingleLinkedList} {cs : List (Nat × T)}
    (h : Repr σ l cs) : toList l σ = .ok (cs.map Prod.snd) := by
  obtain ⟨hb, hs⟩ := h.begin_eq
  have := hs.collect_eq (Nat.lt_succ_of_lt h.length_lt)
  simp only [toList, hb, bind, Except.bind]
  exact this

theorem Repr.chainLength_eq {σ : Heap T} {l : SingleLinkedList} {cs : List (Nat × T)}
    (h : Repr σ l cs) : chainLength l σ = .ok l.size_ := by
  obtain ⟨⟨n, hr, hs⟩, hsz⟩ := h
  have hlt := Repr.length_lt ⟨⟨n, hr, hs⟩, hsz⟩
  have := hs.countNodes_eq (Nat.lt_succ_of_lt hlt)
  simp [chainLength, Heap.load, hr, bind, Except.bind, this, hsz]

/-! ## Linking a node into a segment, and unlinking one -/

theorem Seg.insert {σ : Heap T} {p : Ptr} {pre post : List (Nat × T)} {c : Nat × T}
    (h : Seg σ p (pre ++ c :: post)) {next : Ptr} (hc : σ.read c.1 = some ⟨c.2, next⟩) (v : T) :
    Seg ((σ ++ [some (Node.mk v next)]).set c.1 (some (Node.mk c.2 (some σ.length)))) p
      (pre ++ c :: (σ.length, v) :: post) := by
  have hclt : c.1 < σ.length := Heap.read_lt hc
  induction pre generalizing p with
  | nil =>
    obtain ⟨hp, nx, hr, hs⟩ := h
    have hnd := Seg.nodup (show Seg σ (some c.1) (c :: post) from ⟨rfl, nx, hr, hs⟩)
    rw [hc] at hr
    cases hr
    show Seg _ p (c :: (σ.length, v) :: post)
    refine ⟨hp, some σ.length, ?_, rfl, next, ?_, ?_⟩
    · exact Heap.read_set_eq _ _ (by simp; omega)
    · rw [Heap.read_set_ne _ _ (by simp; omega)]
      exact Heap.read_append_new σ _
    · refine hs.frame fun a ha => ?_
      have hne : c.1 ≠ a := by
        rintro rfl
        simp only [List.map_cons, List.nodup_cons] at hnd
        exact hnd.1 ha
      rw [Heap.read_set_ne _ _ hne, Heap.read_append_lt _ _ (hs.lt_length a ha)]
  | cons b pre ih =>
    obtain ⟨hp, nx, hr, hs⟩ := h
    have hnd := Seg.nodup (show Seg σ (some b.1) (b :: (pre ++ c :: post)) from ⟨rfl, nx, hr, hs⟩)
    have hne : c.1 ≠ b.1 := by
      intro he
      simp only [List.map_cons, List.nodup_cons, List.map_append, List.mem_append,
        List.mem_cons] at hnd
      exact hnd.1 (Or.inr (Or.inl he.symm))
    refine ⟨hp, nx, ?_, ih hs⟩
    rw [Heap.read_set_ne _ _ hne, Heap.read_append_lt _ _ (Heap.read_lt hr)]
    exact hr

theorem Seg.erase {σ : Heap T} {p : Ptr} {pre post : List (Nat × T)} {c e : Nat × T}
    (h : Seg σ p (pre ++ c :: e :: post)) {next : Ptr} (he : σ.read e.1 = some ⟨e.2, next⟩) :
    Seg ((σ.delete e.1).set c.1 (some (Node.mk c.2 next))) p (pre ++ c :: post) := by
  induction pre generalizing p with
  | nil =>
    obtain ⟨hp, nx, hr, hs⟩ := h
    have hnd := Seg.nodup (show Seg σ (some c.1) (c :: e :: post) from ⟨rfl, nx, hr, hs⟩)
    obtain ⟨hp2, nx2, hr2, hs2⟩ := hs
    rw [he] at hr2
    cases hr2
    refine ⟨hp, next, ?_, ?_⟩
    · exact Heap.read_set_eq _ _ (by rw [Heap.length_delete]; exact Heap.read_lt hr)
    · refine hs2.frame fun a ha => ?_
      simp only [List.map_cons, List.nodup_cons, List.mem_cons, not_or] at hnd
      have h1 : c.1 ≠ a := by rintro rfl; exact hnd.1.2 ha
      have h2 : e.1 ≠ a := by rintro rfl; exact hnd.2.1 ha
      rw [Heap.read_set_ne _ _ h1, Heap.read_delete_ne _ h2]
  | cons b pre ih =>
    obtain ⟨hp, nx, hr, hs⟩ := h
    have hnd := Seg.nodup (show Seg σ (some b.1) (b :: (pre ++ c :: e :: post)) from
      ⟨rfl, nx, hr, hs⟩)
    simp only [List.map_cons, List.nodup_cons, List.map_append, List.mem_append,
      List.mem_cons, not_or] at hnd
    have h1 : c.1 ≠ b.1 := fun h => hnd.1.2.1 h.symm
    have h2 : e.1 ≠ b.1 := fun h => hnd.1.2.2.1 h.symm
    refine ⟨hp, nx, ?_, ih hs⟩
    rw [Heap.read_set_ne _ _ h1, Heap.read_delete_ne _ h2]
    exact hr

/-- The node at a position of a segment is live, and its `next_node` is the
address of the node that follows it. -/
theorem Seg.read_mid {σ : Heap T} {p : Ptr} {pre post : List (Nat × T)} {c : Nat × T}
    (h : Seg σ p (pre ++ c :: post)) :
    σ.read c.1 = some ⟨c.2, (post.map Prod.fst).head?⟩ ∧ Seg σ (post.map Prod.fst).head? post := by
  induction pre generalizing p with
  | nil =>
    obtain ⟨_, nx, hr, hs⟩ := h
    have : nx = (post.map Prod.fst).head? := by
      cases post with
      | nil => exact hs
      | cons e post => exact hs.1
    rw [← this]; exact ⟨hr, hs⟩
  | cons b pre ih =>
    obtain ⟨_, nx, hr, hs⟩ := h
    exact ih hs

/-! ## The member functions on a represented list -/

theorem cursorAt_zero (l : SingleLinkedList) (cs : List (Nat × T)) :
    cursorAt l cs 0 = before_begin l := by
  simp [cursorAt, footprint, before_begin]

theorem cursorAt_succ (l : SingleLinkedList) (cs : List (Nat × T)) (i : Nat) :
    cursorAt l cs (i + 1) = ⟨(cs.map Prod.fst)[i]?⟩ := by
  simp [cursorAt, footprint]

/-- Splitting the sentinel-and-nodes sequence of a list at position `i`. -/
theorem split_at (x : Nat × T) (cs : List (Nat × T)) {i : Nat} (hi : i ≤ cs.length) :
    ∃ c, (x :: cs)[i]? = some c ∧ x :: cs = (x :: cs).take i ++ c :: cs.drop i ∧
      (x :: cs).take i ++ [c] = x :: cs.take i := by
  have hlt : i < (x :: cs).length := by simp; omega
  refine ⟨(x :: cs)[i], List.getElem?_eq_getElem hlt, ?_, ?_⟩
  · have h1 := List.take_append_drop i (x :: cs)
    rw [List.drop_eq_getElem_cons hlt, List.drop_succ_cons] at h1
    exact h1.symm
  · rw [← List.take_succ_cons, List.take_succ, List.getElem?_eq_getElem hlt]
    rfl

theorem InsertAfter_effect {σ : Heap T} {l : SingleLinkedList} {cs : List (Nat × T)}
    (h : Repr σ l cs) {i : Nat} (hi : i ≤ cs.length) (v : T) :
    ∃ τ, InsertAfter l (cursorAt l cs i) v σ =
        .ok (⟨some σ.length⟩, ⟨l.head_, l.size_ + 1⟩, τ) ∧
      Effect σ τ l cs ⟨l.head_, l.size_ + 1⟩ (cs.take i ++ (σ.length, v) :: cs.drop i) ∧
      τ.length = σ.length + 1 := by
  obtain ⟨d, hs⟩ := h.seg
  obtain ⟨c, hc, hsplit, htake⟩ := split_at (l.head_, d) cs hi
  have hcur : cursorAt l cs i = ⟨some c.1⟩ := by
    have : footprint l cs = ((l.head_, d) :: cs).map Prod.fst := rfl
    rw [cursorAt, this, List.getElem?_map, hc]; rfl
  have hmem : c.1 ∈ footprint l cs := by
    have : c ∈ (l.head_, d) :: cs := by
      obtain ⟨h1, h2⟩ := List.getElem?_eq_some.mp hc
      rw [← h2]; exact List.getElem_mem h1
    exact List.mem_map_of_mem Prod.fst this
  rw [hsplit] at hs
  obtain ⟨hr, _⟩ := hs.read_mid
  have hlt := Heap.read_lt hr
  have hins := hs.insert hr v
  rw [← List.singleton_append (l := (σ.length, v) :: List.drop i cs), ← List.append_assoc,
    htake] at hins
  refine ⟨_, ?_, ⟨Repr.of_seg hins (by simp [h.2]; omega), ?_, ?_, ?_⟩, ?_⟩
  · rw [hcur]
    have h2 : Heap.read (σ ++ [some (Node.mk v ((List.drop i cs).map Prod.fst).head?)]) c.1 =
        some ⟨c.2, ((List.drop i cs).map Prod.fst).head?⟩ := by
      rw [Heap.read_append_lt _ _ hlt]; exact hr
    simp only [InsertAfter, Heap.load, hr, Heap.new, Heap.setNext, h2, bind, Except.bind, pure,
      Except.pure]
  · intro a _ ha
    have hne : c.1 ≠ a := by rintro rfl; exact ha hmem
    rw [Heap.read_set_ne _ _ hne, Heap.read_append_lt _ _ (by assumption)]
  · simp
  · intro a ha
    simp only [footprint, List.map_append, List.map_cons, List.mem_cons, List.mem_append] at ha ⊢
    rcases ha with rfl | ha | rfl | ha
    · exact Or.inl (Or.inl rfl)
    · exact Or.inl (Or.inr (List.map_subset _ (List.take_subset _ _) ha))
    · exact Or.inr (le_refl _)
    · exact Or.inl (Or.inr (List.map_subset _ (List.drop_subset _ _) ha))
  · simp

theorem decrement_pos {n : Nat} (h : n ≠ 0) : decrement n = n - 1 := by
  simp [decrement, h]

theorem EraseAfter_effect {σ : Heap T} {l : SingleLinkedList} {cs : List (Nat × T)}
    (h : Repr σ l cs) {i : Nat} (hi : i < cs.length) :
    ∃ τ, EraseAfter l (cursorAt l cs i) σ =
        .ok (⟨(cs.map Prod.fst)[i + 1]?⟩, ⟨l.head_, l.size_ - 1⟩, τ) ∧
      Effect σ τ l cs ⟨l.head_, l.size_ - 1⟩ (cs.eraseIdx i) ∧
      τ.length = σ.length := by
  obtain ⟨d, hs⟩ := h.seg
  obtain ⟨c, hc, hsplit, htake⟩ := split_at (l.head_, d) cs (Nat.le_of_lt hi)
  have hcur : cursorAt l cs i = ⟨some c.1⟩ := by
    have : footprint l cs = ((l.head_, d) :: cs).map Prod.fst := rfl
    rw [cursorAt, this, List.getElem?_map, hc]; rfl
  have hdrop : cs.drop i = cs[i] :: cs.drop (i + 1) := List.drop_eq_getElem_cons hi
  have hcmem : c.1 ∈ footprint l cs := by
    have : c ∈ (l.head_, d) :: cs := by
      obtain ⟨h1, h2⟩ := List.getElem?_eq_some.mp hc
      rw [← h2]; exact List.getElem_mem h1
    exact List.mem_map_of_mem Prod.fst this
  have hemem : cs[i].1 ∈ footprint l cs :=
    List.mem_cons_of_mem _ (List.mem_map_of_mem Prod.fst (List.getElem_mem hi))
  have hnd := hs.nodup
  rw [hsplit, hdrop] at hs hnd
  obtain ⟨hr, _⟩ := hs.read_mid
  have hs2 := hs
  rw [← List.singleton_append (l := cs[i] :: List.drop (i + 1) cs), ← List.append_assoc] at hs2
  obtain ⟨hre, _⟩ := hs2.read_mid
  have hne : cs[i].1 ≠ c.1 := by
    intro he
    simp only [List.map_append, List.map_cons, List.nodup_append, List.nodup_cons,
      List.mem_cons, not_or] at hnd
    exact hnd.2.1.1.1 he.symm
  have hers := hs.erase hre
  rw [← List.singleton_append (l := List.drop (i + 1) cs), ← List.append_assoc, htake,
    List.cons_append, ← List.eraseIdx_eq_take_drop_succ] at hers
  have hpos : 0 < cs.length := by omega
  have hnx : ((List.drop (i + 1) cs).map Prod.fst).head? = (cs.map Prod.fst)[i + 1]? := by
    rw [List.map_drop, List.head?_drop]
  refine ⟨_, ?_, ⟨Repr.of_seg hers ?_, ?_, ?_, ?_⟩, ?_⟩
  · rw [hcur]
    have h2 : Heap.read (σ.delete cs[i].1) c.1 = some ⟨c.2, some cs[i].1⟩ := by
      rw [Heap.read_delete_ne _ hne]; exact hr
    have h3 : decrement l.size_ = l.size_ - 1 := decrement_pos (by rw [h.2]; omega)
    simp only [List.map_cons, List.head?_cons] at hr
    simp only [EraseAfter, Heap.load, hr, hre, Heap.setNext, h2, h3, hnx, bind, Except.bind,
      pure, Except.pure]
  · simp [h.2, List.length_eraseIdx, hi]
  · intro a _ ha
    have h1 : c.1 ≠ a := by rintro rfl; exact ha hcmem
    have h2 : cs[i].1 ≠ a := by rintro rfl; exact ha hemem
    rw [Heap.read_set_ne _ _ h1, Heap.read_delete_ne _ h2]
  · simp [Heap.delete]
  · intro a ha
    simp only [footprint, List.mem_cons] at ha ⊢
    rcases ha with rfl | ha
    · exact Or.inl (Or.inl rfl)
    · exact Or.inl (Or.inr (List.map_subset _ (List.eraseIdx_subset _ _) ha))
  · simp [Heap.delete]

/-- The call `PushFront(v)` runs the same statements as `InsertAfter(before_begin(), v)`. -/
theorem PushFront_eq_InsertAfter (l : SingleLinkedList) (v : T) (σ : Heap T) :
    PushFront l v σ = (InsertAfter l (before_begin l) v σ).map fun r => (r.2.1, r.2.2) := by
  simp only [PushFront, InsertAfter, before_begin, Heap.new, bind, Except.bind, pure,
    Except.pure]
  cases σ.load (some l.head_) with
  | error e => rfl
  | ok h =>
    simp only [Except.map]
    cases Heap.setNext (σ ++ [some (Node.mk v h.next_node)]) l.head_ (some σ.length) <;> rfl

/-- On a list whose `size_` is not zero and whose first node exists, `PopFront()`
runs the same statements as `EraseAfter(before_begin())`. -/
theorem PopFront_eq_of_EraseAfter {l l1 : SingleLinkedList} {σ τ : Heap T} {it : BasicIterator}
    (hsz : l.size_ ≠ 0) (h : EraseAfter l (before_begin l) σ = .ok (it, l1, τ)) :
    PopFront l σ = .ok (l1, τ) := by
  simp only [PopFront, EraseAfter, before_begin, hsz, if_false, bind, Except.bind, pure,
    Except.pure, decrement_pos hsz] at h ⊢
  cases hl : σ.load (some l.head_) with
  | error e => simp [hl] at h
  | ok hd =>
    simp only [hl] at h ⊢
    cases hn : hd.next_node with
    | none => simp [hn] at h
    | some q =>
      simp only [hn] at h ⊢
      cases hq : σ.load (some q) with
      | error e => simp [hq] at h
      | ok m =>
        simp only [hq] at h ⊢
        cases hw : Heap.setNext (σ.delete q) l.head_ m.next_node with
        | error e => simp [hw] at h
        | ok υ =>
          simp only [hw, Except.ok.injEq, Prod.mk.injEq] at h ⊢
          exact ⟨h.2.1, h.2.2⟩

theorem PushFront_effect {σ : Heap T} {l : SingleLinkedList} {cs : List (Nat × T)}
    (h : Repr σ l cs) (v : T) :
    ∃ τ, PushFront l v σ = .ok (⟨l.head_, l.size_ + 1⟩, τ) ∧
      Effect σ τ l cs ⟨l.head_, l.size_ + 1⟩ ((σ.length, v) :: cs) ∧
      τ.length = σ.length + 1 := by
  obtain ⟨τ, h1, h2, h3⟩ := InsertAfter_effect h (Nat.zero_le _) v
  rw [cursorAt_zero] at h1
  refine ⟨τ, ?_, by simpa using h2, h3⟩
  rw [PushFront_eq_InsertAfter, h1]; rfl

theorem PopFront_effect {σ : Heap T} {l : SingleLinkedList} {c : Nat × T} {cs : List (Nat × T)}
    (h : Repr σ l (c :: cs)) :
    ∃ τ, PopFront l σ = .ok (⟨l.head_, l.size_ - 1⟩, τ) ∧
      Effect σ τ l (c :: cs) ⟨l.head_, l.size_ - 1⟩ cs ∧ τ.length = σ.length := by
  obtain ⟨τ, h1, h2, h3⟩ := EraseAfter_effect h (i := 0) (by simp)
  rw [cursorAt_zero] at h1
  have hsz : l.size_ ≠ 0 := by rw [h.2]; simp
  exact ⟨τ, PopFront_eq_of_EraseAfter hsz h1, by simpa using h2, h3⟩

theorem construct_effect (dflt : T) (σ : Heap T) :
    construct dflt σ = (⟨σ.length, 0⟩, σ ++ [some ⟨dflt, none⟩]) ∧
      Repr (σ ++ [some ⟨dflt, none⟩]) ⟨σ.length, 0⟩ [] := by
  refine ⟨rfl, ⟨⟨dflt, none⟩, Heap.read_append_new σ _, rfl⟩, rfl⟩

/-- The loop of `Clear()` releases every node and leaves the sentinel with a
null `next_node`. -/
theorem clearLoop_seg {σ : Heap T} {head : Nat} {d : T} {cs : List (Nat × T)}
    (h : Seg σ (some head) ((head, d) :: cs)) {fuel : Nat} (hf : cs.length < fuel) :
    ∃ τ, clearLoop head fuel σ = .ok τ ∧ τ.length = σ.length ∧
      τ.read head = some ⟨d, none⟩ ∧
      (∀ a, a ≠ head → a ∉ cs.map Prod.fst → τ.read a = σ.read a) ∧
      (∀ a ∈ cs.map Prod.fst, τ.read a = none) := by
  induction cs generalizing σ fuel with
  | nil =>
    cases fuel with
    | zero => simp at hf
    | succ k =>
      obtain ⟨_, nx, hr, hs⟩ := h
      have : nx = none := hs
      subst this
      refine ⟨σ, ?_, rfl, hr, fun _ _ _ => rfl, by simp⟩
      simp [clearLoop, Heap.load, hr, bind, Except.bind, pure, Except.pure]
  | cons e cs ih =>
    cases fuel with
    | zero => simp at hf
    | succ k =>
      have hnd := h.nodup
      have h0 := h
      obtain ⟨_, nx, hr, hp, nx2, hre, hs2⟩ := h
      have hnx : nx = some e.1 := hp
      subst hnx
      simp only [List.map_cons, List.nodup_cons, List.mem_cons, not_or] at hnd
      have hne : head ≠ e.1 := hnd.1.1
      have hers := @Seg.erase T σ (some head) [] cs (head, d) e h0 nx2 hre
      simp only [List.nil_append, Heap.delete] at hers
      rw [List.set_comm _ _ _ (Ne.symm hne)] at hers
      have hk : cs.length < k := by simpa using hf
      obtain ⟨τ, h1, h2, h3, h4, h5⟩ := ih hers hk
      refine ⟨τ, ?_, ?_, h3, ?_, ?_⟩
      · simp only [clearLoop, Heap.load, hr, hre, Heap.setNext, Heap.delete, bind, Except.bind,
          pure, Except.pure]
        exact h1
      · simpa using h2
      · intro a ha1 ha2
        simp only [List.map_cons, List.mem_cons, not_or] at ha2
        rw [h4 a ha1 ha2.2, Heap.read_set_ne _ _ (Ne.symm ha2.1), Heap.read_set_ne _ _ (Ne.symm ha1)]
      · intro a ha
        simp only [List.map_cons, List.mem_cons] at ha
        by_cases hmem : a ∈ cs.map Prod.fst
        · exact h5 a hmem
        · have hae : a = e.1 := by tauto
          subst hae
          rw [h4 _ (Ne.symm hne) hmem]
          exact Heap.read_delete_eq _ _

theorem Clear_effect {σ : Heap T} {l : SingleLinkedList} {cs : List (Nat × T)}
    (h : Repr σ l cs) :
    ∃ τ, Clear l σ = .ok (⟨l.head_, 0⟩, τ) ∧ Effect σ τ l cs ⟨l.head_, 0⟩ [] ∧
      τ.length = σ.length ∧ (∀ a ∈ cs.map Prod.fst, τ.read a = none) := by
  obtain ⟨d, hs⟩ := h.seg
  obtain ⟨τ, h1, h2, h3, h4, h5⟩ := clearLoop_seg hs (Nat.lt_succ_of_lt h.length_lt)
  refine ⟨τ, ?_, ⟨⟨⟨_, h3, rfl⟩, rfl⟩, ?_, by omega, ?_⟩, h2, h5⟩
  · simp [Clear, h1, bind, Except.bind, pure, Except.pure]
  · intro a _ ha
    simp only [footprint, List.mem_cons, not_or] at ha
    exact h4 a ha.1 ha.2
  · intro a ha
    simp only [footprint, List.map_nil, List.mem_cons, List.not_mem_nil, or_false] at ha
    exact Or.inl (by simp [footprint, ha])

/-! ## Cursors on a represented list -/

/-- A cursor that is `before_begin()` or points at a node of the list is the
cursor of some position of the list. -/
theorem position_index {l : SingleLinkedList} {cs : List (Nat × T)} {pos : BasicIterator}
    (hpos : pos = before_begin l ∨ ∃ a ∈ cs.map Prod.fst, pos.node_ = some a) :
    ∃ i, i ≤ cs.length ∧ pos = cursorAt l cs i := by
  rcases hpos with rfl | ⟨a, ha, hp⟩
  · exact ⟨0, Nat.zero_le _, (cursorAt_zero l cs).symm⟩
  · obtain ⟨n, hn, rfl⟩ := List.mem_iff_getElem.mp ha
    refine ⟨n + 1, by simpa using hn, ?_⟩
    rw [cursorAt_succ, List.getElem?_eq_getElem hn]
    cases pos
    simpa using hp

theorem cursor_read {σ : Heap T} {l : SingleLinkedList} {cs : List (Nat × T)}
    (h : Repr σ l cs) {i : Nat} (hi : i ≤ cs.length) :
    ∃ a n, (cursorAt l cs i).node_ = some a ∧ σ.read a = some n ∧
      n.next_node = (cursorAt l cs (i + 1)).node_ ∧
      ∀ j, i = j + 1 → (cs.map Prod.snd)[j]? = some n.value := by
  obtain ⟨d, hs⟩ := h.seg
  obtain ⟨c, hc, hsplit, htake⟩ := split_at (l.head_, d) cs hi
  rw [hsplit] at hs
  obtain ⟨hr, _⟩ := hs.read_mid
  refine ⟨c.1, _, ?_, hr, ?_, ?_⟩
  · have : footprint l cs = ((l.head_, d) :: cs).map Prod.fst := rfl
    rw [cursorAt, this, List.getElem?_map, hc]; rfl
  · rw [cursorAt_succ, List.map_drop, List.head?_drop]
  · rintro j rfl
    rw [List.getElem?_cons_succ] at hc
    rw [List.getElem?_map, hc]; rfl

theorem cursor_increment {σ : Heap T} {l : SingleLinkedList} {cs : List (Nat × T)}
    (h : Repr σ l cs) {i : Nat} (hi : i ≤ cs.length) :
    (cursorAt l cs i).increment σ = .ok (cursorAt l cs (i + 1)) := by
  obtain ⟨a, n, h1, h2, h3, _⟩ := cursor_read h hi
  simp [BasicIterator.increment, h1, h2, h3]

theorem cursor_deref {σ : Heap T} {l : SingleLinkedList} {cs : List (Nat × T)}
    (h : Repr σ l cs) {i : Nat} {v : T} (hv : (cs.map Prod.snd)[i]? = some v) :
    (cursorAt l cs (i + 1)).deref σ = .ok v := by
  have hi : i < cs.length := by
    obtain ⟨h1, _⟩ := List.getElem?_eq_some.mp hv
    simpa using h1
  obtain ⟨a, n, h1, h2, _, h4⟩ := cursor_read h (i := i + 1) hi
  have := h4 i rfl
  rw [hv] at this
  simp [BasicIterator.deref, h1, h2, Option.some.inj this]

theorem cursor_end (l : SingleLinkedList) (cs : List (Nat × T)) :
    cursorAt l cs (cs.length + 1) = end_ := by
  rw [cursorAt_succ, List.getElem?_eq_none (by simp)]; rfl

theorem cursor_ne_end {l : SingleLinkedList} {cs : List (Nat × T)} {i : Nat}
    (hi : i ≤ cs.length) : cursorAt l cs i ≠ end_ := by
  have : i < (footprint l cs).length := by simp [footprint]; omega
  simp [cursorAt, end_, List.getElem?_eq_getElem this]

theorem Repr.begin_cursor {σ : Heap T} {l : SingleLinkedList} {cs : List (Nat × T)}
    (h : Repr σ l cs) : begin l σ = .ok (cursorAt l cs 1) := by
  rw [h.begin_eq.1, cursorAt_succ, List.head?_eq_getElem?]

theorem Effect.trans {σ τ υ : Heap T} {l l1 l2 : SingleLinkedList} {cs cs1 cs2 : List (Nat × T)}
    (h1 : Effect σ τ l cs l1 cs1) (h2 : Effect τ υ l1 cs1 l2 cs2) :
    Effect σ υ l cs l2 cs2 := by
  refine ⟨h2.repr, ?_, le_trans h1.mono h2.mono, ?_⟩
  · intro a ha hn
    rw [h2.frame a (lt_of_lt_of_le ha h1.mono) ?_, h1.frame a ha hn]
    intro hmem
    rcases h1.fresh a hmem with h | h
    · exact hn h
    · omega
  · intro a ha
    rcases h2.fresh a ha with h | h
    · exact h1.fresh a h
    · exact Or.inr (le_trans h1.mono h)

theorem Effect.refl {σ : Heap T} {l : SingleLinkedList} {cs : List (Nat × T)}
    (h : Repr σ l cs) : Effect σ σ l cs l cs :=
  ⟨h, fun _ _ _ => rfl, le_refl _, fun _ ha => Or.inl ha⟩

theorem pushFrontAll_effect (vs : List T) {σ : Heap T} {l : SingleLinkedList}
    {cs : List (Nat × T)} (h : Repr σ l cs) :
    ∃ l1 τ cs1, pushFrontAll vs l σ = .ok (l1, τ) ∧ Effect σ τ l cs l1 cs1 ∧
      cs1.map Prod.snd = vs.reverse ++ cs.map Prod.snd ∧ l1.size_ = l.size_ + vs.length := by
  induction vs generalizing σ l cs with
  | nil => exact ⟨l, σ, cs, rfl, Effect.refl h, by simp, by simp⟩
  | cons v vs ih =>
    obtain ⟨τ, h1, h2, _⟩ := PushFront_effect h v
    obtain ⟨l1, υ, cs1, h3, h4, h5, h6⟩ := ih h2.repr
    refine ⟨l1, υ, cs1, ?_, h2.trans h4, by simp [h5], by simp [h6]; omega⟩
    simp only [pushFrontAll, h1, bind, Except.bind]
    exact h3

theorem getElem?_insert_lt {α : Type} (xs : List α) (y : α) {i j : Nat} (hi : i ≤ xs.length)
    (hj : j < i) : (xs.take i ++ y :: xs.drop i)[j]? = xs[j]? := by
  have hlen : (xs.take i).length = i := List.length_take_of_le hi
  rw [List.getElem?_append_left (by omega), List.getElem?_take_of_lt hj]

theorem getElem?_insert_eq {α : Type} (xs : List α) (y : α) {i : Nat} (hi : i ≤ xs.length) :
    (xs.take i ++ y :: xs.drop i)[i]? = some y := by
  have hlen : (xs.take i).length = i := List.length_take_of_le hi
  rw [List.getElem?_append_right (by omega), hlen, Nat.sub_self, List.getElem?_cons_zero]

theorem getElem?_insert_succ {α : Type} (xs : List α) (y : α) {i : Nat} (hi : i ≤ xs.length) :
    (xs.take i ++ y :: xs.drop i)[i + 1]? = xs[i]? := by
  have hlen : (xs.take i).length = i := List.length_take_of_le hi
  rw [List.getElem?_append_right (by omega), hlen, Nat.add_sub_cancel_left,
    List.getElem?_cons_succ, ← List.head?_eq_getElem?, List.head?_drop]

/-! ## PushFront -/

/-- C2. Starting from an empty list, the calls `PushFront(v1), ...,
PushFront(vn)` all return, `GetSize()` is then `n`, and iterating from `begin()`
to `end()` yields `vn, ..., v1`. -/
theorem pushFront_sequence {σ : Heap T} {l : SingleLinkedList} (h : Repr σ l [])
    (vs : List T) :
    ∃ l1 τ, pushFrontAll vs l σ = .ok (l1, τ) ∧
      GetSize l1 = vs.length ∧ toList l1 τ = .ok vs.reverse := by
  obtain ⟨l1, τ, cs, h1, h2, h3, h4⟩ := pushFrontAll_effect vs h
  refine ⟨l1, τ, h1, ?_, ?_⟩
  · have := h.2
    simp only [GetSize, List.length_nil] at this ⊢
    omega
  · rw [h2.repr.toList_eq, h3]; simp

/-! ## InsertAfter -/

/-- C3. On a list with nodes `cs`, for a cursor `pos` that is `before_begin()` or
points at a node of the list, `InsertAfter(pos, v)` returns; `pos` is the cursor
of a position `i`, the traversal, which was `xs`, becomes `xs` with `v` inserted
at index `i` (right after the position, all other elements kept in order),
`GetSize()` grows by one, the returned cursor is the successor of `pos`,
dereferences to `v`, and its successor is the cursor that followed `pos`
before the call (`end()` when `pos` was the last node). -/
theorem insertAfter_spec {σ : Heap T} {l : SingleLinkedList} {cs : List (Nat × T)}
    (h : Repr σ l cs) {pos : BasicIterator}
    (hpos : pos = before_begin l ∨ ∃ a ∈ cs.map Prod.fst, pos.node_ = some a) (v : T) :
    ∃ i it l1 τ, i ≤ cs.length ∧ pos = cursorAt l cs i ∧
      InsertAfter l pos v σ = .ok (it, l1, τ) ∧
      toList l σ = .ok (cs.map Prod.snd) ∧
      toList l1 τ = .ok ((cs.map Prod.snd).take i ++ v :: (cs.map Prod.snd).drop i) ∧
      GetSize l1 = GetSize l + 1 ∧
      pos.increment τ = .ok it ∧
      it.deref τ = .ok v ∧
      pos.increment σ = .ok (cursorAt l cs (i + 1)) ∧
      it.increment τ = .ok (cursorAt l cs (i + 1)) ∧
      (i = cs.length → cursorAt l cs (i + 1) = end_) := by
  obtain ⟨i, hi, rfl⟩ := position_index hpos
  obtain ⟨τ, h1, h2, _⟩ := InsertAfter_effect h hi v
  have hr := h2.repr
  have hlen : (cs.take i).length = i := List.length_take_of_le hi
  have hi1 : i ≤ (cs.take i ++ (σ.length, v) :: cs.drop i).length := by
    rw [List.length_append, hlen]; omega
  have hi2 : i + 1 ≤ (cs.take i ++ (σ.length, v) :: cs.drop i).length := by
    rw [List.length_append, hlen, List.length_cons]; omega
  have hcur1 : cursorAt (SingleLinkedList.mk l.head_ (l.size_ + 1))
      (cs.take i ++ (σ.length, v) :: cs.drop i) i = cursorAt l cs i := by
    cases i with
    | zero => simp [cursorAt, footprint]
    | succ j =>
      rw [cursorAt_succ, cursorAt_succ, List.getElem?_map, List.getElem?_map,
        getElem?_insert_lt _ _ hi (Nat.lt_succ_self j)]
  have hcur2 : cursorAt (SingleLinkedList.mk l.head_ (l.size_ + 1))
      (cs.take i ++ (σ.length, v) :: cs.drop i) (i + 1) = ⟨some σ.length⟩ := by
    rw [cursorAt_succ, List.getElem?_map, getElem?_insert_eq _ _ hi]; rfl
  have hcur3 : cursorAt (SingleLinkedList.mk l.head_ (l.size_ + 1))
      (cs.take i ++ (σ.length, v) :: cs.drop i) (i + 1 + 1) = cursorAt l cs (i + 1) := by
    rw [cursorAt_succ, cursorAt_succ, List.getElem?_map, List.getElem?_map,
      getElem?_insert_succ _ _ hi]
  have hv : ((cs.take i ++ (σ.length, v) :: cs.drop i).map Prod.snd)[i]? = some v := by
    rw [List.getElem?_map, getElem?_insert_eq _ _ hi]; rfl
  refine ⟨i, _, _, τ, hi, rfl, h1, h.toList_eq, ?_, rfl, ?_, ?_, cursor_increment h hi, ?_, ?_⟩
  · rw [hr.toList_eq]; simp [List.map_take, List.map_drop]
  · have := cursor_increment hr hi1
    rwa [hcur1, hcur2] at this
  · have := cursor_deref hr hv
    rwa [hcur2] at this
  · have := cursor_increment hr hi2
    rwa [hcur2, hcur3] at this
  · rintro rfl; exact cursor_end l cs

theorem map_eraseIdx {α β : Type} (f : α → β) (xs : List α) (i : Nat) :
    (xs.eraseIdx i).map f = (xs.map f).eraseIdx i := by
  induction xs generalizing i with
  | nil => rfl
  | cons x xs ih =>
    cases i with
    | zero => rfl
    | succ j => simp [List.eraseIdx, ih]

/-! ## EraseAfter -/

/-- C4. On a list with nodes `cs`, for a cursor `pos` that is `before_begin()` or
points at a node of the list and has a successor, `EraseAfter(pos)` returns;
`pos` is the cursor of a position `i`, the traversal, which was `xs`, becomes
`xs` without its element of index `i` (the one right after the position, all
others kept in order), `GetSize()` shrinks by one, and the returned cursor is the
new successor of `pos`: the cursor that was two steps after `pos` before the
call, which is `end()` when the removed element was the last one. -/
theorem eraseAfter_spec {σ : Heap T} {l : SingleLinkedList} {cs : List (Nat × T)}
    (h : Repr σ l cs) {pos : BasicIterator}
    (hpos : pos = before_begin l ∨ ∃ a ∈ cs.map Prod.fst, pos.node_ = some a)
    (hsucc : ∃ nxt, pos.increment σ = .ok nxt ∧ nxt ≠ end_) :
    ∃ i it l1 τ, i < cs.length ∧ pos = cursorAt l cs i ∧
      EraseAfter l pos σ = .ok (it, l1, τ) ∧
      toList l σ = .ok (cs.map Prod.snd) ∧
      toList l1 τ = .ok ((cs.map Prod.snd).eraseIdx i) ∧
      GetSize l1 + 1 = GetSize l ∧
      pos.increment τ = .ok it ∧
      it = cursorAt l cs (i + 2) ∧
      (i + 1 = cs.length → it = end_) := by
  obtain ⟨i, hi, rfl⟩ := position_index hpos
  obtain ⟨nxt, hn1, hn2⟩ := hsucc
  rw [cursor_increment h hi] at hn1
  have hlt : i < cs.length := by
    rcases Nat.lt_or_ge i cs.length with h1 | h1
    · exact h1
    · have : i = cs.length := by omega
      subst this
      rw [cursor_end] at hn1
      exact absurd (Except.ok.inj hn1).symm hn2
  obtain ⟨τ, h1, h2, _⟩ := EraseAfter_effect h hlt
  have hr := h2.repr
  have hlen : i ≤ (cs.eraseIdx i).length := by
    rw [List.length_eraseIdx, if_pos hlt]; omega
  have hcur1 : cursorAt (SingleLinkedList.mk l.head_ (l.size_ - 1)) (cs.eraseIdx i) i =
      cursorAt l cs i := by
    cases i with
    | zero => simp [cursorAt, footprint]
    | succ j =>
      rw [cursorAt_succ, cursorAt_succ, map_eraseIdx,
        List.getElem?_eraseIdx_of_lt _ _ _ (Nat.lt_succ_self j)]
  have hcur2 : cursorAt (SingleLinkedList.mk l.head_ (l.size_ - 1)) (cs.eraseIdx i) (i + 1) =
      cursorAt l cs (i + 2) := by
    rw [cursorAt_succ, cursorAt_succ, map_eraseIdx,
      List.getElem?_eraseIdx_of_ge _ _ _ (le_refl i)]
  refine ⟨i, _, _, τ, hlt, rfl, h1, h.toList_eq, ?_, ?_, ?_, ?_, ?_⟩
  · rw [hr.toList_eq, map_eraseIdx]
  · have := h.2
    simp only [GetSize]; omega
  · have := cursor_increment hr hlen
    rwa [hcur1, hcur2, cursorAt_succ] at this
  · rw [cursorAt_succ]
  · intro he
    rw [List.getElem?_eq_none (by simp; omega)]; rfl

/-! ## PopFront -/

/-- C5. On a non-empty list, whose traversal is `x` followed by `rest`,
`PopFront()` returns and leaves a list whose traversal is `rest` and whose
`GetSize()` is one less; `EraseAfter(before_begin())` returns as well and leaves
the very same list and store. -/
theorem popFront_spec {σ : Heap T} {l : SingleLinkedList} {c : Nat × T} {cs : List (Nat × T)}
    (h : Repr σ l (c :: cs)) :
    ∃ l1 τ, PopFront l σ = .ok (l1, τ) ∧
      toList l σ = .ok (c.2 :: cs.map Prod.snd) ∧
      toList l1 τ = .ok (cs.map Prod.snd) ∧
      GetSize l1 + 1 = GetSize l ∧
      ∃ it, EraseAfter l (before_begin l) σ = .ok (it, l1, τ) := by
  obtain ⟨τ, h1, h2, _⟩ := EraseAfter_effect h (i := 0) (by simp)
  rw [cursorAt_zero] at h1
  have hsz : l.size_ ≠ 0 := by rw [h.2]; simp
  have hr : Repr τ ⟨l.head_, l.size_ - 1⟩ cs := by simpa using h2.repr
  refine ⟨_, τ, PopFront_eq_of_EraseAfter hsz h1, ?_, hr.toList_eq, ?_, _, h1⟩
  · rw [h.toList_eq]; rfl
  · simp only [GetSize]; omega

/-- C6. On every list, `PushFront(v)` followed by `PopFront()` both return, and
`GetSize()` and the traversal from `begin()` to `end()` are then what they were
before the `PushFront`. -/
theorem pushFront_popFront {σ : Heap T} {l : SingleLinkedList} {cs : List (Nat × T)}
    (h : Repr σ l cs) (v : T) :
    ∃ l1 σ1 l2 σ2, PushFront l v σ = .ok (l1, σ1) ∧ PopFront l1 σ1 = .ok (l2, σ2) ∧
      GetSize l2 = GetSize l ∧ toList l2 σ2 = toList l σ ∧
      toList l σ = .ok (cs.map Prod.snd) := by
  obtain ⟨σ1, h1, h2, _⟩ := PushFront_effect h v
  obtain ⟨σ2, h3, h4, _⟩ := PopFront_effect h2.repr
  refine ⟨_, σ1, _, σ2, h1, h3, by simp [GetSize], ?_, h.toList_eq⟩
  rw [h4.repr.toList_eq, h.toList_eq]

/-- C7. On every list, `InsertAfter(before_begin(), v)` and `PushFront(v)` both
return and leave the same list and the same store, hence the same traversal
(`v` followed by the former elements) and the same `GetSize()`; the cursor
returned by `InsertAfter` is `begin()` of the resulting list. -/
theorem insertAfter_before_begin_eq_pushFront {σ : Heap T} {l : SingleLinkedList}
    {cs : List (Nat × T)} (h : Repr σ l cs) (v : T) :
    ∃ it l1 τ, InsertAfter l (before_begin l) v σ = .ok (it, l1, τ) ∧
      PushFront l v σ = .ok (l1, τ) ∧
      begin l1 τ = .ok it ∧
      toList l1 τ = .ok (v :: cs.map Prod.snd) ∧ GetSize l1 = GetSize l + 1 := by
  obtain ⟨τ, h1, h2, _⟩ := InsertAfter_effect h (Nat.zero_le _) v
  rw [cursorAt_zero] at h1
  have hr : Repr τ ⟨l.head_, l.size_ + 1⟩ ((σ.length, v) :: cs) := by simpa using h2.repr
  refine ⟨_, _, τ, h1, ?_, ?_, ?_, rfl⟩
  · rw [PushFront_eq_InsertAfter, h1]; rfl
  · rw [hr.begin_eq.1]; rfl
  · rw [hr.toList_eq]; rfl

/-! ## swap and the destructor -/

theorem Heap.read_ge (σ : Heap T) {a : Nat} (h : σ.length ≤ a) : σ.read a = none := by
  have : σ[a]? = none := List.getElem?_eq_none h
  simp [Heap.read, this]

theorem swap_effect {σ : Heap T} {a b : SingleLinkedList} {csa csb : List (Nat × T)}
    (ha : Repr σ a csa) (hb : Repr σ b csb)
    (hd : (footprint a csa).Disjoint (footprint b csb)) :
    ∃ τ, swap a b σ = .ok (⟨a.head_, b.size_⟩, ⟨b.head_, a.size_⟩, τ) ∧
      Repr τ ⟨a.head_, b.size_⟩ csb ∧ Repr τ ⟨b.head_, a.size_⟩ csa ∧
      τ.length = σ.length ∧
      ∀ x, x ≠ a.head_ → x ≠ b.head_ → τ.read x = σ.read x := by
  have hnda := ha.nodup_footprint
  have hndb := hb.nodup_footprint
  obtain ⟨⟨na, hra, hsa⟩, hza⟩ := ha
  obtain ⟨⟨nb, hrb, hsb⟩, hzb⟩ := hb
  have hne : a.head_ ≠ b.head_ := fun he =>
    hd (List.mem_cons_self _ _) (by rw [he]; exact List.mem_cons_self _ _)
  have hla := Heap.read_lt hra
  have hlb := Heap.read_lt hrb
  have h1 : Heap.read (σ.set a.head_ (some (Node.mk na.value nb.next_node))) b.head_ = some nb := by
    rw [Heap.read_set_ne _ _ hne]; exact hrb
  refine ⟨(σ.set a.head_ (some ⟨na.value, nb.next_node⟩)).set b.head_
    (some ⟨nb.value, na.next_node⟩), ?_, ⟨⟨⟨na.value, nb.next_node⟩, ?_, ?_⟩, hzb⟩,
    ⟨⟨⟨nb.value, na.next_node⟩, ?_, ?_⟩, hza⟩, by simp, ?_⟩
  · simp only [swap, Heap.load, hra, hrb, Heap.setNext, h1, bind, Except.bind, pure,
      Except.pure]
  · rw [Heap.read_set_ne _ _ hne.symm]
    exact Heap.read_set_eq _ _ hla
  · refine hsb.frame fun x hx => ?_
    have h2 : a.head_ ≠ x := by
      rintro rfl
      exact hd (List.mem_cons_self _ _) (List.mem_cons_of_mem _ hx)
    have h3 : b.head_ ≠ x := by
      rintro rfl
      exact (List.nodup_cons.mp hndb).1 hx
    rw [Heap.read_set_ne _ _ h3, Heap.read_set_ne _ _ h2]
  · exact Heap.read_set_eq _ _ (by simpa using hlb)
  · refine hsa.frame fun x hx => ?_
    have h2 : b.head_ ≠ x := by
      rintro rfl
      exact hd (List.mem_cons_of_mem _ hx) (List.mem_cons_self _ _)
    have h3 : a.head_ ≠ x := by
      rintro rfl
      exact (List.nodup_cons.mp hnda).1 hx
    rw [Heap.read_set_ne _ _ h2, Heap.read_set_ne _ _ h3]
  · intro x hxa hxb
    rw [Heap.read_set_ne _ _ (Ne.symm hxb), Heap.read_set_ne _ _ (Ne.symm hxa)]

theorem destroy_effect {σ : Heap T} {l : SingleLinkedList} {cs : List (Nat × T)}
    (h : Repr σ l cs) :
    ∃ τ, destroy l σ = .ok τ ∧ τ.length = σ.length ∧
      (∀ x ∈ footprint l cs, τ.read x = none) ∧
      (∀ x, x ∉ footprint l cs → τ.read x = σ.read x) := by
  obtain ⟨τ, h1, h2, h3, h4⟩ := Clear_effect h
  refine ⟨τ.delete l.head_, ?_, by simp [Heap.delete, h3], ?_, ?_⟩
  · simp [destroy, h1, bind, Except.bind, pure, Except.pure]
  · intro x hx
    by_cases hxe : x = l.head_
    · rw [hxe]; exact Heap.read_delete_eq _ _
    · rw [Heap.read_delete_ne _ (Ne.symm hxe)]
      simp only [footprint, List.mem_cons] at hx
      exact h4 x (by tauto)
  · intro x hx
    have hxe : l.head_ ≠ x := by rintro rfl; exact hx (List.mem_cons_self _ _)
    rw [Heap.read_delete_ne _ hxe]
    rcases Nat.lt_or_ge x σ.length with hlt | hge
    · exact h2.frame x hlt hx
    · rw [Heap.read_ge _ hge, Heap.read_ge _ (by omega)]

/-- The tail of `CreateSingleLinkedList` and of `operator=`: swap with the
temporary, then destroy the temporary. -/
theorem swap_destroy_effect {σ : Heap T} {l t : SingleLinkedList} {cs news : List (Nat × T)}
    (hl : Repr σ l cs) (ht : Repr σ t news)
    (hd : (footprint l cs).Disjoint (footprint t news)) :
    ∃ σ3 τ, swap l t σ = .ok (⟨l.head_, t.size_⟩, ⟨t.head_, l.size_⟩, σ3) ∧
      destroy ⟨t.head_, l.size_⟩ σ3 = .ok τ ∧
      Repr τ ⟨l.head_, t.size_⟩ news ∧ τ.length = σ.length ∧
      (∀ x, x ∉ footprint l cs → x ≠ t.head_ → τ.read x = σ.read x) := by
  obtain ⟨σ3, h1, h2, h3, h4, h5⟩ := swap_effect hl ht hd
  obtain ⟨τ, h6, h7, h8, h9⟩ := destroy_effect h3
  have hndl := hl.nodup_footprint
  have hndt := ht.nodup_footprint
  refine ⟨σ3, τ, h1, h6, ?_, by omega, ?_⟩
  · refine h2.transfer fun x hx => h9 x fun hmem => ?_
    simp only [footprint, List.mem_cons] at hx hmem
    rcases hx with rfl | hx
    · rcases hmem with he | hmem
      · exact hd (List.mem_cons_self _ _) (by rw [he]; exact List.mem_cons_self _ _)
      · exact (List.nodup_cons.mp hndl).1 hmem
    · rcases hmem with rfl | hmem
      · exact (List.nodup_cons.mp hndt).1 hx
      · exact hd (List.mem_cons_of_mem _ hmem) (List.mem_cons_of_mem _ hx)
  · intro x hx hxt
    have : x ∉ footprint (SingleLinkedList.mk t.head_ l.size_) cs := by
      simp only [footprint, List.mem_cons, not_or] at hx ⊢
      exact ⟨hxt, hx.2⟩
    rw [h9 x this, h5 x (fun he => hx (by rw [he]; exact List.mem_cons_self _ _)) hxt]

/-! ## The loops of CreateSingleLinkedList -/

/-- Inserting after the last position appends a node; the returned cursor is
the last position of the new list. -/
theorem InsertAfter_last {σ : Heap T} {l : SingleLinkedList} {cs : List (Nat × T)}
    (h : Repr σ l cs) (v : T) :
    ∃ τ, InsertAfter l (cursorAt l cs cs.length) v σ =
        .ok (cursorAt ⟨l.head_, l.size_ + 1⟩ (cs ++ [(σ.length, v)]) (cs.length + 1),
          ⟨l.head_, l.size_ + 1⟩, τ) ∧
      Effect σ τ l cs ⟨l.head_, l.size_ + 1⟩ (cs ++ [(σ.length, v)]) := by
  obtain ⟨τ, h1, h2, _⟩ := InsertAfter_effect h (le_refl cs.length) v
  rw [List.take_length, List.drop_length] at h2
  refine ⟨τ, ?_, h2⟩
  rw [h1, cursorAt_succ, List.map_append, List.getElem?_append_right (by simp)]
  simp

theorem insertLoop_effect (vs : List T) {σ : Heap T} {l : SingleLinkedList}
    {cs : List (Nat × T)} (h : Repr σ l cs) :
    ∃ l1 τ news, insertLoop vs σ l (cursorAt l cs cs.length) = .ok (l1, τ) ∧
      Effect σ τ l cs l1 (cs ++ news) ∧ news.map Prod.snd = vs := by
  induction vs generalizing σ l cs with
  | nil => exact ⟨l, σ, [], rfl, by simpa using Effect.refl h, rfl⟩
  | cons v vs ih =>
    obtain ⟨σ1, h1, h2⟩ := InsertAfter_last h v
    obtain ⟨l1, τ, news, h3, h4, h5⟩ := ih h2.repr
    refine ⟨l1, τ, (σ.length, v) :: news, ?_, ?_, by simp [h5]⟩
    · simp only [insertLoop, h1, bind, Except.bind]
      rw [List.length_append, List.length_singleton] at h3
      exact h3
    · have := h2.trans h4
      rwa [List.append_assoc, List.singleton_append] at this

theorem copyLoop_effect {σ : Heap T} {l : SingleLinkedList} {cs rest : List (Nat × T)}
    {it : BasicIterator} (hsrc : Seg σ it.node_ rest) (h : Repr σ l cs)
    (hdisj : ∀ a ∈ rest.map Prod.fst, a ∉ footprint l cs) {fuel : Nat}
    (hf : rest.length < fuel) :
    ∃ l1 τ news, copyLoop fuel σ l (cursorAt l cs cs.length) it = .ok (l1, τ) ∧
      Effect σ τ l cs l1 (cs ++ news) ∧ news.map Prod.snd = rest.map Prod.snd := by
  induction rest generalizing σ l cs fuel it with
  | nil =>
    cases fuel with
    | zero => simp at hf
    | succ k =>
      have hit : it = end_ := by
        cases it
        simp only [end_, BasicIterator.mk.injEq]
        exact hsrc
      refine ⟨l, σ, [], ?_, by simpa using Effect.refl h, rfl⟩
      simp [copyLoop, hit, pure, Except.pure]
  | cons e rest ih =>
    cases fuel with
    | zero => simp at hf
    | succ k =>
      obtain ⟨hp, nx, hr, hs⟩ := hsrc
      have hit : it ≠ end_ := by
        intro he
        rw [he] at hp
        simp [end_] at hp
      obtain ⟨σ1, h1, h2⟩ := InsertAfter_last h e.2
      have hfr : ∀ a ∈ (e :: rest).map Prod.fst, σ1.read a = σ.read a := by
        intro a ha
        have hlt : a < σ.length :=
          Seg.lt_length (show Seg σ (some e.1) (e :: rest) from ⟨rfl, nx, hr, hs⟩) a ha
        exact h2.frame a hlt (hdisj a ha)
      have hr1 : σ1.read e.1 = some ⟨e.2, nx⟩ := by
        rw [hfr e.1 (by simp)]; exact hr
      have hs1 : Seg σ1 nx rest := hs.frame fun a ha => hfr a (by simp [ha])
      have hdisj1 : ∀ a ∈ rest.map Prod.fst,
          a ∉ footprint (SingleLinkedList.mk l.head_ (l.size_ + 1)) (cs ++ [(σ.length, e.2)]) := by
        intro a ha hmem
        have hlt : a < σ.length := hs.lt_length a ha
        rcases h2.fresh a hmem with h3 | h3
        · exact hdisj a (by simp [ha]) h3
        · omega
      have hk : rest.length < k := by simpa using hf
      obtain ⟨l1, τ, news, h3, h4, h5⟩ :=
        @ih σ1 _ _ ⟨nx⟩ hs1 h2.repr hdisj1 k hk
      refine ⟨l1, τ, (σ.length, e.2) :: news, ?_, ?_, by simp [h5]⟩
      · simp only [copyLoop, hit, if_false, BasicIterator.deref, BasicIterator.increment, hp, hr,
          hr1, h1, bind, Except.bind]
        rw [List.length_append, List.length_singleton] at h3
        exact h3
      · have := h2.trans h4
        rwa [List.append_assoc, List.singleton_append] at this

/-! ## Construction from a source -/

theorem Created.of_effect {σ τ : Heap T} {dflt : T} {t : SingleLinkedList}
    {news : List (Nat × T)}
    (h : Effect (σ ++ [some (Node.mk dflt none)]) τ ⟨σ.length, 0⟩ [] t news) :
    Created σ τ t news := by
  have hmono := h.mono
  rw [List.length_append, List.length_singleton] at hmono
  refine ⟨h.repr, ?_, by omega, ?_⟩
  · intro a ha
    rw [h.frame a (by simp; omega) (by simp [footprint]; omega), Heap.read_append_lt _ _ ha]
  · intro a ha
    rcases h.fresh a ha with h1 | h1
    · simp only [footprint, List.map_nil, List.mem_singleton] at h1
      omega
    · simp at h1; omega

theorem Created.keeps {σ τ : Heap T} {t l : SingleLinkedList} {news cs : List (Nat × T)}
    (hc : Created σ τ t news) (hl : Repr σ l cs) : Repr τ l cs :=
  hl.transfer fun a ha => hc.frame a (hl.footprint_lt a ha)

theorem Created.disjoint {σ τ : Heap T} {t l : SingleLinkedList} {news cs : List (Nat × T)}
    (hc : Created σ τ t news) (hl : Repr σ l cs) :
    (footprint l cs).Disjoint (footprint t news) := by
  intro a ha hb
  have h1 := hl.footprint_lt a ha
  have h2 := hc.fresh a hb
  omega

/-- The end of `CreateSingleLinkedList` and of `operator=`: once the temporary
`t` is built, it is swapped with `l` and destroyed. -/
theorem create_finish {σ σ2 : Heap T} {l t : SingleLinkedList} {cs news : List (Nat × T)}
    (hl : Repr σ l cs) (hc : Created σ σ2 t news) :
    ∃ σ3 τ, swap l t σ2 = .ok (⟨l.head_, t.size_⟩, ⟨t.head_, l.size_⟩, σ3) ∧
      destroy ⟨t.head_, l.size_⟩ σ3 = .ok τ ∧
      Effect σ τ l cs ⟨l.head_, t.size_⟩ news := by
  obtain ⟨σ3, τ, h1, h2, h3, h4, h5⟩ := swap_destroy_effect (hc.keeps hl) hc.repr (hc.disjoint hl)
  refine ⟨σ3, τ, h1, h2, h3, ?_, by have := hc.mono; omega, ?_⟩
  · intro a ha hn
    have hat : a ≠ t.head_ := by
      have := hc.fresh t.head_ (List.mem_cons_self _ _)
      omega
    rw [h5 a hn hat, hc.frame a ha]
  · intro a ha
    simp only [footprint, List.mem_cons] at ha ⊢
    rcases ha with rfl | ha
    · exact Or.inl (Or.inl rfl)
    · exact Or.inr (hc.fresh a (List.mem_cons_of_mem _ ha))

theorem fill_values (dflt : T) (σ : Heap T) (vs : List T) :
    ∃ t τ news, insertLoop vs (σ ++ [some (Node.mk dflt none)]) ⟨σ.length, 0⟩
        (before_begin ⟨σ.length, 0⟩) = .ok (t, τ) ∧
      Created σ τ t news ∧ news.map Prod.snd = vs := by
  obtain ⟨_, hr⟩ := construct_effect dflt σ
  obtain ⟨t, τ, news, h1, h2, h3⟩ := insertLoop_effect vs hr
  rw [List.nil_append] at h2
  exact ⟨t, τ, news, h1, Created.of_effect h2, h3⟩

theorem fill_list (dflt : T) {σ : Heap T} {other : SingleLinkedList} {cso : List (Nat × T)}
    (ho : Repr σ other cso) :
    ∃ first t τ news, begin other (σ ++ [some (Node.mk dflt none)]) = .ok first ∧
      copyLoop ((σ ++ [some (Node.mk dflt none)]).length + 1) (σ ++ [some (Node.mk dflt none)])
        ⟨σ.length, 0⟩ (before_begin ⟨σ.length, 0⟩) first = .ok (t, τ) ∧
      Created σ τ t news ∧ news.map Prod.snd = cso.map Prod.snd := by
  obtain ⟨_, hr⟩ := construct_effect dflt σ
  have ho1 : Repr (σ ++ [some (Node.mk dflt none)]) other cso :=
    ho.transfer fun a ha => Heap.read_append_lt _ _ (ho.footprint_lt a ha)
  obtain ⟨hb, hs⟩ := ho1.begin_eq
  have hdisj : ∀ a ∈ cso.map Prod.fst,
      a ∉ footprint (SingleLinkedList.mk σ.length 0) ([] : List (Nat × T)) := by
    intro a ha hmem
    have := ho.footprint_lt a (List.mem_cons_of_mem _ ha)
    simp only [footprint, List.map_nil, List.mem_singleton] at hmem
    omega
  obtain ⟨t, τ, news, h1, h2, h3⟩ :=
    @copyLoop_effect T _ _ _ _ ⟨(cso.map Prod.fst).head?⟩ hs hr hdisj _
      (Nat.lt_succ_of_lt ho1.length_lt)
  rw [List.nil_append] at h2
  exact ⟨_, t, τ, news, hb, h1, Created.of_effect h2, h3⟩

theorem CreateSingleLinkedList_values_effect {σ : Heap T} {l : SingleLinkedList}
    {cs : List (Nat × T)} (hl : Repr σ l cs) (vs : List T) (dflt : T) :
    ∃ l1 τ news, CreateSingleLinkedList l (.values vs) dflt σ = .ok (l1, τ) ∧
      Effect σ τ l cs l1 news ∧ news.map Prod.snd = vs := by
  obtain ⟨t, σ2, news, h1, h2, h3⟩ := fill_values dflt σ vs
  obtain ⟨σ3, τ, h4, h5, h6⟩ := create_finish hl h2
  refine ⟨_, τ, news, ?_, h6, h3⟩
  simp only [CreateSingleLinkedList, construct, Heap.new, h1, h4, h5, bind, Except.bind, pure,
    Except.pure]

theorem CreateSingleLinkedList_list_effect {σ : Heap T} {l other : SingleLinkedList}
    {cs cso : List (Nat × T)} (hl : Repr σ l cs) (ho : Repr σ other cso) (dflt : T) :
    ∃ l1 τ news, CreateSingleLinkedList l (.list other) dflt σ = .ok (l1, τ) ∧
      Effect σ τ l cs l1 news ∧ news.map Prod.snd = cso.map Prod.snd := by
  obtain ⟨first, t, σ2, news, h0, h1, h2, h3⟩ := fill_list dflt ho
  obtain ⟨σ3, τ, h4, h5, h6⟩ := create_finish hl h2
  refine ⟨_, τ, news, ?_, h6, h3⟩
  simp only [CreateSingleLinkedList, construct, Heap.new, h0, h1, h4, h5, bind, Except.bind,
    pure, Except.pure]

theorem fromValues_created (vs : List T) (dflt : T) (σ : Heap T) :
    ∃ l τ news, fromValues vs dflt σ = .ok (l, τ) ∧ Created σ τ l news ∧
      news.map Prod.snd = vs := by
  obtain ⟨_, hr⟩ := construct_effect dflt σ
  obtain ⟨l, τ, news, h1, h2, h3⟩ := CreateSingleLinkedList_values_effect hr vs dflt
  exact ⟨l, τ, news, h1, Created.of_effect h2, h3⟩

theorem copyConstruct_created {σ : Heap T} {other : SingleLinkedList} {cso : List (Nat × T)}
    (ho : Repr σ other cso) (dflt : T) :
    ∃ l τ news, copyConstruct other dflt σ = .ok (l, τ) ∧ Created σ τ l news ∧
      news.map Prod.snd = cso.map Prod.snd := by
  obtain ⟨_, hr⟩ := construct_effect dflt σ
  have ho1 : Repr (σ ++ [some (Node.mk dflt none)]) other cso :=
    ho.transfer fun a ha => Heap.read_append_lt _ _ (ho.footprint_lt a ha)
  obtain ⟨l, τ, news, h1, h2, h3⟩ := CreateSingleLinkedList_list_effect hr ho1 dflt
  exact ⟨l, τ, news, h1, Created.of_effect h2, h3⟩

theorem assign_effect {σ : Heap T} {a b : SingleLinkedList} {csa csb : List (Nat × T)}
    (ha : Repr σ a csa) (hb : Repr σ b csb) (hne : a.head_ ≠ b.head_) (dflt : T) :
    ∃ a1 τ news, assign a b dflt σ = .ok (a1, τ) ∧ Effect σ τ a csa a1 news ∧
      news.map Prod.snd = csb.map Prod.snd := by
  obtain ⟨t, σ1, news, h1, h2, h3⟩ := copyConstruct_created hb dflt
  obtain ⟨σ2, τ, h4, h5, h6⟩ := create_finish ha h2
  refine ⟨_, τ, news, ?_, h6, h3⟩
  simp only [assign, hne, ne_eq, not_false_eq_true, if_true, h1, h4, h5, bind, Except.bind, pure,
    Except.pure]

/-! ## operator== -/

theorem Seg.equal_eq [DecidableEq T] {σ : Heap T} {p q : Ptr} {cs ds : List (Nat × T)}
    (hc : Seg σ p cs) (hd : Seg σ q ds) (hlen : cs.length = ds.length) {fuel : Nat}
    (hf : cs.length < fuel) :
    equal σ fuel ⟨p⟩ ⟨q⟩ = .ok (decide (cs.map Prod.snd = ds.map Prod.snd)) := by
  induction cs generalizing p q ds fuel with
  | nil =>
    cases fuel with
    | zero => simp at hf
    | succ k =>
      have hp : p = none := hc
      have hds : ds = [] := List.length_eq_zero.mp hlen.symm
      subst hp hds
      simp [equal, end_, pure, Except.pure]
  | cons c cs ih =>
    cases fuel with
    | zero => simp at hf
    | succ k =>
      cases ds with
      | nil => simp at hlen
      | cons d ds =>
        obtain ⟨hp, nx, hr, hs⟩ := hc
        obtain ⟨hq, nx2, hr2, hs2⟩ := hd
        subst hp hq
        have hk : cs.length < k := by simpa using hf
        have hl : cs.length = ds.length := by simpa using hlen
        by_cases hv : c.2 = d.2
        · simp [equal, end_, BasicIterator.deref, BasicIterator.increment, hr, hr2, hv,
            ih hs hs2 hl hk, bind, Except.bind]
        · simp [equal, end_, BasicIterator.deref, BasicIterator.increment, hr, hr2, hv,
            bind, Except.bind, pure, Except.pure]

theorem eq_repr [DecidableEq T] {σ : Heap T} {a b : SingleLinkedList} {csa csb : List (Nat × T)}
    (ha : Repr σ a csa) (hb : Repr σ b csb) :
    eq a b σ = .ok (decide (csa.map Prod.snd = csb.map Prod.snd)) := by
  by_cases hsz : GetSize a = GetSize b
  · have hlen : csa.length = csb.length := by
      simp only [GetSize] at hsz
      rw [← ha.2, ← hb.2]; exact hsz
    obtain ⟨hba, hsa⟩ := ha.begin_eq
    obtain ⟨hbb, hsb⟩ := hb.begin_eq
    have := hsa.equal_eq hsb hlen (Nat.lt_succ_of_lt ha.length_lt)
    simp only [eq, hsz, if_true, hba, hbb, bind, Except.bind]
    exact this
  · have hne : csa.map Prod.snd ≠ csb.map Prod.snd := by
      intro he
      apply hsz
      have := congrArg List.length he
      simp only [List.length_map] at this
      simp only [GetSize]
      rw [ha.2, hb.2]; exact this
    simp [eq, hsz, hne, pure, Except.pure]

/-! ## Construction -/

/-- C8. Construction preserves order and count.  From a literal list `vs`, in
any store, the constructor returns a list whose traversal is `vs` and whose
`GetSize()` is the length of `vs`.  From another list `c` with nodes `cs`, the
copy constructor returns a list `d` whose traversal is that of `c`, with
`GetSize()` that of `c`, while `c` still has its traversal, and `d == c` holds.
The list constructed from the empty literal list is `==` to a
default-constructed list. -/
theorem construction_spec [DecidableEq T] (dflt : T) :
    (∀ (σ : Heap T) (vs : List T), ∃ l τ, fromValues vs dflt σ = .ok (l, τ) ∧
      toList l τ = .ok vs ∧ GetSize l = vs.length) ∧
    (∀ (σ : Heap T) (c : SingleLinkedList) (cs : List (Nat × T)), Repr σ c cs →
      ∃ d τ, copyConstruct c dflt σ = .ok (d, τ) ∧
        toList c σ = .ok (cs.map Prod.snd) ∧
        toList d τ = .ok (cs.map Prod.snd) ∧ toList c τ = .ok (cs.map Prod.snd) ∧
        GetSize d = GetSize c ∧ GetSize d = cs.length ∧ eq d c τ = .ok true) ∧
    (∀ σ : Heap T, ∃ l τ, fromValues [] dflt σ = .ok (l, τ) ∧
      eq l (construct dflt τ).1 (construct dflt τ).2 = .ok true) := by
  refine ⟨fun σ vs => ?_, fun σ c cs hc => ?_, fun σ => ?_⟩
  · obtain ⟨l, τ, news, h1, h2, h3⟩ := fromValues_created vs dflt σ
    refine ⟨l, τ, h1, by rw [h2.repr.toList_eq, h3], ?_⟩
    simp only [GetSize]
    rw [h2.repr.2, ← h3, List.length_map]
  · obtain ⟨d, τ, news, h1, h2, h3⟩ := copyConstruct_created hc dflt
    have hc1 := h2.keeps hc
    have hsz : GetSize d = cs.length := by
      simp only [GetSize]
      rw [h2.repr.2, ← List.length_map news Prod.snd, h3, List.length_map]
    refine ⟨d, τ, h1, hc.toList_eq, by rw [h2.repr.toList_eq, h3], hc1.toList_eq, ?_, hsz, ?_⟩
    · rw [hsz]; exact hc.2.symm
    · rw [eq_repr h2.repr hc1, h3]; simp
  · obtain ⟨l, τ, news, h1, h2, h3⟩ := fromValues_created ([] : List T) dflt σ
    obtain ⟨h4, h5⟩ := construct_effect dflt τ
    have hl : Repr (construct dflt τ).2 l news := by
      rw [h4]
      exact h2.repr.transfer fun a ha => Heap.read_append_lt _ _ (h2.repr.footprint_lt a ha)
    refine ⟨l, τ, h1, ?_⟩
    rw [h4] at hl ⊢
    rw [eq_repr hl h5, h3]; simp

/-! ## Copy assignment -/

/-- The lists a `swap` returns are the two objects it was called on. -/
theorem swap_heads {σ τ : Heap T} {l other l1 other1 : SingleLinkedList}
    (h : swap l other σ = .ok (l1, other1, τ)) :
    l1.head_ = l.head_ ∧ other1.head_ = other.head_ := by
  simp only [swap, bind, Except.bind, pure, Except.pure] at h
  cases ha : σ.load (some l.head_) with
  | error e => rw [ha] at h; cases h
  | ok na =>
    rw [ha] at h
    simp only at h
    cases hb : σ.load (some other.head_) with
    | error e => rw [hb] at h; cases h
    | ok nb =>
      rw [hb] at h
      simp only at h
      cases h1 : σ.setNext l.head_ nb.next_node with
      | error e => rw [h1] at h; cases h
      | ok σ1 =>
        rw [h1] at h
        simp only at h
        cases h2 : σ1.setNext other.head_ na.next_node with
        | error e => rw [h2] at h; cases h
        | ok σ2 =>
          rw [h2] at h
          simp only [Except.ok.injEq, Prod.mk.injEq] at h
          obtain ⟨rfl, rfl, _⟩ := h
          exact ⟨rfl, rfl⟩

/-- The list a copy-assignment returns is the object it was called on. -/
theorem assign_head {σ τ : Heap T} {a b a1 : SingleLinkedList} {dflt : T}
    (h : assign a b dflt σ = .ok (a1, τ)) : a1.head_ = a.head_ := by
  by_cases hne : a.head_ = b.head_
  · simp only [assign, hne, ne_eq, not_true_eq_false, if_false, pure, Except.pure,
      Except.ok.injEq, Prod.mk.injEq] at h
    rw [← h.1]
  · simp only [assign, hne, ne_eq, not_false_eq_true, if_true, bind, Except.bind] at h
    cases hc : copyConstruct b dflt σ with
    | error e => rw [hc] at h; cases h
    | ok r =>
      obtain ⟨copy, σ1⟩ := r
      rw [hc] at h
      simp only at h
      cases hs : swap a copy σ1 with
      | error e => rw [hs] at h; cases h
      | ok r2 =>
        obtain ⟨l1, copy1, σ2⟩ := r2
        rw [hs] at h
        simp only at h
        cases hd : destroy copy1 σ2 with
        | error e => rw [hd] at h; cases h
        | ok σ3 =>
          rw [hd] at h
          simp only [pure, Except.pure, Except.ok.injEq, Prod.mk.injEq] at h
          rw [← h.1]
          exact (swap_heads hs).1

/-- C10. For two distinct lists `a` and `b`, occupying disjoint cells, the
copy-assignment `a = b` returns the object `a` itself (the list with the
sentinel of `a`); afterwards `a` has the traversal and the `GetSize()` of `b`,
`a == b` holds, and `b`, still apart from `a`, has the nodes and values it had.
The self-assignment `a = a` returns the list and the store unchanged. -/
theorem assign_spec [DecidableEq T] {σ : Heap T} {a b : SingleLinkedList}
    {csa csb : List (Nat × T)} (ha : Repr σ a csa) (hb : Repr σ b csb)
    (hd : (footprint a csa).Disjoint (footprint b csb)) (dflt : T) :
    (∃ a1 τ, assign a b dflt σ = .ok (a1, τ) ∧
      a1.head_ = a.head_ ∧ a1.head_ ≠ b.head_ ∧
      toList b σ = .ok (csb.map Prod.snd) ∧
      toList a1 τ = .ok (csb.map Prod.snd) ∧ GetSize a1 = GetSize b ∧
      eq a1 b τ = .ok true ∧
      toList b τ = .ok (csb.map Prod.snd) ∧ Repr τ b csb ∧
      (∃ news, Repr τ a1 news ∧ news.map Prod.snd = csb.map Prod.snd ∧
        (footprint a1 news).Disjoint (footprint b csb))) ∧
    assign a a dflt σ = .ok (a, σ) := by
  have hne : a.head_ ≠ b.head_ := fun he =>
    hd (List.mem_cons_self _ _) (by rw [he]; exact List.mem_cons_self _ _)
  obtain ⟨a1, τ, news, h1, h2, h3⟩ := assign_effect ha hb hne dflt
  have hhead := assign_head h1
  have hb1 : Repr τ b csb := hb.transfer fun x hx =>
    h2.frame x (hb.footprint_lt x hx) fun hmem => hd hmem hx
  have hapart : (footprint a1 news).Disjoint (footprint b csb) := by
    intro x hx hxb
    rcases h2.fresh x hx with h4 | h4
    · exact hd h4 hxb
    · have := hb.footprint_lt x hxb
      omega
  refine ⟨⟨a1, τ, h1, hhead, by rw [hhead]; exact hne, hb.toList_eq,
    by rw [h2.repr.toList_eq, h3], ?_, ?_, hb1.toList_eq, hb1, news, h2.repr, h3, hapart⟩, ?_⟩
  · simp only [GetSize]
    rw [h2.repr.2, hb.2, ← List.length_map news Prod.snd, h3, List.length_map]
  · rw [eq_repr h2.repr hb1, h3]; simp
  · simp [assign, pure, Except.pure]

/-! ## Mutations and deep-copy isolation -/

theorem Seg.setValue_seg {σ : Heap T} {p : Ptr} {cs : List (Nat × T)} (h : Seg σ p cs)
    {a : Nat} {n : Node T} (hn : σ.read a = some n) (v : T) :
    Seg (σ.set a (some (Node.mk v n.next_node))) p
      (cs.map fun c => if c.1 = a then (c.1, v) else c) := by
  induction cs generalizing p with
  | nil => exact h
  | cons c cs ih =>
    obtain ⟨hp, nx, hr, hs⟩ := h
    by_cases hc : c.1 = a
    · refine ⟨by simp [hc, hp], nx, ?_, ih hs⟩
      rw [hc] at hr
      rw [hn] at hr
      cases hr
      simp only [hc, if_true]
      exact Heap.read_set_eq _ _ (Heap.read_lt hn)
    · refine ⟨by simp [hc, hp], nx, ?_, ih hs⟩
      simp only [hc, if_false]
      rw [Heap.read_set_ne _ _ (Ne.symm hc)]
      exact hr

theorem assignValue_effect {σ : Heap T} {l : SingleLinkedList} {cs : List (Nat × T)}
    (h : Repr σ l cs) {pos : BasicIterator} {a : Nat} (ha : a ∈ cs.map Prod.fst)
    (hp : pos.node_ = some a) (v : T) :
    ∃ τ, pos.assignValue σ v = .ok τ ∧
      Effect σ τ l cs l (cs.map fun c => if c.1 = a then (c.1, v) else c) := by
  obtain ⟨d, hs⟩ := h.seg
  obtain ⟨ds, hsa, _, _⟩ := Seg.suffix (show Seg σ (some l.head_) ((l.head_, d) :: cs) from hs)
    (List.mem_cons_of_mem _ ha)
  have hnd := h.nodup_footprint
  have hne : l.head_ ≠ a := by
    rintro rfl
    exact (List.nodup_cons.mp hnd).1 ha
  have hread : ∃ n, σ.read a = some n := by
    cases ds with
    | nil => contradiction
    | cons e ds =>
      obtain ⟨he, nx, hr, _⟩ := hsa
      have : a = e.1 := Option.some.inj he
      exact ⟨_, this ▸ hr⟩
  obtain ⟨n, hn⟩ := hread
  have hset := hs.setValue_seg hn v
  rw [List.map_cons, if_neg (show ¬ (l.head_, d).1 = a from hne)] at hset
  have hfst : (cs.map fun c => if c.1 = a then (c.1, v) else c).map Prod.fst =
      cs.map Prod.fst := by
    rw [List.map_map]
    refine List.map_congr_left fun c _ => ?_
    by_cases hc : c.1 = a <;> simp [hc]
  refine ⟨_, ?_, ⟨Repr.of_seg hset (by simp [h.2]), ?_, by simp, ?_⟩⟩
  · simp only [BasicIterator.assignValue, hp, Heap.setValue, hn]
  · intro x _ hx
    have : a ≠ x := by rintro rfl; exact hx (List.mem_cons_of_mem _ ha)
    rw [Heap.read_set_ne _ _ this]
  · intro x hx
    simp only [footprint, hfst] at hx
    exact Or.inl hx

/-- A mutation within its contract returns, and changes no cell outside the
list it is run on. -/
theorem Mutation.apply_effect {σ : Heap T} {l : SingleLinkedList} {cs : List (Nat × T)}
    (h : Repr σ l cs) (m : Mutation T) (hm : m.Allowed σ l cs) :
    ∃ l1 τ cs1, m.apply l σ = .ok (l1, τ) ∧ Effect σ τ l cs l1 cs1 := by
  cases m with
  | pushFront v =>
    obtain ⟨τ, h1, h2, _⟩ := PushFront_effect h v
    exact ⟨_, τ, _, h1, h2⟩
  | popFront =>
    cases cs with
    | nil => exact absurd rfl hm
    | cons c cs =>
      obtain ⟨τ, h1, h2, _⟩ := PopFront_effect h
      exact ⟨_, τ, _, h1, h2⟩
  | insertAfter pos v =>
    obtain ⟨i, hi, rfl⟩ := position_index hm
    obtain ⟨τ, h1, h2, _⟩ := InsertAfter_effect h hi v
    exact ⟨_, τ, _, by simp only [Mutation.apply, h1]; rfl, h2⟩
  | eraseAfter pos =>
    obtain ⟨hpos, nxt, hn1, hn2⟩ := hm
    obtain ⟨i, hi, rfl⟩ := position_index hpos
    rw [cursor_increment h hi] at hn1
    have hlt : i < cs.length := by
      rcases Nat.lt_or_ge i cs.length with h1 | h1
      · exact h1
      · have : i = cs.length := by omega
        subst this
        rw [cursor_end] at hn1
        exact absurd (Except.ok.inj hn1).symm hn2
    obtain ⟨τ, h1, h2, _⟩ := EraseAfter_effect h hlt
    exact ⟨_, τ, _, by simp only [Mutation.apply, h1]; rfl, h2⟩
  | clear =>
    obtain ⟨τ, h1, h2, _⟩ := Clear_effect h
    exact ⟨_, τ, _, h1, h2⟩
  | assignThrough pos v =>
    obtain ⟨a, ha, hp⟩ := hm
    obtain ⟨τ, h1, h2⟩ := assignValue_effect h ha hp v
    exact ⟨_, τ, _, by simp only [Mutation.apply, h1]; rfl, h2⟩

/-- C9. Deep-copy isolation.  Copy-constructing `d` from a list `c` with nodes
`cs` returns, and every mutation of `d` within its contract (`PushFront`,
`PopFront`, `InsertAfter` or `EraseAfter` at a position of `d`, `Clear`, or an
assignment through a cursor to a node of `d`) returns and leaves `c` with the
same nodes and values: the traversal of `c` and the count of its nodes,
`GetSize()` of `c`, are what they were before the copy. -/
theorem copy_isolation {σ : Heap T} {c : SingleLinkedList} {cs : List (Nat × T)}
    (hc : Repr σ c cs) (dflt : T) :
    ∃ d σ1 ds, copyConstruct c dflt σ = .ok (d, σ1) ∧ Repr σ1 d ds ∧
      toList c σ = .ok (cs.map Prod.snd) ∧ chainLength c σ = .ok (GetSize c) ∧
      ∀ m : Mutation T, m.Allowed σ1 d ds →
        ∃ d2 σ2, m.apply d σ1 = .ok (d2, σ2) ∧
          toList c σ2 = .ok (cs.map Prod.snd) ∧ chainLength c σ2 = .ok (GetSize c) ∧
          Repr σ2 c cs := by
  obtain ⟨d, σ1, ds, h1, h2, _⟩ := copyConstruct_created hc dflt
  refine ⟨d, σ1, ds, h1, h2.repr, hc.toList_eq, hc.chainLength_eq, fun m hm => ?_⟩
  obtain ⟨d2, σ2, ds2, h3, h4⟩ := m.apply_effect h2.repr hm
  have hc1 := h2.keeps hc
  have hc2 : Repr σ2 c cs := hc1.transfer fun x hx =>
    h4.frame x (hc1.footprint_lt x hx) fun hmem => h2.disjoint hc hx hmem
  exact ⟨d2, σ2, h3, hc2.toList_eq, hc2.chainLength_eq, hc2⟩

/-! ## The invariant of reachable states -/

theorem Apart.symm {σ : Heap T} {a b : SingleLinkedList} (h : Apart σ a b) : Apart σ b a :=
  fun csb csa hb ha => (h csa csb ha hb).symm

theorem WellFormed.permute {σ : Heap T} {ls ms : List SingleLinkedList}
    (h : WellFormed σ ls) (hp : ls.Perm ms) : WellFormed σ ms :=
  ⟨fun l hl => h.1 l (hp.symm.subset hl),
    (hp.pairwise_iff (fun hab => Apart.symm hab)).mp h.2⟩

/-- A list that kept its nodes stays apart from the lists it was apart from. -/
theorem WellFormed.kept {σ τ : Heap T} {ls : List SingleLinkedList}
    (h : WellFormed σ ls)
    (hk : ∀ m ∈ ls, ∀ cs : List (Nat × T), Repr σ m cs → Repr τ m cs) : WellFormed τ ls := by
  refine ⟨fun m hm => ?_, h.2.imp_of_mem ?_⟩
  · obtain ⟨cs, hr⟩ := h.1 m hm
    exact ⟨cs, hk m hm cs hr⟩
  · intro a b ha hb hab csa csb hra hrb
    obtain ⟨csa0, hra0⟩ := h.1 a ha
    obtain ⟨csb0, hrb0⟩ := h.1 b hb
    have e1 : csa0 = csa := (hk a ha csa0 hra0).unique hra
    have e2 : csb0 = csb := (hk b hb csb0 hrb0).unique hrb
    subst e1 e2
    exact hab csa0 csb0 hra0 hrb0

theorem WellFormed.created {σ τ : Heap T} {ls : List SingleLinkedList} {l : SingleLinkedList}
    {cs : List (Nat × T)} (h : WellFormed σ ls) (hc : Created σ τ l cs) :
    WellFormed τ (l :: ls) := by
  have hk : ∀ m ∈ ls, ∀ csm : List (Nat × T), Repr σ m csm → Repr τ m csm :=
    fun m _ csm hr => hc.keeps hr
  have h1 := h.kept hk
  refine ⟨fun m hm => ?_, List.pairwise_cons.mpr ⟨fun m hm csl csm hrl hrm => ?_, h1.2⟩⟩
  · rcases List.mem_cons.mp hm with rfl | hm
    · exact ⟨cs, hc.repr⟩
    · exact h1.1 m hm
  · obtain ⟨csm0, hrm0⟩ := h.1 m hm
    rw [← hc.repr.unique hrl, ← (hk m hm csm0 hrm0).unique hrm]
    exact (hc.disjoint hrm0).symm

theorem WellFormed.effect {σ τ : Heap T} {ls : List SingleLinkedList}
    {l l1 : SingleLinkedList} {cs cs1 : List (Nat × T)} (h : WellFormed σ (l :: ls))
    (hl : Repr σ l cs) (he : Effect σ τ l cs l1 cs1) : WellFormed τ (l1 :: ls) := by
  obtain ⟨hall, hpw⟩ := h
  obtain ⟨hl_ls, hls⟩ := List.pairwise_cons.mp hpw
  have htail : WellFormed σ ls := ⟨fun m hm => hall m (List.mem_cons_of_mem _ hm), hls⟩
  have hk : ∀ m ∈ ls, ∀ csm : List (Nat × T), Repr σ m csm → Repr τ m csm := by
    intro m hm csm hr
    exact hr.transfer fun x hx =>
      he.frame x (hr.footprint_lt x hx) fun hmem => hl_ls m hm cs csm hl hr hmem hx
  have h1 := htail.kept hk
  refine ⟨fun m hm => ?_, List.pairwise_cons.mpr ⟨fun m hm csl csm hrl hrm => ?_, h1.2⟩⟩
  · rcases List.mem_cons.mp hm with rfl | hm
    · exact ⟨cs1, he.repr⟩
    · exact h1.1 m hm
  · obtain ⟨csm0, hrm0⟩ := htail.1 m hm
    rw [← he.repr.unique hrl, ← (hk m hm csm0 hrm0).unique hrm]
    intro x hx hxm
    rcases he.fresh x hx with h2 | h2
    · exact hl_ls m hm cs csm0 hl hrm0 h2 hxm
    · have := hrm0.footprint_lt x hxm
      omega

theorem WellFormed.swapped {σ τ : Heap T} {ls : List SingleLinkedList}
    {a b a1 b1 : SingleLinkedList} (h : WellFormed σ (a :: b :: ls))
    (hs : swap a b σ = .ok (a1, b1, τ)) : WellFormed τ (a1 :: b1 :: ls) := by
  obtain ⟨hall, hpw⟩ := h
  obtain ⟨ha_ls, hpw2⟩ := List.pairwise_cons.mp hpw
  obtain ⟨hb_ls, hls⟩ := List.pairwise_cons.mp hpw2
  obtain ⟨csa, hra⟩ := hall a (List.mem_cons_self _ _)
  obtain ⟨csb, hrb⟩ := hall b (List.mem_cons_of_mem _ (List.mem_cons_self _ _))
  have hab := ha_ls b (List.mem_cons_self _ _) csa csb hra hrb
  obtain ⟨τ1, h1, h2, h3, h4, h5⟩ := swap_effect hra hrb hab
  rw [h1] at hs
  simp only [Except.ok.injEq, Prod.mk.injEq] at hs
  obtain ⟨rfl, rfl, rfl⟩ := hs
  have htail : WellFormed σ ls :=
    ⟨fun m hm => hall m (List.mem_cons_of_mem _ (List.mem_cons_of_mem _ hm)), hls⟩
  have hk : ∀ m ∈ ls, ∀ csm : List (Nat × T), Repr σ m csm → Repr τ1 m csm := by
    intro m hm csm hr
    refine hr.transfer fun x hx => h5 x ?_ ?_
    · rintro rfl
      exact ha_ls m (List.mem_cons_of_mem _ hm) csa csm hra hr (List.mem_cons_self _ _) hx
    · rintro rfl
      exact hb_ls m hm csb csm hrb hr (List.mem_cons_self _ _) hx
  have h6 := htail.kept hk
  refine ⟨fun m hm => ?_, List.pairwise_cons.mpr ⟨fun m hm cs1 cs2 hr1 hr2 => ?_,
    List.pairwise_cons.mpr ⟨fun m hm cs1 cs2 hr1 hr2 => ?_, h6.2⟩⟩⟩
  · rcases List.mem_cons.mp hm with rfl | hm
    · exact ⟨csb, h2⟩
    · rcases List.mem_cons.mp hm with rfl | hm
      · exact ⟨csa, h3⟩
      · exact h6.1 m hm
  · rw [← h2.unique hr1]
    rcases List.mem_cons.mp hm with rfl | hm
    · rw [← h3.unique hr2]
      have hnda := hra.nodup_footprint
      have hndb := hrb.nodup_footprint
      intro x hx hy
      simp only [footprint, List.mem_cons] at hx hy
      rcases hx with rfl | hx
      · rcases hy with he | hy
        · exact hab (List.mem_cons_self _ _) (by rw [he]; exact List.mem_cons_self _ _)
        · exact (List.nodup_cons.mp hnda).1 hy
      · rcases hy with rfl | hy
        · exact (List.nodup_cons.mp hndb).1 hx
        · exact hab (List.mem_cons_of_mem _ hy) (List.mem_cons_of_mem _ hx)
    · obtain ⟨csm0, hrm0⟩ := htail.1 m hm
      rw [← (hk m hm csm0 hrm0).unique hr2]
      intro x hx hy
      simp only [footprint, List.mem_cons] at hx
      rcases hx with rfl | hx
      · exact ha_ls m (List.mem_cons_of_mem _ hm) csa csm0 hra hrm0 (List.mem_cons_self _ _) hy
      · exact hb_ls m hm csb csm0 hrb hrm0 (List.mem_cons_of_mem _ hx) hy
  · obtain ⟨csm0, hrm0⟩ := htail.1 m hm
    rw [← h3.unique hr1, ← (hk m hm csm0 hrm0).unique hr2]
    intro x hx hy
    simp only [footprint, List.mem_cons] at hx
    rcases hx with rfl | hx
    · exact hb_ls m hm csb csm0 hrb hrm0 (List.mem_cons_self _ _) hy
    · exact ha_ls m (List.mem_cons_of_mem _ hm) csa csm0 hra hrm0 (List.mem_cons_of_mem _ hx) hy

theorem construct_created (dflt : T) (σ : Heap T) :
    Created σ (construct dflt σ).2 (construct dflt σ).1 [] := by
  obtain ⟨h0, hr⟩ := construct_effect dflt σ
  rw [h0]
  exact Created.of_effect (Effect.refl hr)

theorem swap_self_effect {σ : Heap T} {a : SingleLinkedList} {cs : List (Nat × T)}
    (h : Repr σ a cs) : ∃ τ, swap a a σ = .ok (a, a, τ) ∧ Effect σ τ a cs a cs := by
  obtain ⟨⟨n, hr, hs⟩, hz⟩ := h
  have hlt := Heap.read_lt hr
  have h1 : Heap.read (σ.set a.head_ (some (Node.mk n.value n.next_node))) a.head_ =
      some ⟨n.value, n.next_node⟩ := Heap.read_set_eq _ _ hlt
  have hrd : ∀ x, Heap.read ((σ.set a.head_ (some (Node.mk n.value n.next_node))).set a.head_
      (some (Node.mk n.value n.next_node))) x = σ.read x := by
    intro x
    by_cases hx : a.head_ = x
    · subst hx
      rw [Heap.read_set_eq _ _ (by simpa using hlt), hr]
    · rw [Heap.read_set_ne _ _ hx, Heap.read_set_ne _ _ hx]
  refine ⟨_, ?_, ⟨Repr.transfer ⟨⟨n, hr, hs⟩, hz⟩ fun x _ => hrd x, fun x _ _ => hrd x,
    by simp, fun x hx => Or.inl hx⟩⟩
  simp only [swap, Heap.load, hr, Heap.setNext, h1, bind, Except.bind, pure, Except.pure]

theorem Reachable.wellFormed {dflt : T} {σ : Heap T} {ls : List SingleLinkedList}
    (h : Reachable dflt σ ls) : WellFormed σ ls := by
  induction h with
  | start σ => exact ⟨fun l hl => absurd hl (List.not_mem_nil l), List.Pairwise.nil⟩
  | permute _ hp ih => exact ih.permute hp
  | default _ ih => exact ih.created (construct_created dflt _)
  | literal vs _ hv ih =>
    obtain ⟨l, τ, news, h1, h2, _⟩ := fromValues_created vs dflt _
    rw [h1] at hv
    cases hv
    exact ih.created h2
  | copy _ hmem hv ih =>
    obtain ⟨cso, ho⟩ := ih.1 _ hmem
    obtain ⟨l, τ, news, h1, h2, _⟩ := copyConstruct_created ho dflt
    rw [h1] at hv
    cases hv
    exact ih.created h2
  | pushFront v _ hv ih =>
    obtain ⟨cs, hr⟩ := ih.1 _ (List.mem_cons_self _ _)
    obtain ⟨τ, h1, h2, _⟩ := PushFront_effect hr v
    rw [h1] at hv
    cases hv
    exact ih.effect hr h2
  | @insertAfter σ τ ls l l1 pos it v _ hpos hv ih =>
    obtain ⟨cs, hr⟩ := ih.1 _ (List.mem_cons_self _ _)
    have hm : (Mutation.insertAfter pos v).Allowed σ l cs := by
      rcases hpos with h1 | ⟨cs1, hr1, h1⟩
      · exact Or.inl h1
      · rw [hr.unique hr1]; exact Or.inr h1
    obtain ⟨l1, τ, cs1, h1, h2⟩ := Mutation.apply_effect hr _ hm
    simp only [Mutation.apply, hv, Except.map, Except.ok.injEq, Prod.mk.injEq] at h1
    obtain ⟨rfl, rfl⟩ := h1
    exact ih.effect hr h2
  | @popFront σ τ ls l l1 _ hne hv ih =>
    obtain ⟨cs, hr⟩ := ih.1 _ (List.mem_cons_self _ _)
    have hm : (Mutation.popFront : Mutation T).Allowed σ l cs := by
      intro he
      subst he
      simp [IsEmpty, hr.2] at hne
    obtain ⟨l1, τ, cs1, h1, h2⟩ := Mutation.apply_effect hr _ hm
    simp only [Mutation.apply, hv, Except.ok.injEq, Prod.mk.injEq] at h1
    obtain ⟨rfl, rfl⟩ := h1
    exact ih.effect hr h2
  | @eraseAfter σ τ ls l l1 pos it _ hpos hsucc hv ih =>
    obtain ⟨cs, hr⟩ := ih.1 _ (List.mem_cons_self _ _)
    have hm : (Mutation.eraseAfter pos : Mutation T).Allowed σ l cs := by
      refine ⟨?_, hsucc⟩
      rcases hpos with h1 | ⟨cs1, hr1, h1⟩
      · exact Or.inl h1
      · rw [hr.unique hr1]; exact Or.inr h1
    obtain ⟨l1, τ, cs1, h1, h2⟩ := Mutation.apply_effect hr _ hm
    simp only [Mutation.apply, hv, Except.map, Except.ok.injEq, Prod.mk.injEq] at h1
    obtain ⟨rfl, rfl⟩ := h1
    exact ih.effect hr h2
  | clear _ hv ih =>
    obtain ⟨cs, hr⟩ := ih.1 _ (List.mem_cons_self _ _)
    obtain ⟨τ, h1, h2, _⟩ := Clear_effect hr
    rw [h1] at hv
    cases hv
    exact ih.effect hr h2
  | swap _ hv ih => exact ih.swapped hv
  | swapSelf _ hv ih =>
    obtain ⟨cs, hr⟩ := ih.1 _ (List.mem_cons_self _ _)
    obtain ⟨τ, h1, h2⟩ := swap_self_effect hr
    rw [h1] at hv
    cases hv
    exact ih.effect hr h2
  | @assign σ τ ls a b a1 _ hv ih =>
    obtain ⟨csa, hra⟩ := ih.1 _ (List.mem_cons_self _ _)
    obtain ⟨csb, hrb⟩ := ih.1 _ (List.mem_cons_of_mem _ (List.mem_cons_self _ _))
    have hab := (List.pairwise_cons.mp ih.2).1 _ (List.mem_cons_self _ _) csa csb hra hrb
    have hne : a.head_ ≠ b.head_ := fun he =>
      hab (List.mem_cons_self _ _) (by rw [he]; exact List.mem_cons_self _ _)
    obtain ⟨a1, τ, news, h1, h2, _⟩ := assign_effect hra hrb hne dflt
    rw [h1] at hv
    cases hv
    exact ih.effect hra h2
  | @assignSelf σ τ ls a a1 _ hv ih =>
    have h0 : SLL.assign a a dflt σ = .ok (a, σ) := by simp [SLL.assign, pure, Except.pure]
    rw [h0] at hv
    cases hv
    exact ih

/-! ## The size invariant -/

/-- C1. In every reachable state, for every live list, following `next_node`
from the sentinel visits exactly `GetSize()` nodes and then reaches null, and
`IsEmpty()` holds exactly when `begin()` equals `end()`. -/
theorem size_invariant {dflt : T} {σ : Heap T} {ls : List SingleLinkedList}
    (h : Reachable dflt σ ls) {l : SingleLinkedList} (hl : l ∈ ls) :
    chainLength l σ = .ok (GetSize l) ∧
      ∃ first, begin l σ = .ok first ∧ (IsEmpty l = true ↔ first = end_) := by
  obtain ⟨cs, hr⟩ := h.wellFormed.1 l hl
  refine ⟨hr.chainLength_eq, _, hr.begin_eq.1, ?_⟩
  cases cs with
  | nil => simp [IsEmpty, hr.2, end_]
  | cons c cs => simp [IsEmpty, hr.2, end_]

/-! ## swap, twice -/

theorem Heap.set_read_self {σ : Heap T} {a : Nat} {n : Node T} (h : σ.read a = some n) :
    σ.set a (some n) = σ := by
  have hlt := Heap.read_lt h
  have hget : σ[a]? = some (some n) := by
    simp only [Heap.read] at h
    split at h
    · next m hm => rw [hm, Option.some.inj h]
    · exact absurd h (by simp)
  apply List.ext_getElem?
  intro i
  rw [List.getElem?_set]
  by_cases hi : a = i
  · subst hi
    rw [if_pos rfl, if_pos hlt, hget]
  · rw [if_neg hi]

theorem swap_eq {σ : Heap T} {a b : SingleLinkedList} {na nb : Node T}
    (ha : σ.read a.head_ = some na) (hb : σ.read b.head_ = some nb) (hne : a.head_ ≠ b.head_) :
    swap a b σ = .ok (⟨a.head_, b.size_⟩, ⟨b.head_, a.size_⟩,
      (σ.set a.head_ (some ⟨na.value, nb.next_node⟩)).set b.head_
        (some ⟨nb.value, na.next_node⟩)) := by
  have h1 : Heap.read (σ.set a.head_ (some (Node.mk na.value nb.next_node))) b.head_ = some nb := by
    rw [Heap.read_set_ne _ _ hne]; exact hb
  simp only [swap, Heap.load, ha, hb, Heap.setNext, h1, bind, Except.bind, pure, Except.pure]

/-- C11. For two distinct lists `a` and `b`, occupying disjoint cells, the member
`a.swap(b)` and the free `swap(a, b)` return the same result: the objects `a`
and `b` themselves (each list keeps its own sentinel), which have exchanged
their `GetSize()` and their traversals, each now holding the nodes of the
other.  A second swap returns both lists and the whole store as they were
before the first.  Swapping a list with
itself returns it unchanged, with the traversal it had. -/
theorem swap_spec {σ : Heap T} {a b : SingleLinkedList} {csa csb : List (Nat × T)}
    (ha : Repr σ a csa) (hb : Repr σ b csb)
    (hd : (footprint a csa).Disjoint (footprint b csb)) :
    (∃ a1 b1 τ, swap a b σ = .ok (a1, b1, τ) ∧ free_swap a b σ = .ok (a1, b1, τ) ∧
      a1.head_ = a.head_ ∧ b1.head_ = b.head_ ∧ a1.head_ ≠ b1.head_ ∧
      GetSize a1 = GetSize b ∧ GetSize b1 = GetSize a ∧
      toList a σ = .ok (csa.map Prod.snd) ∧ toList b σ = .ok (csb.map Prod.snd) ∧
      toList a1 τ = .ok (csb.map Prod.snd) ∧ toList b1 τ = .ok (csa.map Prod.snd) ∧
      swap a1 b1 τ = .ok (a, b, σ) ∧ free_swap a1 b1 τ = .ok (a, b, σ) ∧
      Repr τ a1 csb ∧ Repr τ b1 csa) ∧
    (∃ τ, swap a a σ = .ok (a, a, τ) ∧ toList a τ = .ok (csa.map Prod.snd)) := by
  have hne : a.head_ ≠ b.head_ := fun he =>
    hd (List.mem_cons_self _ _) (by rw [he]; exact List.mem_cons_self _ _)
  obtain ⟨τ, h1, h2, h3, _, _⟩ := swap_effect ha hb hd
  obtain ⟨⟨na, hra, _⟩, _⟩ := ha.1, ha.2
  obtain ⟨⟨nb, hrb, _⟩, _⟩ := hb.1, hb.2
  have h4 := swap_eq hra hrb hne
  rw [h1] at h4
  simp only [Except.ok.injEq, Prod.mk.injEq, true_and] at h4
  have hla := Heap.read_lt hra
  have hlb := Heap.read_lt hrb
  have hra1 : τ.read a.head_ = some ⟨na.value, nb.next_node⟩ := by
    rw [h4, Heap.read_set_ne _ _ hne.symm]
    exact Heap.read_set_eq _ _ hla
  have hrb1 : τ.read b.head_ = some ⟨nb.value, na.next_node⟩ := by
    rw [h4]
    exact Heap.read_set_eq _ _ (by simpa using hlb)
  have h5 := @swap_eq T τ ⟨a.head_, b.size_⟩ ⟨b.head_, a.size_⟩ _ _ hra1 hrb1 hne
  have hback : (τ.set a.head_ (some (Node.mk na.value na.next_node))).set b.head_
      (some (Node.mk nb.value nb.next_node)) = σ := by
    have e1 : σ.set a.head_ (some (Node.mk na.value na.next_node)) = σ :=
      Heap.set_read_self hra
    have e2 : σ.set b.head_ (some (Node.mk nb.value nb.next_node)) = σ :=
      Heap.set_read_self hrb
    rw [h4, List.set_comm _ _ (σ.set a.head_ _) hne.symm, List.set_set, List.set_set, e1, e2]
  simp only [hback] at h5
  obtain ⟨υ, h6, h7⟩ := swap_self_effect ha
  exact ⟨⟨_, _, τ, h1, h1, rfl, rfl, hne, rfl, rfl, ha.toList_eq, hb.toList_eq, h2.toList_eq,
    h3.toList_eq, h5, h5, h2, h3⟩, υ, h6, h7.repr.toList_eq⟩

/-! ## operator== and operator!= -/

/-- C12. For two lists `a` and `b`, `a == b` returns, and it returns `true`
exactly when `GetSize()` is the same for both and the elements are equal index
by index in traversal order; `a == a` returns `true`, and `a != b` returns the
negation of what `a == b` returns. -/
theorem eq_spec [DecidableEq T] {σ : Heap T} {a b : SingleLinkedList}
    {csa csb : List (Nat × T)} (ha : Repr σ a csa) (hb : Repr σ b csb) :
    ∃ r, eq a b σ = .ok r ∧
      toList a σ = .ok (csa.map Prod.snd) ∧ toList b σ = .ok (csb.map Prod.snd) ∧
      (r = true ↔ GetSize a = GetSize b ∧
        ∀ i : Nat, (csa.map Prod.snd)[i]? = (csb.map Prod.snd)[i]?) ∧
      eq a a σ = .ok true ∧ ne a b σ = .ok (!r) := by
  refine ⟨_, eq_repr ha hb, ha.toList_eq, hb.toList_eq, ?_, ?_, ?_⟩
  · rw [decide_eq_true_iff]
    constructor
    · intro he
      refine ⟨?_, fun i => by rw [he]⟩
      have := congrArg List.length he
      simp only [List.length_map] at this
      simp only [GetSize]
      rw [ha.2, hb.2]; exact this
    · rintro ⟨_, he⟩
      exact List.ext_getElem? he
  · rw [eq_repr ha ha]; simp
  · simp only [ne, eq_repr ha hb, bind, Except.bind, pure, Except.pure]

/-! ## Clear -/

/-- C15. On every list `Clear()` returns and leaves `IsEmpty()` true,
`GetSize()` zero and `begin()` equal to `end()`, every former node released; a
second `Clear()` returns the same list and the same store. -/
theorem clear_spec {σ : Heap T} {l : SingleLinkedList} {cs : List (Nat × T)}
    (h : Repr σ l cs) :
    ∃ l1 τ, Clear l σ = .ok (l1, τ) ∧ IsEmpty l1 = true ∧ GetSize l1 = 0 ∧
      begin l1 τ = .ok end_ ∧ toList l1 τ = .ok [] ∧
      (∀ a ∈ cs.map Prod.fst, τ.read a = none) ∧
      Clear l1 τ = .ok (l1, τ) := by
  obtain ⟨τ, h1, h2, _, h4⟩ := Clear_effect h
  have hr := h2.repr
  refine ⟨_, τ, h1, rfl, rfl, ?_, hr.toList_eq, h4, ?_⟩
  · rw [hr.begin_eq.1]; rfl
  · obtain ⟨⟨n, hn, hs⟩, _⟩ := hr
    have hnone : n.next_node = none := hs
    simp only [Clear, clearLoop, Heap.load, hn, hnone, bind, Except.bind, pure, Except.pure]

/-! ## Assertions -/

theorem Heap.load_error {σ : Heap T} {p : Ptr} {e : Fault} (h : σ.load p = .error e) :
    e = .invalid_access := by
  unfold Heap.load at h
  split at h
  · cases h; rfl
  · split at h
    · cases h
    · cases h; rfl

theorem Heap.setNext_error {σ : Heap T} {a : Nat} {next : Ptr} {e : Fault}
    (h : σ.setNext a next = .error e) : e = .invalid_access := by
  unfold Heap.setNext at h
  split at h
  · cases h
  · cases h; rfl

theorem PopFront_assertion_iff (l : SingleLinkedList) (σ : Heap T) :
    PopFront l σ = .error .assertion ↔ IsEmpty l = true := by
  by_cases hsz : l.size_ = 0
  · simp [PopFront, IsEmpty, hsz]
  · simp only [PopFront, IsEmpty, hsz, if_false, beq_iff_eq, iff_false, bind, Except.bind]
    intro h
    cases hl : σ.load (some l.head_) with
    | error e => rw [hl] at h; cases Heap.load_error hl; cases h
    | ok hd =>
      rw [hl] at h
      simp only at h
      cases hn : hd.next_node with
      | none => rw [hn] at h; cases h
      | some q =>
        rw [hn] at h
        simp only at h
        cases hq : σ.load (some q) with
        | error e => rw [hq] at h; cases Heap.load_error hq; cases h
        | ok m =>
          rw [hq] at h
          simp only at h
          cases hw : Heap.setNext (σ.delete q) l.head_ m.next_node with
          | error e => rw [hw] at h; cases Heap.setNext_error hw; cases h
          | ok υ => rw [hw] at h; cases h

theorem EraseAfter_assertion_iff (l : SingleLinkedList) (pos : BasicIterator) (σ : Heap T) :
    EraseAfter l pos σ = .error .assertion ↔
      pos = end_ ∨ ∃ p n, pos.node_ = some p ∧ σ.read p = some n ∧ n.next_node = none := by
  obtain ⟨node⟩ := pos
  cases node with
  | none => simp [EraseAfter, end_]
  | some p =>
    simp only [EraseAfter, end_, BasicIterator.mk.injEq, false_or, Option.some.injEq,
      bind, Except.bind, Heap.load]
    cases hp : σ.read p with
    | none => simp [hp]
    | some n =>
      simp only
      cases hn : n.next_node with
      | none => simp [hp, hn]
      | some q =>
        simp only
        cases hq : σ.read q with
        | none => simp [hp, hn]
        | some m =>
          simp only
          cases hw : Heap.setNext (σ.delete q) p m.next_node with
          | error e => cases Heap.setNext_error hw; simp [hp, hn]
          | ok υ => simp [hp, hn, pure, Except.pure]

theorem increment_assertion_iff (σ : Heap T) (it : BasicIterator) :
    it.increment σ = .error .assertion ↔ it = end_ := by
  obtain ⟨node⟩ := it
  cases node with
  | none => simp [BasicIterator.increment, end_]
  | some p =>
    simp only [BasicIterator.increment, end_, BasicIterator.mk.injEq]
    cases σ.read p <;> simp

theorem deref_assertion_iff (σ : Heap T) (it : BasicIterator) :
    it.deref σ = .error .assertion ↔ it = end_ := by
  obtain ⟨node⟩ := it
  cases node with
  | none => simp [BasicIterator.deref, end_]
  | some p =>
    simp only [BasicIterator.deref, end_, BasicIterator.mk.injEq]
    cases σ.read p <;> simp

theorem arrow_assertion_iff (σ : Heap T) (it : BasicIterator) :
    it.arrow σ = .error .assertion ↔ it = end_ := by
  obtain ⟨node⟩ := it
  cases node with
  | none => simp [BasicIterator.arrow, end_]
  | some p =>
    simp only [BasicIterator.arrow, end_, BasicIterator.mk.injEq]
    cases σ.read p <;> simp

theorem cursor_arrow {σ : Heap T} {l : SingleLinkedList} {cs : List (Nat × T)}
    (h : Repr σ l cs) {i : Nat} (hi : i ≤ cs.length) :
    ∃ p, (cursorAt l cs i).arrow σ = .ok p ∧ (cursorAt l cs i).node_ = some p := by
  obtain ⟨a, n, h1, h2, _, _⟩ := cursor_read h hi
  exact ⟨a, by simp [BasicIterator.arrow, h1, h2], h1⟩

/-- C17. The assertions fail exactly on the stated violations: `PopFront()`
fails its assertion iff the list is empty (`IsEmpty()`), `EraseAfter(pos)` iff
`pos` is the end cursor or the node it points at has a null `next_node`, and
`operator++`, `operator*` and `operator->` iff the cursor is the end cursor.  On
a list satisfying the size invariant the calls return when the precondition
holds: `PopFront()` on a non-empty list, `EraseAfter` at a position with a
successor, `operator++` at `before_begin()` or a node, `operator*` and
`operator->` at a node. -/
theorem assertion_spec :
    (∀ (l : SingleLinkedList) (σ : Heap T),
      PopFront l σ = .error .assertion ↔ IsEmpty l = true) ∧
    (∀ (l : SingleLinkedList) (pos : BasicIterator) (σ : Heap T),
      EraseAfter l pos σ = .error .assertion ↔
        pos = end_ ∨ ∃ p n, pos.node_ = some p ∧ σ.read p = some n ∧ n.next_node = none) ∧
    (∀ (σ : Heap T) (it : BasicIterator),
      (it.increment σ = .error .assertion ↔ it = end_) ∧
      (it.deref σ = .error .assertion ↔ it = end_) ∧
      (it.arrow σ = .error .assertion ↔ it = end_)) ∧
    (∀ (σ : Heap T) (l : SingleLinkedList) (cs : List (Nat × T)), Repr σ l cs →
      (IsEmpty l = true ↔ cs = []) ∧
      (cs ≠ [] → ∃ r, PopFront l σ = .ok r) ∧
      (∀ i, i < cs.length → ∃ r, EraseAfter l (cursorAt l cs i) σ = .ok r) ∧
      (∀ i, i ≤ cs.length → ∃ r, (cursorAt l cs i).increment σ = .ok r) ∧
      (∀ i, 1 ≤ i → i ≤ cs.length →
        (∃ v, (cursorAt l cs i).deref σ = .ok v) ∧ ∃ p, (cursorAt l cs i).arrow σ = .ok p)) := by
  refine ⟨PopFront_assertion_iff, EraseAfter_assertion_iff, fun σ it =>
    ⟨increment_assertion_iff σ it, deref_assertion_iff σ it, arrow_assertion_iff σ it⟩,
    fun σ l cs h => ⟨?_, ?_, ?_, ?_, ?_⟩⟩
  · cases cs with
    | nil => simp [IsEmpty, h.2]
    | cons c cs => simp [IsEmpty, h.2]
  · intro hne
    cases cs with
    | nil => exact absurd rfl hne
    | cons c cs =>
      obtain ⟨τ, h1, _⟩ := PopFront_effect h
      exact ⟨_, h1⟩
  · intro i hi
    obtain ⟨τ, h1, _⟩ := EraseAfter_effect h hi
    exact ⟨_, h1⟩
  · intro i hi
    exact ⟨_, cursor_increment h hi⟩
  · intro i h1 hi
    obtain ⟨j, rfl⟩ : ∃ j, i = j + 1 := ⟨i - 1, by omega⟩
    have hj : j < (cs.map Prod.snd).length := by simp; omega
    refine ⟨⟨_, cursor_deref h (List.getElem?_eq_getElem hj)⟩, ?_⟩
    obtain ⟨p, hp, _⟩ := cursor_arrow h hi
    exact ⟨p, hp⟩

/-! ## operator< and the derived comparisons -/

theorem lexLess_nil_left [LT T] (ys : List T) : LexLess [] ys ↔ ys ≠ [] := by
  constructor
  · rintro (⟨_, h⟩ | ⟨i, x, y, h, _⟩)
    · exact Ne.symm h
    · simp at h
  · intro h
    exact Or.inl ⟨List.nil_prefix, Ne.symm h⟩

theorem lexLess_nil_right [LT T] (xs : List T) : ¬ LexLess xs [] := by
  rintro (⟨h1, h2⟩ | ⟨i, x, y, _, h, _⟩)
  · exact h2 (List.prefix_nil.mp h1)
  · simp at h

theorem lexLess_cons [Preorder T] (x y : T) (xs ys : List T) :
    LexLess (x :: xs) (y :: ys) ↔ x < y ∨ (x = y ∧ LexLess xs ys) := by
  constructor
  · rintro (⟨h1, h2⟩ | ⟨i, u, v, hu, hv, ht, hne, hlt⟩)
    · obtain ⟨rfl, h3⟩ := List.cons_prefix_cons.mp h1
      exact Or.inr ⟨rfl, Or.inl ⟨h3, fun h => h2 (by rw [h])⟩⟩
    · cases i with
      | zero =>
        simp only [List.getElem?_cons_zero, Option.some.injEq] at hu hv
        subst hu hv
        exact Or.inl hlt
      | succ j =>
        simp only [List.getElem?_cons_succ] at hu hv
        simp only [List.take_succ_cons, List.cons.injEq] at ht
        exact Or.inr ⟨ht.1, Or.inr ⟨j, u, v, hu, hv, ht.2, hne, hlt⟩⟩
  · rintro (h | ⟨rfl, ⟨h1, h2⟩ | ⟨i, u, v, hu, hv, ht, hne, hlt⟩⟩)
    · exact Or.inr ⟨0, x, y, List.getElem?_cons_zero, List.getElem?_cons_zero, rfl,
        ne_of_lt h, h⟩
    · exact Or.inl ⟨List.cons_prefix_cons.mpr ⟨rfl, h1⟩, fun h => h2 (List.cons.inj h).2⟩
    · refine Or.inr ⟨i + 1, u, v, by simpa using hu, by simpa using hv, ?_, hne, hlt⟩
      simp only [List.take_succ_cons, ht]

theorem Seg.lexicographical_compare_eq [LinearOrder T] {σ : Heap T} {p q : Ptr}
    {cs ds : List (Nat × T)} (hc : Seg σ p cs) (hd : Seg σ q ds) {fuel : Nat}
    (hf : cs.length < fuel) :
    ∃ r, lexicographical_compare σ fuel ⟨p⟩ ⟨q⟩ = .ok r ∧
      (r = true ↔ LexLess (cs.map Prod.snd) (ds.map Prod.snd)) := by
  induction cs generalizing p q ds fuel with
  | nil =>
    cases fuel with
    | zero => simp at hf
    | succ k =>
      have hp : p = none := hc
      subst hp
      cases ds with
      | nil =>
        have hq : q = none := hd
        subst hq
        refine ⟨false, by simp [lexicographical_compare, end_, pure, Except.pure], ?_⟩
        simp [lexLess_nil_left]
      | cons d ds =>
        obtain ⟨hq, _⟩ := hd
        subst hq
        refine ⟨true, by simp [lexicographical_compare, end_, pure, Except.pure], ?_⟩
        simp [lexLess_nil_left]
  | cons c cs ih =>
    cases fuel with
    | zero => simp at hf
    | succ k =>
      obtain ⟨hp, nx, hr, hs⟩ := hc
      subst hp
      cases ds with
      | nil =>
        have hq : q = none := hd
        subst hq
        refine ⟨false, by simp [lexicographical_compare, end_, pure, Except.pure], ?_⟩
        simp [lexLess_nil_right]
      | cons d ds =>
        obtain ⟨hq, nx2, hr2, hs2⟩ := hd
        subst hq
        have hk : cs.length < k := by simpa using hf
        simp only [List.map_cons, lexLess_cons]
        by_cases h1 : c.2 < d.2
        · refine ⟨true, ?_, by simp [h1]⟩
          simp [lexicographical_compare, end_, BasicIterator.deref, hr, hr2, h1, bind,
            Except.bind, pure, Except.pure]
        · by_cases h2 : d.2 < c.2
          · refine ⟨false, ?_, ?_⟩
            · simp [lexicographical_compare, end_, BasicIterator.deref, hr, hr2, h1, h2, bind,
                Except.bind, pure, Except.pure]
            · simp only [h1, false_or, Bool.false_eq_true, false_iff, not_and]
              intro he
              rw [he] at h2
              exact absurd h2 (lt_irrefl _)
          · obtain ⟨r, h3, h4⟩ := ih hs hs2 hk
            have he : c.2 = d.2 := le_antisymm (not_lt.mp h2) (not_lt.mp h1)
            refine ⟨r, ?_, by simp [h1, he, h4]⟩
            simp [lexicographical_compare, end_, BasicIterator.deref, BasicIterator.increment,
              hr, hr2, h1, h2, h3, bind, Except.bind]

theorem lt_repr [LinearOrder T] {σ : Heap T} {a b : SingleLinkedList}
    {csa csb : List (Nat × T)} (ha : Repr σ a csa) (hb : Repr σ b csb) :
    ∃ r, lt a b σ = .ok r ∧ (r = true ↔ LexLess (csa.map Prod.snd) (csb.map Prod.snd)) := by
  obtain ⟨hba, hsa⟩ := ha.begin_eq
  obtain ⟨hbb, hsb⟩ := hb.begin_eq
  obtain ⟨r, h1, h2⟩ := hsa.lexicographical_compare_eq hsb (Nat.lt_succ_of_lt ha.length_lt)
  refine ⟨r, ?_, h2⟩
  simp only [lt, hba, hbb, bind, Except.bind]
  exact h1

/-- C13. For two lists `a` and `b` over a linearly ordered element type, `a < b`
returns, and it returns `true` exactly when the element sequence of `a` is
strictly lexicographically smaller than that of `b`: a proper prefix of it, or
less at the first index where they differ.  On lists constructed from literals:
`{1,2,3} < {1,2,4}`, `{1,2} < {1,2,3}` and `{} < {1}` return `true`, and
`{1,2,3} < {1,2,3}` returns `false`. -/
theorem lt_spec [LinearOrder T] {σ : Heap T} {a b : SingleLinkedList}
    {csa csb : List (Nat × T)} (ha : Repr σ a csa) (hb : Repr σ b csb) :
    (∃ r, lt a b σ = .ok r ∧
      toList a σ = .ok (csa.map Prod.snd) ∧ toList b σ = .ok (csb.map Prod.snd) ∧
      (r = true ↔ LexLess (csa.map Prod.snd) (csb.map Prod.snd))) ∧
    ltOfValues (0 : Nat) [1, 2, 3] [1, 2, 4] = .ok true ∧
    ltOfValues (0 : Nat) [1, 2] [1, 2, 3] = .ok true ∧
    ltOfValues (0 : Nat) [] [1] = .ok true ∧
    ltOfValues (0 : Nat) [1, 2, 3] [1, 2, 3] = .ok false := by
  obtain ⟨r, h1, h2⟩ := lt_repr ha hb
  exact ⟨⟨r, h1, ha.toList_eq, hb.toList_eq, h2⟩, rfl, rfl, rfl, rfl⟩

/-- C14. For every pair of lists, in every store, `a <= b` is computed as the
negation of `b < a`, `a > b` as `b < a`, and `a >= b` as the negation of
`a < b`; on lists satisfying the size invariant all of them return, with
`(a <= b) = !(b < a)`, `(a > b) = (b < a)` and `(a >= b) = !(a < b)`. -/
theorem derived_comparisons [LinearOrder T] (a b : SingleLinkedList) (σ : Heap T) :
    le a b σ = (lt b a σ).map (fun r => !r) ∧ gt a b σ = lt b a σ ∧
    ge a b σ = (lt a b σ).map (fun r => !r) ∧
    ∀ csa csb : List (Nat × T), Repr σ a csa → Repr σ b csb →
      ∃ r s, lt a b σ = .ok r ∧ lt b a σ = .ok s ∧
        le a b σ = .ok (!s) ∧ gt a b σ = .ok s ∧ ge a b σ = .ok (!r) := by
  have h1 : le a b σ = (lt b a σ).map (fun r => !r) := by
    simp only [le, gt, bind, Except.bind, pure, Except.pure]
    cases lt b a σ <;> rfl
  have h2 : ge a b σ = (lt a b σ).map (fun r => !r) := by
    simp only [ge, bind, Except.bind, pure, Except.pure]
    cases lt a b σ <;> rfl
  refine ⟨h1, rfl, h2, fun csa csb ha hb => ?_⟩
  obtain ⟨r, hr, _⟩ := lt_repr ha hb
  obtain ⟨s, hs, _⟩ := lt_repr hb ha
  refine ⟨r, s, hr, hs, ?_, hs, ?_⟩
  · rw [h1, hs]; rfl
  · rw [h2, hr]; rfl

/-! ## InsertAfter with a cursor of another list -/

theorem InsertAfter_assertion_iff (l : SingleLinkedList) (pos : BasicIterator) (v : T)
    (σ : Heap T) : InsertAfter l pos v σ = .error .assertion ↔ pos = end_ := by
  obtain ⟨node⟩ := pos
  cases node with
  | none => simp [InsertAfter, end_]
  | some p =>
    refine ⟨fun h => ?_, fun h => by simp [end_] at h⟩
    exfalso
    simp only [InsertAfter, Heap.load, Heap.new, bind, Except.bind] at h
    cases hp : σ.read p with
    | none => rw [hp] at h; cases h
    | some n =>
      rw [hp] at h
      simp only at h
      cases hw : Heap.setNext (σ ++ [some (Node.mk v n.next_node)]) p (some σ.length) with
      | error e => rw [hw] at h; cases Heap.setNext_error hw; cases h
      | ok υ => rw [hw] at h; cases h

/-- The store and the cursor `InsertAfter` ends with depend on the cursor
alone; the list it is called on only has its counter incremented. -/
theorem InsertAfter_other (a b : SingleLinkedList) (pos : BasicIterator) (v : T) (σ : Heap T) :
    InsertAfter a pos v σ =
      (InsertAfter b pos v σ).map fun r => (r.1, ⟨a.head_, a.size_ + 1⟩, r.2.2) := by
  obtain ⟨node⟩ := pos
  cases node with
  | none => rfl
  | some p =>
    simp only [InsertAfter, Heap.new, bind, Except.bind, pure, Except.pure]
    cases σ.load (some p) with
    | error e => rfl
    | ok n =>
      simp only [Except.map]
      cases Heap.setNext (σ ++ [some (Node.mk v n.next_node)]) p (some σ.length) <;> rfl

/-- C18, as the code has it.  `InsertAfter(pos, v)` fails its assertion exactly
when `pos` is the end cursor.  With a cursor at `before_begin()` or at a node of
a different list `b`, the call on `a` returns: the new node is linked into the
chain of `b`, which then has one node more than its counter says, the chain of
`a` is unchanged, and the counter of `a` is incremented, so that it is one more
than the number of nodes on the chain of `a`. -/
theorem insertAfter_assertion_spec :
    (∀ (l : SingleLinkedList) (pos : BasicIterator) (v : T) (σ : Heap T),
      InsertAfter l pos v σ = .error .assertion ↔ pos = end_) ∧
    (∀ (σ : Heap T) (a b : SingleLinkedList) (csa csb : List (Nat × T)),
      Repr σ a csa → Repr σ b csb → (footprint a csa).Disjoint (footprint b csb) →
      ∀ (i : Nat) (v : T), i ≤ csb.length →
        ∃ it a1 τ, InsertAfter a (cursorAt b csb i) v σ = .ok (it, a1, τ) ∧
          GetSize a1 = GetSize a + 1 ∧
          chainLength a1 τ = .ok (GetSize a) ∧ toList a1 τ = .ok (csa.map Prod.snd) ∧
          chainLength b τ = .ok (GetSize b + 1) ∧
          toList b τ = .ok ((csb.map Prod.snd).take i ++ v :: (csb.map Prod.snd).drop i)) := by
  refine ⟨InsertAfter_assertion_iff, fun σ a b csa csb ha hb hd i v hi => ?_⟩
  obtain ⟨τ, h1, h2, _⟩ := InsertAfter_effect hb hi v
  have ha1 : Repr τ a csa := ha.transfer fun x hx =>
    h2.frame x (ha.footprint_lt x hx) fun hmem => hd hx hmem
  refine ⟨⟨some σ.length⟩, ⟨a.head_, a.size_ + 1⟩, τ, ?_, rfl, ha1.chainLength_eq,
    ha1.toList_eq, ?_, ?_⟩
  · rw [InsertAfter_other a b, h1]; rfl
  · have := h2.repr.chainLength_eq
    exact this
  · have := h2.repr.toList_eq
    rw [List.map_append, List.map_cons, List.map_take, List.map_drop] at this
    exact this

/-! ## Dereferencing before_begin() -/

/-- C19, as the code has it.  `operator*` and `operator->` assert only that the
cursor is not null, so on `before_begin()` the assertion never fails: on a list
satisfying the size invariant they return the value slot of the sentinel, which
for a default-constructed list holds the default-constructed value.  On the end
cursor they fail the assertion. -/
theorem deref_before_begin_spec :
    (∀ (l : SingleLinkedList) (σ : Heap T),
      (before_begin l).deref σ ≠ .error .assertion ∧
      (before_begin l).arrow σ ≠ .error .assertion) ∧
    (∀ (σ : Heap T) (l : SingleLinkedList) (cs : List (Nat × T)), Repr σ l cs →
      ∃ h, σ.read l.head_ = some h ∧ (before_begin l).deref σ = .ok h.value ∧
        (before_begin l).arrow σ = .ok l.head_) ∧
    (∀ (dflt : T) (σ : Heap T),
      (before_begin (construct dflt σ).1).deref (construct dflt σ).2 = .ok dflt) ∧
    (∀ σ : Heap T, end_.deref σ = .error .assertion ∧ end_.arrow σ = .error .assertion) := by
  refine ⟨fun l σ => ⟨?_, ?_⟩, fun σ l cs h => ?_, fun dflt σ => ?_, fun σ => ⟨rfl, rfl⟩⟩
  · intro h
    have := (deref_assertion_iff σ _).mp h
    simp [before_begin, end_] at this
  · intro h
    have := (arrow_assertion_iff σ _).mp h
    simp [before_begin, end_] at this
  · obtain ⟨⟨n, hn, _⟩, _⟩ := h
    exact ⟨n, hn, by simp [before_begin, BasicIterator.deref, hn],
      by simp [before_begin, BasicIterator.arrow, hn]⟩
  · obtain ⟨h0, _⟩ := construct_effect dflt σ
    rw [h0]
    simp [before_begin, BasicIterator.deref, Heap.read_append_new]

/-! ## Draining a list -/

/-- The node erased by `EraseAfter(before_begin())` is released. -/
theorem EraseAfter_front_freed {σ τ : Heap T} {l l1 : SingleLinkedList} {c : Nat × T}
    {cs : List (Nat × T)} {it : BasicIterator} (h : Repr σ l (c :: cs))
    (he : EraseAfter l (before_begin l) σ = .ok (it, l1, τ)) : τ.read c.1 = none := by
  have hnd := h.nodup_footprint
  obtain ⟨⟨n, hn, hp, nx, hc, _⟩, _⟩ := h
  have hne : l.head_ ≠ c.1 := by
    intro heq
    simp only [footprint, List.map_cons, List.nodup_cons, List.mem_cons, not_or] at hnd
    exact hnd.1.1 heq
  have h2 : Heap.read (σ.delete c.1) l.head_ = some n := by
    rw [Heap.read_delete_ne _ hne.symm]; exact hn
  simp only [EraseAfter, before_begin, Heap.load, hn, hp, hc, Heap.setNext, h2, bind,
    Except.bind, pure, Except.pure, Except.ok.injEq, Prod.mk.injEq] at he
  rw [← he.2.2, Heap.read_set_ne _ _ hne]
  exact Heap.read_delete_eq _ _

theorem drainLoop_spec {σ : Heap T} {l : SingleLinkedList} {cs : List (Nat × T)}
    (h : Repr σ l cs) {fuel : Nat} (hf : cs.length < fuel) :
    ∃ steps τ, drainLoop fuel l σ = .ok (steps, ⟨l.head_, 0⟩, τ) ∧
      steps.length = cs.length ∧ (∀ s ∈ steps, s.1 = s.2) ∧
      Repr τ ⟨l.head_, 0⟩ [] ∧
      (∀ a ∈ cs.map Prod.fst, τ.read a = none) ∧
      (∀ x, x < σ.length → x ∉ footprint l cs → τ.read x = σ.read x) ∧
      τ.length = σ.length := by
  induction cs generalizing σ l fuel with
  | nil =>
    cases fuel with
    | zero => simp at hf
    | succ k =>
      have hsz : l.size_ = 0 := h.2
      have hl : l = ⟨l.head_, 0⟩ := by cases l; simp only at hsz; rw [hsz]
      refine ⟨[], σ, ?_, rfl, by simp, hl ▸ h, by simp, fun _ _ _ => rfl, rfl⟩
      simp only [drainLoop, IsEmpty, hsz, beq_self_eq_true, if_true, pure, Except.pure]
      rw [← hl]
  | cons c cs ih =>
    cases fuel with
    | zero => simp at hf
    | succ k =>
      have hsz : l.size_ ≠ 0 := by rw [h.2]; simp
      obtain ⟨σ1, h1, h2, h3⟩ := EraseAfter_effect h (i := 0) (by simp)
      rw [cursorAt_zero] at h1
      have hfreed := EraseAfter_front_freed h h1
      have hr1 : Repr σ1 ⟨l.head_, l.size_ - 1⟩ cs := by simpa using h2.repr
      have hk : cs.length < k := by simpa using hf
      obtain ⟨steps, τ, h4, h5, h6, h7, h8, h9, h10⟩ := ih hr1 hk
      have hb := hr1.begin_eq.1
      have hcur : (⟨((c :: cs).map Prod.fst)[0 + 1]?⟩ : BasicIterator) =
          ⟨(cs.map Prod.fst).head?⟩ := by
        rw [List.head?_eq_getElem?, List.map_cons, List.getElem?_cons_succ]
      have hnd := h.nodup_footprint
      refine ⟨(⟨(cs.map Prod.fst).head?⟩, ⟨(cs.map Prod.fst).head?⟩) :: steps, τ, ?_, by simp [h5],
        ?_, h7, ?_, ?_, by omega⟩
      · rw [hcur] at h1
        simp only [drainLoop, IsEmpty, hsz, beq_iff_eq, if_false, h1, hb, h4, bind, Except.bind,
          pure, Except.pure]
      · intro s hs
        rcases List.mem_cons.mp hs with rfl | hs
        · rfl
        · exact h6 s hs
      · intro a ha
        simp only [List.map_cons, List.mem_cons] at ha
        by_cases hmem : a ∈ cs.map Prod.fst
        · exact h8 a hmem
        · have hac : a = c.1 := by tauto
          subst hac
          have hlt : c.1 < σ1.length := by
            rw [h3]; exact h.footprint_lt _ (by simp [footprint])
          have hnot : c.1 ∉ footprint (SingleLinkedList.mk l.head_ (l.size_ - 1)) cs := by
            simp only [footprint, List.map_cons, List.nodup_cons, List.mem_cons, not_or] at hnd ⊢
            exact ⟨fun he => hnd.1.1 he.symm, hmem⟩
          rw [h9 _ hlt hnot]
          exact hfreed
      · intro x hx hn
        have hn1 : x ∉ footprint (SingleLinkedList.mk l.head_ (l.size_ - 1)) cs := by
          simp only [footprint, List.map_cons, List.mem_cons, not_or] at hn ⊢
          exact ⟨hn.1, hn.2.2⟩
        rw [h9 x (by omega) hn1, h2.frame x hx hn]

/-- C20. On a list with `GetSize() == n`, repeating `EraseAfter(before_begin())`
while the list is not empty returns after exactly `n` erasures, none of which
failed its assertion, each having returned the cursor that `begin()` gives on
the list it left; at the end `GetSize()` is zero, `IsEmpty()` holds, `begin()`
equals `end()`, the `next_node` of the sentinel is null, and every former node
is released. -/
theorem drain_spec {σ : Heap T} {l : SingleLinkedList} {cs : List (Nat × T)}
    (h : Repr σ l cs) :
    ∃ steps l1 τ, drain l σ = .ok (steps, l1, τ) ∧
      steps.length = GetSize l ∧ (∀ s ∈ steps, s.1 = s.2) ∧
      GetSize l1 = 0 ∧ IsEmpty l1 = true ∧ begin l1 τ = .ok end_ ∧
      (∃ n, τ.read l1.head_ = some n ∧ n.next_node = none) ∧
      (∀ a ∈ cs.map Prod.fst, τ.read a = none) := by
  obtain ⟨steps, τ, h1, h2, h3, h4, h5, _⟩ := drainLoop_spec h (Nat.lt_succ_of_lt h.length_lt)
  refine ⟨steps, _, τ, h1, by rw [h2]; exact h.2.symm, h3, rfl, rfl, ?_, ?_, h5⟩
  · rw [h4.begin_eq.1]; rfl
  · obtain ⟨⟨n, hn, hs⟩, _⟩ := h4
    exact ⟨n, hn, hs⟩

/-! ## Copy assignment when copies may throw -/

theorem InsertAfterCopying_false (l : SingleLinkedList) (pos : BasicIterator) (v : T)
    (σ : Heap T) :
    InsertAfterCopying false l pos v σ =
      (InsertAfter l pos v σ).map fun r => (some (r.1, r.2.1), r.2.2) := by
  obtain ⟨node⟩ := pos
  cases node with
  | none => rfl
  | some p =>
    simp only [InsertAfterCopying, InsertAfter, Heap.new, bind, Except.bind, pure, Except.pure]
    cases σ.load (some p) with
    | error e => rfl
    | ok n =>
      simp only [Except.map, Bool.false_eq_true, if_false]
      cases Heap.setNext (σ ++ [some (Node.mk v n.next_node)]) p (some σ.length) <;> rfl

theorem InsertAfterCopying_true {σ : Heap T} {l : SingleLinkedList} {cs : List (Nat × T)}
    (h : Repr σ l cs) {i : Nat} (hi : i ≤ cs.length) (v : T) :
    InsertAfterCopying true l (cursorAt l cs i) v σ = .ok (none, σ) := by
  obtain ⟨a, n, h1, h2, _, _⟩ := cursor_read h hi
  simp only [InsertAfterCopying, h1, Heap.load, h2, if_true, bind, Except.bind, pure,
    Except.pure]

theorem copyLoopCopying_spec (throws : Nat → T → Bool) {σ : Heap T} {l : SingleLinkedList}
    {cs rest : List (Nat × T)} {it : BasicIterator} (hsrc : Seg σ it.node_ rest)
    (h : Repr σ l cs) (hdisj : ∀ a ∈ rest.map Prod.fst, a ∉ footprint l cs) {fuel : Nat}
    (hf : rest.length < fuel) (k : Nat) :
    ∃ thrown l1 τ news,
      copyLoopCopying throws fuel k σ l (cursorAt l cs cs.length) it = .ok (thrown, l1, τ) ∧
      Effect σ τ l cs l1 (cs ++ news) ∧
      (thrown = true ↔ ∃ i v, (rest.map Prod.snd)[i]? = some v ∧ throws (k + i) v = true) ∧
      (thrown = false → copyLoop fuel σ l (cursorAt l cs cs.length) it = .ok (l1, τ)) ∧
      (∀ x, σ.length ≤ x → x ∉ footprint l1 (cs ++ news) → τ.read x = none) ∧
      l1.head_ = l.head_ := by
  induction rest generalizing σ l cs fuel it k with
  | nil =>
    cases fuel with
    | zero => simp at hf
    | succ f =>
      have hit : it = end_ := by
        cases it
        simp only [end_, BasicIterator.mk.injEq]
        exact hsrc
      refine ⟨false, l, σ, [], ?_, by simpa using Effect.refl h, by simp, fun _ => ?_,
        fun x hx _ => Heap.read_ge σ hx, rfl⟩
      · simp [copyLoopCopying, hit, pure, Except.pure]
      · simp [copyLoop, hit, pure, Except.pure]
  | cons e rest ih =>
    cases fuel with
    | zero => simp at hf
    | succ f =>
      obtain ⟨hp, nx, hr, hs⟩ := hsrc
      have hit : it ≠ end_ := by
        intro he
        rw [he] at hp
        simp [end_] at hp
      by_cases hth : throws k e.2 = true
      · refine ⟨true, l, σ, [], ?_, by simpa using Effect.refl h, ?_,
          fun hc => Bool.noConfusion hc, fun x hx _ => Heap.read_ge σ hx, rfl⟩
        · simp only [copyLoopCopying, hit, if_false, BasicIterator.deref, hp, hr, hth,
            InsertAfterCopying_true h (le_refl _), bind, Except.bind, pure, Except.pure]
        · simp only [true_iff]
          exact ⟨0, e.2, by simp, by simpa using hth⟩
      · have hth0 : throws k e.2 = false := by simpa using hth
        obtain ⟨σ1, h1, h2⟩ := InsertAfter_last h e.2
        have hlen1 : σ1.length = σ.length + 1 := by
          obtain ⟨τ, g1, _, g3⟩ := InsertAfter_effect h (le_refl cs.length) e.2
          rw [g1] at h1
          simp only [Except.ok.injEq, Prod.mk.injEq] at h1
          rw [← h1.2.2]; exact g3
        have hfr : ∀ a ∈ (e :: rest).map Prod.fst, σ1.read a = σ.read a := by
          intro a ha
          have hlt : a < σ.length :=
            Seg.lt_length (show Seg σ (some e.1) (e :: rest) from ⟨rfl, nx, hr, hs⟩) a ha
          exact h2.frame a hlt (hdisj a ha)
        have hr1 : σ1.read e.1 = some ⟨e.2, nx⟩ := by
          rw [hfr e.1 (by simp)]; exact hr
        have hs1 : Seg σ1 nx rest := hs.frame fun a ha => hfr a (by simp [ha])
        have hdisj1 : ∀ a ∈ rest.map Prod.fst,
            a ∉ footprint (SingleLinkedList.mk l.head_ (l.size_ + 1))
              (cs ++ [(σ.length, e.2)]) := by
          intro a ha hmem
          have hlt : a < σ.length := hs.lt_length a ha
          rcases h2.fresh a hmem with h3 | h3
          · exact hdisj a (by simp [ha]) h3
          · omega
        have hf1 : rest.length < f := by simpa using hf
        obtain ⟨thrown, l1, τ, news, h3, h4, h5, h6, h7, h8⟩ :=
          @ih σ1 _ _ ⟨nx⟩ hs1 h2.repr hdisj1 f hf1 (k + 1)
        rw [List.length_append, List.length_singleton] at h3 h6
        rw [List.append_assoc, List.singleton_append] at h4 h7
        refine ⟨thrown, l1, τ, (σ.length, e.2) :: news, ?_, h2.trans h4, ?_, ?_, ?_, h8⟩
        · simp only [copyLoopCopying, hit, if_false, BasicIterator.deref,
            BasicIterator.increment, hp, hr, hr1, hth0, InsertAfterCopying_false, h1, Except.map,
            bind, Except.bind]
          exact h3
        · rw [h5]
          constructor
          · rintro ⟨i, v, hv, ht⟩
            exact ⟨i + 1, v, by simpa using hv, by rw [← ht]; congr 1; omega⟩
          · rintro ⟨i, v, hv, ht⟩
            cases i with
            | zero =>
              simp only [List.map_cons, List.getElem?_cons_zero, Option.some.injEq] at hv
              subst hv
              rw [Nat.add_zero, hth0] at ht
              cases ht
            | succ j =>
              exact ⟨j, v, by simpa using hv, by rw [← ht]; congr 1; omega⟩
        · intro hc
          simp only [copyLoop, hit, if_false, BasicIterator.deref, BasicIterator.increment, hp,
            hr, hr1, h1, bind, Except.bind]
          exact h6 hc
        · intro x hx hn
          rcases Nat.eq_or_lt_of_le hx with he | hlt
          · exfalso
            apply hn
            subst he
            simp [footprint]
          · exact h7 x (by omega) hn

theorem copyConstructCopying_spec (throws : Nat → T → Bool) {σ : Heap T}
    {other : SingleLinkedList} {cso : List (Nat × T)} (ho : Repr σ other cso) (dflt : T) :
    ∃ r τ, copyConstructCopying throws other dflt σ = .ok (r, τ) ∧
      (r = none ↔ ∃ i v, (cso.map Prod.snd)[i]? = some v ∧ throws i v = true) ∧
      (∀ x, x < σ.length → τ.read x = σ.read x) ∧
      (r = none → ∀ x, σ.length ≤ x → τ.read x = none) ∧
      (∀ l1, r = some l1 → copyConstruct other dflt σ = .ok (l1, τ)) := by
  -- the object under construction, then the temporary of `CreateSingleLinkedList`
  obtain ⟨_, hl⟩ := construct_effect dflt σ
  obtain ⟨_, ht⟩ := construct_effect dflt (σ ++ [some (Node.mk dflt none)])
  have ho1 : Repr (σ ++ [some (Node.mk dflt none)]) other cso :=
    ho.transfer fun a ha => Heap.read_append_lt _ _ (ho.footprint_lt a ha)
  have ho2 : Repr (σ ++ [some (Node.mk dflt none)] ++ [some (Node.mk dflt none)]) other cso :=
    ho1.transfer fun a ha => Heap.read_append_lt _ _ (ho1.footprint_lt a ha)
  obtain ⟨hb, hs⟩ := ho2.begin_eq
  have hdisj : ∀ a ∈ cso.map Prod.fst,
      a ∉ footprint (SingleLinkedList.mk (σ ++ [some (Node.mk dflt none)]).length 0)
        ([] : List (Nat × T)) := by
    intro a ha hmem
    have := ho1.footprint_lt a (List.mem_cons_of_mem _ ha)
    simp only [footprint, List.map_nil, List.mem_singleton] at hmem
    omega
  obtain ⟨thrown, t1, σ3, news, h1, h2, h3, h4, h5, hhead⟩ :=
    @copyLoopCopying_spec T throws _ _ _ _ ⟨(cso.map Prod.fst).head?⟩ hs ht hdisj _
      (Nat.lt_succ_of_lt ho2.length_lt) 0
  rw [List.nil_append] at h2 h5
  simp only [Nat.zero_add] at h3
  have hc : Created (σ ++ [some (Node.mk dflt none)]) σ3 t1 news := Created.of_effect h2
  have h1a : copyLoopCopying throws
      ((σ ++ [some (Node.mk dflt none)] ++ [some (Node.mk dflt none)]).length + 1) 0
      (σ ++ [some (Node.mk dflt none)] ++ [some (Node.mk dflt none)])
      ⟨(σ ++ [some (Node.mk dflt none)]).length, 0⟩
      (before_begin ⟨(σ ++ [some (Node.mk dflt none)]).length, 0⟩)
      ⟨(cso.map Prod.fst).head?⟩ = .ok (thrown, t1, σ3) := h1
  have h4a : thrown = false → copyLoop
      ((σ ++ [some (Node.mk dflt none)] ++ [some (Node.mk dflt none)]).length + 1)
      (σ ++ [some (Node.mk dflt none)] ++ [some (Node.mk dflt none)])
      ⟨(σ ++ [some (Node.mk dflt none)]).length, 0⟩
      (before_begin ⟨(σ ++ [some (Node.mk dflt none)]).length, 0⟩)
      ⟨(cso.map Prod.fst).head?⟩ = .ok (t1, σ3) := h4
  have hhead1 : t1.head_ = σ.length + 1 := by simpa using hhead
  cases thrown with
  | true =>
    obtain ⟨σ4, h6, h7, h8, h9⟩ := destroy_effect h2.repr
    refine ⟨none, σ4.delete σ.length, ?_, ?_, ?_, ?_, fun l1 hc1 => Option.noConfusion hc1⟩
    · simp only [copyConstructCopying, CreateSingleLinkedListCopying, construct, Heap.new,
        hb, h1a, h6, if_true, bind, Except.bind, pure, Except.pure]
    · simp only [true_iff]
      exact h3.mp rfl
    · intro x hx
      have hx1 : x < (σ ++ [some (Node.mk dflt none)]).length := by simp; omega
      have hnot : x ∉ footprint t1 news := fun hmem => by
        have := hc.fresh x hmem
        omega
      rw [Heap.read_delete_ne _ (by omega), h9 x hnot, hc.frame x hx1,
        Heap.read_append_lt _ _ hx]
    · intro _ x hx
      rcases Nat.eq_or_lt_of_le hx with he | hlt
      · rw [← he]; exact Heap.read_delete_eq _ _
      · rw [Heap.read_delete_ne _ (by omega)]
        by_cases hmem : x ∈ footprint t1 news
        · exact h8 x hmem
        · rw [h9 x hmem]
          rcases Nat.eq_or_lt_of_le (Nat.succ_le_of_lt hlt) with he2 | hlt2
          · exfalso
            apply hmem
            rw [← he2, Nat.succ_eq_add_one, ← hhead1]
            exact List.mem_cons_self _ _
          · exact h5 x (by simp; omega) hmem
  | false =>
    have hloop := h4a rfl
    obtain ⟨σ4, τ, h6, h7, h8⟩ := create_finish hl hc
    have hcc : copyConstruct other dflt σ = .ok (⟨σ.length, t1.size_⟩, τ) := by
      simp only [copyConstruct, CreateSingleLinkedList, construct, Heap.new, hb, hloop, h6, h7,
        bind, Except.bind, pure, Except.pure]
    obtain ⟨l2, τ2, news2, h9, h10, _⟩ := copyConstruct_created ho dflt
    rw [hcc] at h9
    simp only [Except.ok.injEq, Prod.mk.injEq] at h9
    obtain ⟨rfl, rfl⟩ := h9
    refine ⟨some ⟨σ.length, t1.size_⟩, τ, ?_, ?_, h10.frame, fun hc1 => Option.noConfusion hc1,
      ?_⟩
    · simp only [copyConstructCopying, CreateSingleLinkedListCopying, construct, Heap.new,
        hb, h1a, h6, h7, Bool.false_eq_true, if_false, bind, Except.bind, pure, Except.pure]
    · refine ⟨fun hc1 => Option.noConfusion hc1, fun hex => ?_⟩
      have := h3.mpr hex
      cases this
    · intro l1 hl1
      cases hl1
      exact hcc

/-- C16. Strong exception safety of the copy assignment.  For two distinct lists
`a` and `b`, occupying disjoint cells, and whatever copies throw, `a = b` ends:
an exception leaves it exactly when the copy of some element of `b` throws, and
then `a` has the nodes, the traversal and the `GetSize()` it had before, `b` is
unchanged as well, and every cell taken during the call is released; otherwise
it returns what the assignment returns when no copy throws, `a` holding the
traversal of `b`. -/
theorem assign_exception_safety (throws : Nat → T → Bool) {σ : Heap T}
    {a b : SingleLinkedList} {csa csb : List (Nat × T)} (ha : Repr σ a csa)
    (hb : Repr σ b csb) (hd : (footprint a csa).Disjoint (footprint b csb)) (dflt : T) :
    ∃ r τ, assignCopying throws a b dflt σ = .ok (r, τ) ∧
      toList a σ = .ok (csa.map Prod.snd) ∧ chainLength a σ = .ok (GetSize a) ∧
      (r = none ↔ ∃ i v, (csb.map Prod.snd)[i]? = some v ∧ throws i v = true) ∧
      (r = none →
        toList a τ = .ok (csa.map Prod.snd) ∧ chainLength a τ = .ok (GetSize a) ∧
        Repr τ a csa ∧ Repr τ b csb ∧ ∀ x, σ.length ≤ x → τ.read x = none) ∧
      (∀ a1, r = some a1 →
        assign a b dflt σ = .ok (a1, τ) ∧ toList a1 τ = .ok (csb.map Prod.snd)) := by
  have hne : a.head_ ≠ b.head_ := fun he =>
    hd (List.mem_cons_self _ _) (by rw [he]; exact List.mem_cons_self _ _)
  obtain ⟨r, σ1, h1, h2, h3, h4, h5⟩ := copyConstructCopying_spec throws hb dflt
  cases r with
  | none =>
    have ha1 : Repr σ1 a csa := ha.transfer fun x hx => h3 x (ha.footprint_lt x hx)
    have hb1 : Repr σ1 b csb := hb.transfer fun x hx => h3 x (hb.footprint_lt x hx)
    refine ⟨none, σ1, ?_, ha.toList_eq, ha.chainLength_eq, ?_, fun _ =>
      ⟨ha1.toList_eq, ha1.chainLength_eq, ha1, hb1, h4 rfl⟩, fun a1 hc => Option.noConfusion hc⟩
    · simp only [assignCopying, hne, ne_eq, not_false_eq_true, if_true, h1, bind, Except.bind,
        pure, Except.pure]
    · simp only [true_iff]
      exact h2.mp rfl
  | some copy =>
    have hcc := h5 copy rfl
    obtain ⟨a1, τ, news, h6, h7, h8⟩ := assign_effect ha hb hne dflt
    have h6a := h6
    simp only [assign, hne, ne_eq, not_false_eq_true, if_true, hcc, bind, Except.bind] at h6a
    cases hsw : swap a copy σ1 with
    | error e => rw [hsw] at h6a; cases h6a
    | ok res =>
      obtain ⟨l1, copy1, σ2⟩ := res
      rw [hsw] at h6a
      simp only at h6a
      cases hds : destroy copy1 σ2 with
      | error e => rw [hds] at h6a; cases h6a
      | ok σ3 =>
        rw [hds] at h6a
        simp only [pure, Except.pure, Except.ok.injEq, Prod.mk.injEq] at h6a
        obtain ⟨rfl, rfl⟩ := h6a
        refine ⟨some l1, σ3, ?_, ha.toList_eq, ha.chainLength_eq, ?_,
          fun hc => Option.noConfusion hc, fun a1 hc => ?_⟩
        · simp only [assignCopying, hne, ne_eq, not_false_eq_true, if_true, h1, hsw, hds, bind,
            Except.bind, pure, Except.pure]
        · refine ⟨fun hc => Option.noConfusion hc, fun hex => ?_⟩
          have := h2.mpr hex
          cases this
        · cases hc
          exact ⟨h6, by rw [h7.repr.toList_eq, h8]⟩

theorem example_repr : Repr exampleHeap exampleList exampleNodes :=
  ⟨⟨⟨0, some 2⟩, rfl, rfl, some 1, rfl, rfl, none, rfl, rfl⟩, rfl⟩

/-- Witness of C2: three `PushFront` calls on the list default-constructed in
the empty store. -/
theorem pushFront_sequence_witness :
    ∃ l1 τ, pushFrontAll [1, 2, 3] ⟨0, 0⟩ ([some ⟨0, none⟩] : Heap Nat) = .ok (l1, τ) ∧
      GetSize l1 = [1, 2, 3].length ∧ toList l1 τ = .ok [1, 2, 3].reverse :=
  pushFront_sequence (construct_effect (0 : Nat) []).2 [1, 2, 3]

/-- Witness of C3: inserting `9` after the first node of the list `5, 7`. -/
theorem insertAfter_spec_witness :
    Repr exampleHeap exampleList exampleNodes ∧
    ∃ i it l1 τ, i ≤ exampleNodes.length ∧
      (⟨some 2⟩ : BasicIterator) = cursorAt exampleList exampleNodes i ∧
      InsertAfter exampleList ⟨some 2⟩ 9 exampleHeap = .ok (it, l1, τ) ∧
      toList exampleList exampleHeap = .ok (exampleNodes.map Prod.snd) ∧
      toList l1 τ = .ok ((exampleNodes.map Prod.snd).take i ++
        9 :: (exampleNodes.map Prod.snd).drop i) ∧
      GetSize l1 = GetSize exampleList + 1 ∧
      BasicIterator.increment τ ⟨some 2⟩ = .ok it ∧
      it.deref τ = .ok 9 ∧
      BasicIterator.increment exampleHeap ⟨some 2⟩ =
        .ok (cursorAt exampleList exampleNodes (i + 1)) ∧
      it.increment τ = .ok (cursorAt exampleList exampleNodes (i + 1)) ∧
      (i = exampleNodes.length → cursorAt exampleList exampleNodes (i + 1) = end_) :=
  ⟨example_repr, insertAfter_spec example_repr (Or.inr ⟨2, by decide, rfl⟩) 9⟩

/-- Witness of C4: erasing after `before_begin()` in the list `5, 7`. -/
theorem eraseAfter_spec_witness :
    ∃ i it l1 τ, i < exampleNodes.length ∧
      before_begin exampleList = cursorAt exampleList exampleNodes i ∧
      EraseAfter exampleList (before_begin exampleList) exampleHeap = .ok (it, l1, τ) ∧
      toList exampleList exampleHeap = .ok (exampleNodes.map Prod.snd) ∧
      toList l1 τ = .ok ((exampleNodes.map Prod.snd).eraseIdx i) ∧
      GetSize l1 + 1 = GetSize exampleList ∧
      (before_begin exampleList).increment τ = .ok it ∧
      it = cursorAt exampleList exampleNodes (i + 2) ∧
      (i + 1 = exampleNodes.length → it = end_) :=
  eraseAfter_spec example_repr (Or.inl rfl) ⟨⟨some 2⟩, rfl, by decide⟩

/-- Witness of C5: `PopFront()` on the list `5, 7`. -/
theorem popFront_spec_witness :
    ∃ l1 τ, PopFront exampleList exampleHeap = .ok (l1, τ) ∧
      toList exampleList exampleHeap = .ok (5 :: [(1, 7)].map Prod.snd) ∧
      toList l1 τ = .ok ([(1, 7)].map Prod.snd) ∧
      GetSize l1 + 1 = GetSize exampleList ∧
      ∃ it, EraseAfter exampleList (before_begin exampleList) exampleHeap = .ok (it, l1, τ) :=
  @popFront_spec Nat exampleHeap exampleList (2, 5) [(1, 7)] example_repr

/-- Witness of C6: `PushFront(3)` then `PopFront()` on the list `5, 7`. -/
theorem pushFront_popFront_witness :
    ∃ l1 σ1 l2 σ2, PushFront exampleList 3 exampleHeap = .ok (l1, σ1) ∧
      PopFront l1 σ1 = .ok (l2, σ2) ∧
      GetSize l2 = GetSize exampleList ∧ toList l2 σ2 = toList exampleList exampleHeap ∧
      toList exampleList exampleHeap = .ok (exampleNodes.map Prod.snd) :=
  pushFront_popFront example_repr 3

/-- Witness of C7: `InsertAfter(before_begin(), 3)` and `PushFront(3)` on the
list `5, 7`. -/
theorem insertAfter_before_begin_eq_pushFront_witness :
    ∃ it l1 τ, InsertAfter exampleList (before_begin exampleList) 3 exampleHeap = .ok (it, l1, τ) ∧
      PushFront exampleList 3 exampleHeap = .ok (l1, τ) ∧
      begin l1 τ = .ok it ∧
      toList l1 τ = .ok (3 :: exampleNodes.map Prod.snd) ∧
      GetSize l1 = GetSize exampleList + 1 :=
  insertAfter_before_begin_eq_pushFront example_repr 3

theorem example_repr_first : Repr exampleHeap2 exampleList exampleNodes :=
  ⟨⟨⟨0, some 2⟩, rfl, rfl, some 1, rfl, rfl, none, rfl, rfl⟩, rfl⟩

theorem example_repr_second : Repr exampleHeap2 exampleList2 [(4, 8)] :=
  ⟨⟨⟨0, some 4⟩, rfl, rfl, none, rfl, rfl⟩, rfl⟩

theorem example_disjoint :
    (footprint exampleList exampleNodes).Disjoint (footprint exampleList2 [(4, 8)]) := by
  intro a ha hb
  simp [footprint, exampleList, exampleNodes, exampleList2] at ha hb
  omega

/-- Witness of C1: the state reached by default-constructing a list in the
empty store and calling `PushFront(5)`. -/
theorem size_invariant_witness :
    chainLength ⟨0, 1⟩ ([some ⟨0, some 1⟩, some ⟨5, none⟩] : Heap Nat) = .ok (GetSize ⟨0, 1⟩) ∧
      ∃ first, begin ⟨0, 1⟩ ([some ⟨0, some 1⟩, some ⟨5, none⟩] : Heap Nat) = .ok first ∧
        (IsEmpty ⟨0, 1⟩ = true ↔ first = end_) :=
  @size_invariant Nat 0 [some ⟨0, some 1⟩, some ⟨5, none⟩] [⟨0, 1⟩]
    (Reachable.pushFront 5 (Reachable.default (Reachable.start [])) rfl) ⟨0, 1⟩
    (List.mem_cons_self _ _)

/-- Witness of C8: copy-constructing from the list `5, 7`. -/
theorem construction_spec_witness :
    Repr exampleHeap exampleList exampleNodes ∧
    ∃ d τ, copyConstruct exampleList 0 exampleHeap = .ok (d, τ) ∧
      toList exampleList exampleHeap = .ok (exampleNodes.map Prod.snd) ∧
      toList d τ = .ok (exampleNodes.map Prod.snd) ∧
      toList exampleList τ = .ok (exampleNodes.map Prod.snd) ∧
      GetSize d = GetSize exampleList ∧ GetSize d = exampleNodes.length ∧
      eq d exampleList τ = .ok true :=
  ⟨example_repr, (construction_spec (0 : Nat)).2.1 exampleHeap exampleList exampleNodes
    example_repr⟩

/-- Witness of C9: copying the list `5, 7` and mutating the copy. -/
theorem copy_isolation_witness :
    ∃ d σ1 ds, copyConstruct exampleList 0 exampleHeap = .ok (d, σ1) ∧ Repr σ1 d ds ∧
      toList exampleList exampleHeap = .ok (exampleNodes.map Prod.snd) ∧
      chainLength exampleList exampleHeap = .ok (GetSize exampleList) ∧
      ∀ m : Mutation Nat, m.Allowed σ1 d ds →
        ∃ d2 σ2, m.apply d σ1 = .ok (d2, σ2) ∧
          toList exampleList σ2 = .ok (exampleNodes.map Prod.snd) ∧
          chainLength exampleList σ2 = .ok (GetSize exampleList) ∧
          Repr σ2 exampleList exampleNodes :=
  copy_isolation example_repr 0

/-- Witness of C10: assigning the list `8` to the list `5, 7`. -/
theorem assign_spec_witness :
    (∃ a1 τ, assign exampleList exampleList2 0 exampleHeap2 = .ok (a1, τ) ∧
      a1.head_ = exampleList.head_ ∧ a1.head_ ≠ exampleList2.head_ ∧
      toList exampleList2 exampleHeap2 = .ok ([(4, 8)].map Prod.snd) ∧
      toList a1 τ = .ok ([(4, 8)].map Prod.snd) ∧ GetSize a1 = GetSize exampleList2 ∧
      eq a1 exampleList2 τ = .ok true ∧
      toList exampleList2 τ = .ok ([(4, 8)].map Prod.snd) ∧
      Repr τ exampleList2 [(4, 8)] ∧
      (∃ news, Repr τ a1 news ∧ news.map Prod.snd = [(4, 8)].map Prod.snd ∧
        (footprint a1 news).Disjoint (footprint exampleList2 [(4, 8)]))) ∧
    assign exampleList exampleList 0 exampleHeap2 = .ok (exampleList, exampleHeap2) :=
  assign_spec example_repr_first example_repr_second example_disjoint 0

/-- Witness of C11: swapping the lists `5, 7` and `8`. -/
theorem swap_spec_witness :
    (∃ a1 b1 τ, swap exampleList exampleList2 exampleHeap2 = .ok (a1, b1, τ) ∧
      free_swap exampleList exampleList2 exampleHeap2 = .ok (a1, b1, τ) ∧
      a1.head_ = exampleList.head_ ∧ b1.head_ = exampleList2.head_ ∧ a1.head_ ≠ b1.head_ ∧
      GetSize a1 = GetSize exampleList2 ∧ GetSize b1 = GetSize exampleList ∧
      toList exampleList exampleHeap2 = .ok (exampleNodes.map Prod.snd) ∧
      toList exampleList2 exampleHeap2 = .ok ([(4, 8)].map Prod.snd) ∧
      toList a1 τ = .ok ([(4, 8)].map Prod.snd) ∧
      toList b1 τ = .ok (exampleNodes.map Prod.snd) ∧
      swap a1 b1 τ = .ok (exampleList, exampleList2, exampleHeap2) ∧
      free_swap a1 b1 τ = .ok (exampleList, exampleList2, exampleHeap2) ∧
      Repr τ a1 [(4, 8)] ∧ Repr τ b1 exampleNodes) ∧
    (∃ τ, swap exampleList exampleList exampleHeap2 = .ok (exampleList, exampleList, τ) ∧
      toList exampleList τ = .ok (exampleNodes.map Prod.snd)) :=
  swap_spec example_repr_first example_repr_second example_disjoint

/-- Witness of C12: comparing the lists `5, 7` and `8` with `==`. -/
theorem eq_spec_witness :
    ∃ r, eq exampleList exampleList2 exampleHeap2 = .ok r ∧
      toList exampleList exampleHeap2 = .ok (exampleNodes.map Prod.snd) ∧
      toList exampleList2 exampleHeap2 = .ok ([(4, 8)].map Prod.snd) ∧
      (r = true ↔ GetSize exampleList = GetSize exampleList2 ∧
        ∀ i : Nat, (exampleNodes.map Prod.snd)[i]? = ([(4, 8)].map Prod.snd)[i]?) ∧
      eq exampleList exampleList exampleHeap2 = .ok true ∧
      ne exampleList exampleList2 exampleHeap2 = .ok (!r) :=
  eq_spec example_repr_first example_repr_second

/-- Witness of C13: comparing the lists `5, 7` and `8` with `<`. -/
theorem lt_spec_witness :
    (∃ r, lt exampleList exampleList2 exampleHeap2 = .ok r ∧
      toList exampleList exampleHeap2 = .ok (exampleNodes.map Prod.snd) ∧
      toList exampleList2 exampleHeap2 = .ok ([(4, 8)].map Prod.snd) ∧
      (r = true ↔ LexLess (exampleNodes.map Prod.snd) ([(4, 8)].map Prod.snd))) ∧
    ltOfValues (0 : Nat) [1, 2, 3] [1, 2, 4] = .ok true ∧
    ltOfValues (0 : Nat) [1, 2] [1, 2, 3] = .ok true ∧
    ltOfValues (0 : Nat) [] [1] = .ok true ∧
    ltOfValues (0 : Nat) [1, 2, 3] [1, 2, 3] = .ok false :=
  lt_spec example_repr_first example_repr_second

/-- Witness of C14: the derived comparisons of the lists `5, 7` and `8`. -/
theorem derived_comparisons_witness :
    ∃ r s, lt exampleList exampleList2 exampleHeap2 = .ok r ∧
      lt exampleList2 exampleList exampleHeap2 = .ok s ∧
      le exampleList exampleList2 exampleHeap2 = .ok (!s) ∧
      gt exampleList exampleList2 exampleHeap2 = .ok s ∧
      ge exampleList exampleList2 exampleHeap2 = .ok (!r) :=
  (derived_comparisons exampleList exampleList2 exampleHeap2).2.2.2 exampleNodes [(4, 8)]
    example_repr_first example_repr_second

/-- Witness of C15: clearing the list `5, 7`. -/
theorem clear_spec_witness :
    ∃ l1 τ, Clear exampleList exampleHeap = .ok (l1, τ) ∧ IsEmpty l1 = true ∧ GetSize l1 = 0 ∧
      begin l1 τ = .ok end_ ∧ toList l1 τ = .ok [] ∧
      (∀ a ∈ exampleNodes.map Prod.fst, τ.read a = none) ∧
      Clear l1 τ = .ok (l1, τ) :=
  clear_spec example_repr

/-- Witness of C16: assigning the list `5, 7` to the list `8` when the second
copy throws. -/
theorem assign_exception_safety_witness :
    ∃ r τ, assignCopying (fun k _ => k == 1) exampleList2 exampleList 0 exampleHeap2 =
        .ok (r, τ) ∧
      toList exampleList2 exampleHeap2 = .ok ([(4, 8)].map Prod.snd) ∧
      chainLength exampleList2 exampleHeap2 = .ok (GetSize exampleList2) ∧
      (r = none ↔ ∃ i v, (exampleNodes.map Prod.snd)[i]? = some v ∧
        (fun (k : Nat) (_ : Nat) => k == 1) i v = true) ∧
      (r = none →
        toList exampleList2 τ = .ok ([(4, 8)].map Prod.snd) ∧
        chainLength exampleList2 τ = .ok (GetSize exampleList2) ∧
        Repr τ exampleList2 [(4, 8)] ∧ Repr τ exampleList exampleNodes ∧
        ∀ x, exampleHeap2.length ≤ x → τ.read x = none) ∧
      (∀ a1, r = some a1 →
        assign exampleList2 exampleList 0 exampleHeap2 = .ok (a1, τ) ∧
        toList a1 τ = .ok (exampleNodes.map Prod.snd)) :=
  assign_exception_safety (fun k _ => k == 1) example_repr_second example_repr_first
    example_disjoint.symm 0

/-- Witness of C17: the calls within their preconditions on the list `5, 7`. -/
theorem assertion_spec_witness :
    (IsEmpty exampleList = true ↔ exampleNodes = []) ∧
    (exampleNodes ≠ [] → ∃ r, PopFront exampleList exampleHeap = .ok r) ∧
    (∀ i, i < exampleNodes.length →
      ∃ r, EraseAfter exampleList (cursorAt exampleList exampleNodes i) exampleHeap = .ok r) ∧
    (∀ i, i ≤ exampleNodes.length →
      ∃ r, (cursorAt exampleList exampleNodes i).increment exampleHeap = .ok r) ∧
    (∀ i, 1 ≤ i → i ≤ exampleNodes.length →
      (∃ v, (cursorAt exampleList exampleNodes i).deref exampleHeap = .ok v) ∧
      ∃ p, (cursorAt exampleList exampleNodes i).arrow exampleHeap = .ok p) :=
  (@assertion_spec Nat).2.2.2 exampleHeap exampleList exampleNodes example_repr

/-- Counterexample to C18: a cursor to the node of the list `8`, at address `4`,
is not on the chain of the list `5, 7`, yet `InsertAfter` called on the list
`5, 7` with it passes the assertion and returns; its counter becomes `3` while
its chain still has `2` nodes. -/
theorem insertAfter_foreign_counterexample :
    4 ∉ footprint exampleList exampleNodes ∧
    InsertAfter exampleList ⟨some 4⟩ 9 exampleHeap2 ≠ .error .assertion ∧
    ∃ it l1 τ, InsertAfter exampleList ⟨some 4⟩ 9 exampleHeap2 = .ok (it, l1, τ) ∧
      GetSize l1 = 3 ∧ chainLength l1 τ = .ok 2 := by
  refine ⟨by decide, fun h => ?_, ⟨some 5⟩, ⟨0, 3⟩, _, rfl, rfl, rfl⟩
  cases h

/-- Witness of C18 as amended: `InsertAfter` called on the list `5, 7` with a
cursor of the list `8`. -/
theorem insertAfter_assertion_spec_witness :
    ∀ (i : Nat) (v : Nat), i ≤ [(4, 8)].length →
      ∃ it a1 τ, InsertAfter exampleList (cursorAt exampleList2 [(4, 8)] i) v exampleHeap2 =
          .ok (it, a1, τ) ∧
        GetSize a1 = GetSize exampleList + 1 ∧
        chainLength a1 τ = .ok (GetSize exampleList) ∧
        toList a1 τ = .ok (exampleNodes.map Prod.snd) ∧
        chainLength exampleList2 τ = .ok (GetSize exampleList2 + 1) ∧
        toList exampleList2 τ =
          .ok (([(4, 8)].map Prod.snd).take i ++ v :: ([(4, 8)].map Prod.snd).drop i) :=
  (@insertAfter_assertion_spec Nat).2 exampleHeap2 exampleList exampleList2 exampleNodes
    [(4, 8)] example_repr_first example_repr_second example_disjoint

/-- Counterexample to C19: dereferencing `before_begin()` of the list `5, 7`
does not fail the assertion; it returns the value `0` held by the sentinel. -/
theorem deref_before_begin_counterexample :
    (before_begin exampleList).deref exampleHeap ≠ .error .assertion ∧
    (before_begin exampleList).arrow exampleHeap ≠ .error .assertion ∧
    (before_begin exampleList).deref exampleHeap = .ok 0 := by
  refine ⟨fun h => ?_, fun h => ?_, rfl⟩
  · cases h
  · cases h

/-- Witness of C19 as amended: dereferencing `before_begin()` of the list
`5, 7`. -/
theorem deref_before_begin_spec_witness :
    ∃ h, exampleHeap.read exampleList.head_ = some h ∧
      (before_begin exampleList).deref exampleHeap = .ok h.value ∧
      (before_begin exampleList).arrow exampleHeap = .ok exampleList.head_ :=
  (@deref_before_begin_spec Nat).2.1 exampleHeap exampleList exampleNodes example_repr

/-- Witness of C20: draining the list `5, 7`. -/
theorem drain_spec_witness :
    ∃ steps l1 τ, drain exampleList exampleHeap = .ok (steps, l1, τ) ∧
      steps.length = GetSize exampleList ∧ (∀ s ∈ steps, s.1 = s.2) ∧
      GetSize l1 = 0 ∧ IsEmpty l1 = true ∧ begin l1 τ = .ok end_ ∧
      (∃ n, τ.read l1.head_ = some n ∧ n.next_node = none) ∧
      (∀ a ∈ exampleNodes.map Prod.fst, τ.read a = none) :=
  drain_spec example_repr

end SLL
